import Mathlib

/-!
# Verification of the Orderbook matching engine (Rust sources)

Shallow embedding of the core of the `Orderbook` repository:
`src/orderbook/types.rs`, `price_level.rs`, `book.rs`, `matching.rs`,
`operations.rs`.  Machine integers (`u64`) are modelled as `Nat`; the
counters are only ever decremented by amounts they were previously
incremented by on the paths we verify, and the well-formedness invariants
we prove rule out underflow, so `Nat` truncated subtraction coincides with
`u64` wrapping subtraction everywhere it is used.  `Uuid` order ids are
modelled as `Nat` (ids are generated by external callers; only equality is
used).  Timestamps and the random trade `Uuid` are dropped: no verified
property mentions them.  `DashMap` is modelled as an association list with
duplicate-free keys (sequential semantics: every public operation is
applied atomically, which is the serialization discipline the spec
mandates).  `Arc<PriceLevel>` in-place mutation is modelled by writing the
updated level back into the association list at the same key.
-/

namespace OrderbookProof

/-! ## Generic list helpers (association lists keyed by `Nat`, sorting) -/

/-- First value bound to key `k`, mirroring `DashMap::get`. -/
def alGet {α : Type} (l : List (Nat × α)) (k : Nat) : Option α :=
  match l with
  | [] => none
  | (k', v) :: rest => if k' = k then some v else alGet rest k

/-- Replace the value at key `k` (first occurrence), mirroring the in-place
update of the `Arc<PriceLevel>` shared between the map and a traversal. -/
def alUpdate {α : Type} (l : List (Nat × α)) (k : Nat) (v : α) : List (Nat × α) :=
  match l with
  | [] => []
  | (k', v') :: rest => if k' = k then (k', v) :: rest else (k', v') :: alUpdate rest k v

/-- Remove the entry at key `k` (first occurrence), mirroring `DashMap::remove`. -/
def alRemove {α : Type} (l : List (Nat × α)) (k : Nat) : List (Nat × α) :=
  match l with
  | [] => []
  | (k', v') :: rest => if k' = k then rest else (k', v') :: alRemove rest k

/-- Keys of an association list. -/
def alKeys {α : Type} (l : List (Nat × α)) : List Nat := l.map Prod.fst

/-- `DashMap::insert`: replace the value when the key is present,
append a fresh entry otherwise. -/
def alInsert {α : Type} (l : List (Nat × α)) (k : Nat) (v : α) : List (Nat × α) :=
  if (alGet l k).isSome then alUpdate l k v else l ++ [(k, v)]

/-- `entry(k).or_insert_with(default)`: the value at `k`, inserting
`default` if absent; returns the (possibly new) value and map. -/
def alGetOrInsert {α : Type} (l : List (Nat × α)) (k : Nat) (default : α) :
    α × List (Nat × α) :=
  match alGet l k with
  | some v => (v, l)
  | none => (default, l ++ [(k, default)])

/-- Maximum of a list of prices (`iter().max()`). -/
def maxP : List Nat → Option Nat
  | [] => none
  | p :: rest =>
    match maxP rest with
    | none => some p
    | some m => some (max p m)

/-- Minimum of a list of prices (`iter().min()`). -/
def minP : List Nat → Option Nat
  | [] => none
  | p :: rest =>
    match minP rest with
    | none => some p
    | some m => some (min p m)

/-- Insert into a list sorted by the boolean comparison `le`. -/
def insSorted {α : Type} (le : α → α → Bool) (a : α) : List α → List α
  | [] => [a]
  | b :: rest => if le a b then a :: b :: rest else b :: insSorted le a rest

/-- Insertion sort by the boolean comparison `le`; models the
`sort`/`sort_by`/`sort_by_key` calls of the source. -/
def sortedBy {α : Type} (le : α → α → Bool) : List α → List α
  | [] => []
  | a :: rest => insSorted le a (sortedBy le rest)

/-! ## Domain model (`src/orderbook/types.rs`) -/

/-- `types.rs` `Side`. -/
inductive Side : Type
  | buy
  | sell
deriving DecidableEq, Repr

/-- `types.rs` `OrderType`. -/
inductive OrderType : Type
  | market
  | limit
  | stop
  | stopLimit (stop_price : Nat)
  | immediateOrCancel
  | fillOrKill
deriving DecidableEq, Repr

/-- `types.rs` `OrderStatus` (`PartiallyFilled` is rendered `partFilled`). -/
inductive OrderStatus : Type
  | new
  | partFilled
  | filled
  | cancelled
  | rejected
  | expired
deriving DecidableEq, Repr

/-- `types.rs` `Order`.  `id : Uuid` becomes `Nat`; the timestamp is
dropped (no verified property mentions it). -/
structure Order : Type where
  id : Nat
  symbol : String
  side : Side
  order_type : OrderType
  price : Nat
  original_quantity : Nat
  remaining_quantity : Nat
  filled_quantity : Nat
  status : OrderStatus
  client_id : Option String
deriving DecidableEq, Repr

/-- `types.rs` `Trade`.  The random trade `Uuid` and the timestamp are
dropped (no verified property mentions them). -/
structure Trade : Type where
  symbol : String
  buyer_order_id : Nat
  seller_order_id : Nat
  price : Nat
  quantity : Nat
deriving DecidableEq, Repr

/-- `types.rs` `OrderLocation`. -/
structure OrderLocation : Type where
  price : Nat
  side : Side
deriving DecidableEq, Repr

/-- `types.rs` `MarketEvent` (the `BookSnapshot` variant is omitted: no
operation we embed emits it). -/
inductive MarketEvent : Type
  | orderAdded (order : Order)
  | orderCancelled (order_id : Nat) (remaining_quantity : Nat)
  | orderModified (order_id : Nat) (new_price : Option Nat) (new_quantity : Option Nat)
  | trade (trade : Trade)
deriving DecidableEq, Repr

/-- `error.rs` `OrderBookError`. -/
inductive OrderBookError : Type
  | orderNotFound
  | invalidSymbol
  | invalidOrderType
  | invalidPrice
  | invalidQuantity
  | noLiquidity
  | duplicateOrder
  | overFill
  | invalidOrderState
  | selfTrade
  | orderTooLarge
  | priceOutOfRange
  | systemError (msg : String)
deriving DecidableEq, Repr

/-- `types.rs` `Order::fill`: rejects a fill beyond the remaining
quantity, otherwise moves quantity from remaining to filled and updates
the status. -/
def Order.fill (o : Order) (quantity : Nat) : Except String Order :=
  if quantity > o.remaining_quantity then
    Except.error "Cannot fill more than remaining quantity"
  else
    Except.ok
      { o with
        remaining_quantity := o.remaining_quantity - quantity
        filled_quantity := o.filled_quantity + quantity
        status :=
          if o.remaining_quantity - quantity = 0 then OrderStatus.filled
          else OrderStatus.partFilled }

/-- The success branch of `Order::fill` as a total function; `Order.fill`
returns `Except.ok` of exactly this whenever the fill is within the
remaining quantity (`Order.fill_eq_fillT`). -/
def Order.fillT (o : Order) (quantity : Nat) : Order :=
  { o with
    remaining_quantity := o.remaining_quantity - quantity
    filled_quantity := o.filled_quantity + quantity
    status :=
      if o.remaining_quantity - quantity = 0 then OrderStatus.filled
      else OrderStatus.partFilled }

/-- `types.rs` `Order::cancel`. -/
def Order.cancel (o : Order) : Order := { o with status := OrderStatus.cancelled }

/-- `types.rs` `Order::is_complete`. -/
def Order.isComplete (o : Order) : Bool :=
  match o.status with
  | OrderStatus.filled => true
  | OrderStatus.cancelled => true
  | OrderStatus.rejected => true
  | OrderStatus.expired => true
  | _ => false

/-! ## Price level (`src/orderbook/price_level.rs`)

The level's `orders: RwLock<VecDeque<Order>>` becomes a `List Order`
(front = head); the `AtomicU64` aggregate counters become `Nat` fields
updated by exactly the deltas the source applies. -/

/-- `price_level.rs` `PriceLevel`. -/
structure PriceLevel : Type where
  price : Nat
  orders : List Order
  total_quantity : Nat
  order_count : Nat
deriving DecidableEq, Repr

/-- `PriceLevel::new`. -/
def PriceLevel.new (price : Nat) : PriceLevel :=
  { price := price, orders := [], total_quantity := 0, order_count := 0 }

/-- `PriceLevel::add_order`: append at the tail, bump both counters. -/
def PriceLevel.addOrder (lvl : PriceLevel) (o : Order) : PriceLevel :=
  { lvl with
    orders := lvl.orders ++ [o]
    total_quantity := lvl.total_quantity + o.remaining_quantity
    order_count := lvl.order_count + 1 }

/-- Remove the first order with the given id from a queue, returning it. -/
def removeById (order_id : Nat) : List Order → Option Order × List Order
  | [] => (none, [])
  | o :: rest =>
    if o.id = order_id then (some o, rest)
    else
      let (found, rest') := removeById order_id rest
      (found, o :: rest')

/-- `PriceLevel::remove_order`: linear search by id; on a hit, subtract
the removed order's remaining quantity and decrement the count. -/
def PriceLevel.removeOrder (lvl : PriceLevel) (order_id : Nat) :
    Option Order × PriceLevel :=
  match removeById order_id lvl.orders with
  | (none, _) => (none, lvl)
  | (some o, rest) =>
    (some o,
      { lvl with
        orders := rest
        total_quantity := lvl.total_quantity - o.remaining_quantity
        order_count := lvl.order_count - 1 })

/-- Loop body of `PriceLevel::take_quantity` over the queue, threading the
two aggregate counters; `Order::fill` inside the source loop is
`expect`-ed, rendered here by the total `Order.fillT` (the checked variant
`takeGoChecked` shows the `expect` can never fire). -/
def takeGo (requested : Nat) (queue : List Order) (tot cnt : Nat) :
    List (Order × Nat) × List Order × Nat × Nat :=
  match queue with
  | [] => ([], [], tot, cnt)
  | o :: rest =>
    if requested = 0 then ([], o :: rest, tot, cnt)
    else
      let available := o.remaining_quantity
      let fq := min requested available
      let o' := o.fillT fq
      if o'.remaining_quantity = 0 then
        let (fills, q', tot', cnt') := takeGo (requested - fq) rest (tot - fq) (cnt - 1)
        ((o', fq) :: fills, q', tot', cnt')
      else
        ([(o', fq)], o' :: rest, tot - fq, cnt)

/-- `PriceLevel::take_quantity`: fill from the front, popping exhausted
orders, until the requested quantity is satisfied or the queue empties;
returns the affected orders (post-fill clones) with their fill amounts. -/
def PriceLevel.takeQuantity (lvl : PriceLevel) (requested : Nat) :
    List (Order × Nat) × PriceLevel :=
  let (fills, q', tot', cnt') :=
    takeGo requested lvl.orders lvl.total_quantity lvl.order_count
  (fills, { lvl with orders := q', total_quantity := tot', order_count := cnt' })

/-- Checked variant of the `take_quantity` loop, using the fallible
`Order.fill`; `none` marks the source's
`.expect("Fill should succeed")` aborting. -/
def takeGoChecked (requested : Nat) (queue : List Order) (tot cnt : Nat) :
    Option (List (Order × Nat) × List Order × Nat × Nat) :=
  match queue with
  | [] => some ([], [], tot, cnt)
  | o :: rest =>
    if requested = 0 then some ([], o :: rest, tot, cnt)
    else
      let available := o.remaining_quantity
      let fq := min requested available
      match o.fill fq with
      | Except.error _ => none
      | Except.ok o' =>
        if o'.remaining_quantity = 0 then
          match takeGoChecked (requested - fq) rest (tot - fq) (cnt - 1) with
          | none => none
          | some (fills, q', tot', cnt') => some ((o', fq) :: fills, q', tot', cnt')
        else
          some ([(o', fq)], o' :: rest, tot - fq, cnt)

/-- Checked `PriceLevel::take_quantity`; `none` marks the panic. -/
def PriceLevel.takeQuantityChecked (lvl : PriceLevel) (requested : Nat) :
    Option (List (Order × Nat) × PriceLevel) :=
  match takeGoChecked requested lvl.orders lvl.total_quantity lvl.order_count with
  | none => none
  | some (fills, q', tot', cnt') =>
    some (fills, { lvl with orders := q', total_quantity := tot', order_count := cnt' })

/-- Replace the remaining quantity of the first order with the given id,
returning its old remaining quantity (`orders.iter_mut().find`). -/
def setRemainingById (order_id : Nat) (new_quantity : Nat) :
    List Order → Option Nat × List Order
  | [] => (none, [])
  | o :: rest =>
    if o.id = order_id then
      (some o.remaining_quantity, { o with remaining_quantity := new_quantity } :: rest)
    else
      let (found, rest') := setRemainingById order_id new_quantity rest
      (found, o :: rest')

/-- `PriceLevel::modify_order_quantity`: overwrite the order's
`remaining_quantity` in place and adjust the aggregate by the signed
delta.  Time priority (queue position) is untouched. -/
def PriceLevel.modifyOrderQuantity (lvl : PriceLevel) (order_id : Nat)
    (new_quantity : Nat) : Option Nat × PriceLevel :=
  match setRemainingById order_id new_quantity lvl.orders with
  | (none, _) => (none, lvl)
  | (some old, orders') =>
    let tot' :=
      if new_quantity ≥ old then lvl.total_quantity + (new_quantity - old)
      else lvl.total_quantity - (old - new_quantity)
    (some old, { lvl with orders := orders', total_quantity := tot' })

/-- `PriceLevel::is_empty` (`order_count() == 0`). -/
def PriceLevel.isEmpty (lvl : PriceLevel) : Bool := lvl.order_count = 0

/-! ## Facts about the `take_quantity` loop -/

/-- Sum of the remaining quantities of a queue. -/
def sumRem (queue : List Order) : Nat := (queue.map Order.remaining_quantity).sum

/-- Ids of the orders of a queue. -/
def idsOf (queue : List Order) : List Nat := queue.map Order.id

/-- Sum of the fill amounts of a fills list. -/
def sumFills (fills : List (Order × Nat)) : Nat := (fills.map Prod.snd).sum

/-! ## Order book (`src/orderbook/book.rs`)

The two `DashMap<Price, Arc<PriceLevel>>` sides and the
`DashMap<OrderId, OrderLocation>` become association lists; the atomic
statistics become `Nat` fields.  `sequence_number` is dropped (never
read). -/

/-- `book.rs` `OrderBook`. -/
structure OrderBook : Type where
  symbol : String
  bids : List (Nat × PriceLevel)
  asks : List (Nat × PriceLevel)
  order_locations : List (Nat × OrderLocation)
  last_trade_price : Nat
  total_trades : Nat
  total_volume : Nat
deriving DecidableEq, Repr

/-- `OrderBook::new`. -/
def OrderBook.new (symbol : String) : OrderBook :=
  { symbol := symbol, bids := [], asks := [], order_locations := []
    last_trade_price := 0, total_trades := 0, total_volume := 0 }

/-- `OrderBook::best_bid` (`bids.iter().map(key).max()`). -/
def OrderBook.bestBid (b : OrderBook) : Option Nat := maxP (alKeys b.bids)

/-- `OrderBook::best_ask` (`asks.iter().map(key).min()`). -/
def OrderBook.bestAsk (b : OrderBook) : Option Nat := minP (alKeys b.asks)

/-- `OrderBook::total_orders` (`order_locations.len()`). -/
def OrderBook.totalOrders (b : OrderBook) : Nat := b.order_locations.length

/-- The price-eligibility test of the matching loops (`can_match`):
a buy aggressor reaches an ask level priced at or below its limit, a
sell aggressor a bid level priced at or above. -/
def canMatchB (side : Side) (aggressor_price level_price : Nat) : Bool :=
  match side with
  | Side.buy => aggressor_price ≥ level_price
  | Side.sell => aggressor_price ≤ level_price

/-- Buyer/seller pair of a trade (`match order.side`). -/
def tradeIds (side : Side) (aggressor_id matched_id : Nat) : Nat × Nat :=
  match side with
  | Side.buy => (aggressor_id, matched_id)
  | Side.sell => (matched_id, aggressor_id)

/-- Inner fills loop of `OrderBook::match_order` /
`execute_market_order`: one `Trade` per fill at the level's price,
aggressor filled via the fallible `Order::fill` (the `?` operator:
an error aborts, keeping the mutations made so far), fully-filled
resting orders dropped from `order_locations`. -/
def bookFillsE (symbol : String) (side : Side) (aggressor_id price : Nat)
    (fills : List (Order × Nat)) (o : Order) (locs : List (Nat × OrderLocation)) :
    Except OrderBookError (List Trade) × Order × List (Nat × OrderLocation) :=
  match fills with
  | [] => (Except.ok [], o, locs)
  | (matched, fq) :: rest =>
    let (buyer_id, seller_id) := tradeIds side aggressor_id matched.id
    let t : Trade :=
      { symbol := symbol
        buyer_order_id := buyer_id
        seller_order_id := seller_id
        price := price
        quantity := fq }
    match o.fill fq with
    | Except.error _ =>
      -- `order.fill(fill_quantity)?` propagates: the local trades vector is
      -- dropped, the map/location mutations made so far persist.
      (Except.error (OrderBookError.systemError "overfill"), o,
        if matched.isComplete then alRemove locs matched.id else locs)
    | Except.ok o' =>
      let locs' := if matched.isComplete then alRemove locs matched.id else locs
      match bookFillsE symbol side aggressor_id price rest o' locs' with
      | (Except.error e, o'', locs'') => (Except.error e, o'', locs'')
      | (Except.ok ts, o'', locs'') => (Except.ok (t :: ts), o'', locs'')

/-- Total twin of `bookFillsE` (the aggressor fill written with
`Order.fillT`); `bookFillsE_eq` shows the two agree whenever the fill
amounts sum to at most the aggressor's remaining quantity. -/
def bookFills (symbol : String) (side : Side) (aggressor_id price : Nat)
    (fills : List (Order × Nat)) (o : Order) (locs : List (Nat × OrderLocation)) :
    List Trade × Order × List (Nat × OrderLocation) :=
  match fills with
  | [] => ([], o, locs)
  | (matched, fq) :: rest =>
    let (buyer_id, seller_id) := tradeIds side aggressor_id matched.id
    let t : Trade :=
      { symbol := symbol
        buyer_order_id := buyer_id
        seller_order_id := seller_id
        price := price
        quantity := fq }
    let o' := o.fillT fq
    let locs' := if matched.isComplete then alRemove locs matched.id else locs
    let (ts, o'', locs'') := bookFills symbol side aggressor_id price rest o' locs'
    (t :: ts, o'', locs'')

/-- Price-by-price loop of `OrderBook::match_order` (`checkPrice = true`)
and `OrderBook::execute_market_order` (`checkPrice = false`), which share
their body except for the `can_match` break: fresh lookup per price, skip
a missing or zero-quantity level, otherwise take
`min(remaining, available)` from it and drop it if emptied. -/
def bookGoE (checkPrice : Bool) (symbol : String) (prices : List Nat) (o : Order)
    (m : List (Nat × PriceLevel)) (locs : List (Nat × OrderLocation)) :
    Except OrderBookError (List Trade) × Order × List (Nat × PriceLevel) ×
      List (Nat × OrderLocation) :=
  match prices with
  | [] => (Except.ok [], o, m, locs)
  | p :: ps =>
    if o.remaining_quantity = 0 then (Except.ok [], o, m, locs)
    else if checkPrice && !canMatchB o.side o.price p then (Except.ok [], o, m, locs)
    else
      match alGet m p with
      | none => bookGoE checkPrice symbol ps o m locs
      | some lvl =>
        if lvl.total_quantity = 0 then bookGoE checkPrice symbol ps o m locs
        else
          let mq := min o.remaining_quantity lvl.total_quantity
          let (fills, lvl') := lvl.takeQuantity mq
          match bookFillsE symbol o.side o.id p fills o locs with
          | (Except.error e, o', locs') =>
            (Except.error e, o',
              (if lvl'.isEmpty then alRemove m p else alUpdate m p lvl'), locs')
          | (Except.ok ts, o', locs') =>
            let m' := if lvl'.isEmpty then alRemove m p else alUpdate m p lvl'
            match bookGoE checkPrice symbol ps o' m' locs' with
            | (Except.error e, o'', m'', locs'') => (Except.error e, o'', m'', locs'')
            | (Except.ok ts2, o'', m'', locs'') => (Except.ok (ts ++ ts2), o'', m'', locs'')

/-- Total twin of `bookGoE`; `bookGoE_eq` shows the error branch is
unreachable. -/
def bookGo (checkPrice : Bool) (symbol : String) (prices : List Nat) (o : Order)
    (m : List (Nat × PriceLevel)) (locs : List (Nat × OrderLocation)) :
    List Trade × Order × List (Nat × PriceLevel) × List (Nat × OrderLocation) :=
  match prices with
  | [] => ([], o, m, locs)
  | p :: ps =>
    if o.remaining_quantity = 0 then ([], o, m, locs)
    else if checkPrice && !canMatchB o.side o.price p then ([], o, m, locs)
    else
      match alGet m p with
      | none => bookGo checkPrice symbol ps o m locs
      | some lvl =>
        if lvl.total_quantity = 0 then bookGo checkPrice symbol ps o m locs
        else
          let mq := min o.remaining_quantity lvl.total_quantity
          let (fills, lvl') := lvl.takeQuantity mq
          let (ts, o', locs') := bookFills symbol o.side o.id p fills o locs
          let m' := if lvl'.isEmpty then alRemove m p else alUpdate m p lvl'
          let (ts2, o'', m'', locs'') := bookGo checkPrice symbol ps o' m' locs'
          (ts ++ ts2, o'', m'', locs'')

/-- Priority comparison on opposite-side prices: ascending for a buy
aggressor (lowest asks first), descending for a sell aggressor. -/
def priceOrder (side : Side) (a b : Nat) : Bool :=
  match side with
  | Side.buy => decide (a ≤ b)
  | Side.sell => decide (b ≤ a)

/-- Sorted traversal order of the opposite side: ascending ask prices for
a buy aggressor, descending bid prices for a sell aggressor. -/
def priorityPrices (side : Side) (keys : List Nat) : List Nat :=
  sortedBy (priceOrder side) keys

/-- Statistics update at the end of `match_order` /
`execute_market_order`: only when trades happened. -/
def applyStats (b : OrderBook) (ts : List Trade) : OrderBook :=
  if ts.isEmpty then b
  else
    { b with
      total_trades := b.total_trades + ts.length
      total_volume := b.total_volume + (ts.map Trade.quantity).sum
      last_trade_price :=
        match ts.getLast? with
        | some t => t.price
        | none => b.last_trade_price }

/-- `OrderBook::match_order` (`checkPrice = true`) and
`OrderBook::execute_market_order` (`checkPrice = false`): collect and
sort the opposite side's prices, run the loop, update statistics. -/
def OrderBook.bookMatchE (b : OrderBook) (o : Order) (checkPrice : Bool) :
    Except OrderBookError (List Trade) × Order × OrderBook :=
  let oppo := match o.side with | Side.buy => b.asks | Side.sell => b.bids
  let prices := priorityPrices o.side (alKeys oppo)
  match bookGoE checkPrice b.symbol prices o oppo b.order_locations with
  | (Except.error e, o', m', locs') =>
    (Except.error e, o',
      match o.side with
      | Side.buy => { b with asks := m', order_locations := locs' }
      | Side.sell => { b with bids := m', order_locations := locs' })
  | (Except.ok ts, o', m', locs') =>
    let b1 :=
      match o.side with
      | Side.buy => { b with asks := m', order_locations := locs' }
      | Side.sell => { b with bids := m', order_locations := locs' }
    (Except.ok ts, o', applyStats b1 ts)

/-- Total twin of `OrderBook.bookMatchE`. -/
def OrderBook.bookMatch (b : OrderBook) (o : Order) (checkPrice : Bool) :
    List Trade × Order × OrderBook :=
  let oppo := match o.side with | Side.buy => b.asks | Side.sell => b.bids
  let prices := priorityPrices o.side (alKeys oppo)
  let (ts, o', m', locs') := bookGo checkPrice b.symbol prices o oppo b.order_locations
  let b1 :=
    match o.side with
    | Side.buy => { b with asks := m', order_locations := locs' }
    | Side.sell => { b with bids := m', order_locations := locs' }
  (ts, o', applyStats b1 ts)

/-- `OrderBook::add_order_to_book` (also
`OrderOperations::add_order_to_book`, which is identical): get-or-create
the level on the order's own side at the order's price, append the order,
register its location. -/
def OrderBook.addOrderToBook (b : OrderBook) (o : Order) : OrderBook :=
  let sideMap := match o.side with | Side.buy => b.bids | Side.sell => b.asks
  let (lvl, m1) := alGetOrInsert sideMap o.price (PriceLevel.new o.price)
  let m2 := alUpdate m1 o.price (lvl.addOrder o)
  let locs := alInsert b.order_locations o.id ⟨o.price, o.side⟩
  match o.side with
  | Side.buy => { b with bids := m2, order_locations := locs }
  | Side.sell => { b with asks := m2, order_locations := locs }

/-- `OrderBook::add_limit_order`: symbol check, match against the
opposite side, rest any residual on the own side. -/
def OrderBook.addLimitOrder (b : OrderBook) (o : Order) :
    Except OrderBookError (List MarketEvent) × OrderBook :=
  if o.symbol ≠ b.symbol then (Except.error OrderBookError.invalidSymbol, b)
  else
    match b.bookMatchE o true with
    | (Except.error e, _, b') => (Except.error e, b')
    | (Except.ok ts, o', b') =>
      let events := ts.map MarketEvent.trade
      if o'.remaining_quantity > 0 then
        (Except.ok (events ++ [MarketEvent.orderAdded o']), b'.addOrderToBook o')
      else
        (Except.ok events, b')

/-- `OrderBook::add_market_order`: symbol and type checks, execute, error
with `NoLiquidity` when no trade happened, never rest a residual. -/
def OrderBook.addMarketOrder (b : OrderBook) (o : Order) :
    Except OrderBookError (List MarketEvent) × OrderBook :=
  if o.symbol ≠ b.symbol then (Except.error OrderBookError.invalidSymbol, b)
  else if o.order_type ≠ OrderType.market then
    (Except.error OrderBookError.invalidOrderType, b)
  else
    match b.bookMatchE o false with
    | (Except.error e, _, b') => (Except.error e, b')
    | (Except.ok ts, _, b') =>
      if ts.isEmpty then (Except.error OrderBookError.noLiquidity, b')
      else (Except.ok (ts.map MarketEvent.trade), b')

/-- `OrderBook::cancel_order`: take the location out of
`order_locations`, remove the order from its level, drop the level if
emptied, emit `OrderCancelled` with the removed remaining quantity. -/
def OrderBook.cancelOrder (b : OrderBook) (order_id : Nat) :
    Except OrderBookError MarketEvent × OrderBook :=
  match alGet b.order_locations order_id with
  | none => (Except.error OrderBookError.orderNotFound, b)
  | some loc =>
    let b0 := { b with order_locations := alRemove b.order_locations order_id }
    let sideMap := match loc.side with | Side.buy => b0.bids | Side.sell => b0.asks
    match alGet sideMap loc.price with
    | none => (Except.error OrderBookError.orderNotFound, b0)
    | some lvl =>
      match lvl.removeOrder order_id with
      | (none, _) => (Except.error OrderBookError.orderNotFound, b0)
      | (some removed, lvl') =>
        let m' :=
          if lvl'.isEmpty then alRemove sideMap loc.price
          else alUpdate sideMap loc.price lvl'
        let b1 :=
          match loc.side with
          | Side.buy => { b0 with bids := m' }
          | Side.sell => { b0 with asks := m' }
        (Except.ok (MarketEvent.orderCancelled order_id removed.remaining_quantity), b1)

/-- `OrderBook::modify_order_quantity` (the quantity-only in-place modify
on `OrderBook`): no validation at all, overwrite the resting order's
remaining quantity via `PriceLevel::modify_order_quantity`. -/
def OrderBook.modifyOrderQuantity (b : OrderBook) (order_id new_quantity : Nat) :
    Except OrderBookError MarketEvent × OrderBook :=
  match alGet b.order_locations order_id with
  | none => (Except.error OrderBookError.orderNotFound, b)
  | some loc =>
    let sideMap := match loc.side with | Side.buy => b.bids | Side.sell => b.asks
    match alGet sideMap loc.price with
    | none => (Except.error OrderBookError.orderNotFound, b)
    | some lvl =>
      match lvl.modifyOrderQuantity order_id new_quantity with
      | (none, _) => (Except.error OrderBookError.orderNotFound, b)
      | (some _, lvl') =>
        let m' := alUpdate sideMap loc.price lvl'
        let b1 :=
          match loc.side with
          | Side.buy => { b with bids := m' }
          | Side.sell => { b with asks := m' }
        (Except.ok (MarketEvent.orderModified order_id none (some new_quantity)), b1)

/-! ## Matching engine (`src/orderbook/matching.rs`)

`MatchingEngine::match_order` and its per-type helpers operate on a
pre-collected, priority-sorted `&[(Price, Arc<PriceLevel>)]`; level
mutations happen through the shared `Arc`s, so the loop here returns the
updated pair list in place (same keys, same order). -/

/-- `matching.rs` `validate_order_for_matching`. -/
def validateForMatching (o : Order) : Except OrderBookError Unit :=
  if o.remaining_quantity = 0 then Except.error OrderBookError.invalidQuantity
  else if o.isComplete then Except.error OrderBookError.invalidOrderState
  else
    match o.order_type with
    | OrderType.market => Except.ok ()
    | OrderType.limit =>
      if o.price = 0 then Except.error OrderBookError.invalidPrice else Except.ok ()
    | OrderType.immediateOrCancel =>
      if o.price = 0 then Except.error OrderBookError.invalidPrice else Except.ok ()
    | OrderType.fillOrKill =>
      if o.price = 0 then Except.error OrderBookError.invalidPrice else Except.ok ()
    | OrderType.stop => Except.error OrderBookError.invalidOrderType
    | OrderType.stopLimit _ => Except.error OrderBookError.invalidOrderType

/-- Inner fills loop of `match_limit_order` / `match_market_order`: one
trade per fill at the level's price (the aggressor's symbol is used for
the trade), the aggressor's `Order::fill` result is discarded on error
(the source ignores the `Result`), and the loop breaks early once the
aggressor is exhausted. -/
def engineFills (o : Order) (price : Nat) (fills : List (Order × Nat)) :
    List Trade × Order :=
  match fills with
  | [] => ([], o)
  | (matched, fq) :: rest =>
    let (buyer_id, seller_id) := tradeIds o.side o.id matched.id
    let t : Trade :=
      { symbol := o.symbol
        buyer_order_id := buyer_id
        seller_order_id := seller_id
        price := price
        quantity := fq }
    let o' := match o.fill fq with | Except.ok x => x | Except.error _ => o
    if o'.remaining_quantity = 0 then ([t], o')
    else
      let (ts, o'') := engineFills o' price rest
      (t :: ts, o'')

/-- Level loop shared by `match_limit_order` (`checkPrice = true`) and
`match_market_order` (`checkPrice = false`): walk the pre-sorted levels,
break on exhaustion (and, for limit, on the first price that the
aggressor's limit does not reach), skip zero-quantity levels, take
`min(remaining, available)` from each. -/
def engineGo (checkPrice : Bool) (o : Order) :
    List (Nat × PriceLevel) → List Trade × Order × List (Nat × PriceLevel)
  | [] => ([], o, [])
  | (p, lvl) :: rest =>
    if o.remaining_quantity = 0 then ([], o, (p, lvl) :: rest)
    else if checkPrice && !canMatchB o.side o.price p then ([], o, (p, lvl) :: rest)
    else if lvl.total_quantity = 0 then
      let (ts, o', rest') := engineGo checkPrice o rest
      (ts, o', (p, lvl) :: rest')
    else
      let mq := min o.remaining_quantity lvl.total_quantity
      let (fills, lvl') := lvl.takeQuantity mq
      let (ts, o') := engineFills o p fills
      let (ts2, o'', rest') := engineGo checkPrice o' rest
      (ts ++ ts2, o'', (p, lvl') :: rest')

/-- `matching.rs` `calculate_available_quantity`: sum the levels'
`total_quantity` in priority order, stopping at the first level the
order's price cannot reach. -/
def calcAvailable (o : Order) : List (Nat × PriceLevel) → Nat
  | [] => 0
  | (p, lvl) :: rest =>
    if canMatchB o.side o.price p then lvl.total_quantity + calcAvailable o rest
    else 0

/-- `matching.rs` `match_ioc_order`: run the limit matching, then cancel
any residual quietly. -/
def matchIocE (o : Order) (lvls : List (Nat × PriceLevel)) :
    List Trade × Order × List (Nat × PriceLevel) :=
  let (ts, o', lvls') := engineGo true o lvls
  if o'.remaining_quantity > 0 then (ts, o'.cancel, lvls') else (ts, o', lvls')

/-- `matching.rs` `match_fok_order`: pre-scan the available quantity; if
it cannot cover the order, cancel it and trade nothing, else match as a
limit order. -/
def matchFokE (o : Order) (lvls : List (Nat × PriceLevel)) :
    List Trade × Order × List (Nat × PriceLevel) :=
  if calcAvailable o lvls < o.remaining_quantity then ([], o.cancel, lvls)
  else engineGo true o lvls

/-- `matching.rs` `MatchingEngine::match_order`: dispatch on the order
type; `Stop`/`StopLimit` are rejected. -/
def engineMatchOrder (o : Order) (lvls : List (Nat × PriceLevel)) :
    Except OrderBookError (List Trade × Order × List (Nat × PriceLevel)) :=
  match o.order_type with
  | OrderType.market => Except.ok (engineGo false o lvls)
  | OrderType.limit => Except.ok (engineGo true o lvls)
  | OrderType.immediateOrCancel => Except.ok (matchIocE o lvls)
  | OrderType.fillOrKill => Except.ok (matchFokE o lvls)
  | OrderType.stop => Except.error OrderBookError.invalidOrderType
  | OrderType.stopLimit _ => Except.error OrderBookError.invalidOrderType

/-! ## Order operations (`src/orderbook/operations.rs`)

`OrderOperations` works on the `(bids, asks, order_locations)` triple; we
carry the whole `OrderBook` for uniformity — these functions never touch
the statistics fields (the source has no access to them). -/

/-- `operations.rs` `validate_order`. -/
def validateOrder (o : Order) : Except OrderBookError Unit :=
  if o.original_quantity = 0 ∨ o.remaining_quantity = 0 then
    Except.error OrderBookError.invalidQuantity
  else
    match o.order_type with
    | OrderType.limit =>
      if o.price = 0 then Except.error OrderBookError.invalidPrice
      else if o.status ≠ OrderStatus.new then Except.error OrderBookError.invalidOrderState
      else Except.ok ()
    | OrderType.immediateOrCancel =>
      if o.price = 0 then Except.error OrderBookError.invalidPrice
      else if o.status ≠ OrderStatus.new then Except.error OrderBookError.invalidOrderState
      else Except.ok ()
    | OrderType.fillOrKill =>
      if o.price = 0 then Except.error OrderBookError.invalidPrice
      else if o.status ≠ OrderStatus.new then Except.error OrderBookError.invalidOrderState
      else Except.ok ()
    | OrderType.market =>
      if o.status ≠ OrderStatus.new then Except.error OrderBookError.invalidOrderState
      else Except.ok ()
    | OrderType.stop => Except.error OrderBookError.invalidOrderType
    | OrderType.stopLimit _ => Except.error OrderBookError.invalidOrderType

/-- Priority-sorted `(price, level)` pairs of the opposite side
(`levels.sort_by_key(price)` ascending for asks, descending for bids). -/
def sortedPairs (side : Side) (m : List (Nat × PriceLevel)) : List (Nat × PriceLevel) :=
  sortedBy (fun a b => priceOrder side a.1 b.1) m

/-- Propagate the in-place `Arc` mutations of the traversal list back
into the side map: replace each key's level with its updated value. -/
def writeBack (m : List (Nat × PriceLevel)) (lvls : List (Nat × PriceLevel)) :
    List (Nat × PriceLevel) :=
  lvls.foldl (fun acc pl => alUpdate acc pl.1 pl.2) m

/-- Post-matching cleanup of `OrderOperations::match_order`: remove every
level of the traversal list that is now empty. -/
def cleanupLevels (m : List (Nat × PriceLevel)) (lvls : List (Nat × PriceLevel)) :
    List (Nat × PriceLevel) :=
  lvls.foldl (fun acc pl => if pl.2.isEmpty then alRemove acc pl.1 else acc) m

/-- `operations.rs` `match_order`: collect and sort the opposite side,
validate, run the engine, then clean up emptied levels. -/
def opsMatchOrder (b : OrderBook) (o : Order) :
    Except OrderBookError (List Trade) × Order × OrderBook :=
  let oppo := match o.side with | Side.buy => b.asks | Side.sell => b.bids
  let lvls := sortedPairs o.side oppo
  match validateForMatching o with
  | Except.error e => (Except.error e, o, b)
  | Except.ok _ =>
    match engineMatchOrder o lvls with
    | Except.error e => (Except.error e, o, b)
    | Except.ok (ts, o', lvls') =>
      let m' := cleanupLevels (writeBack oppo lvls') lvls'
      match o.side with
      | Side.buy => (Except.ok ts, o', { b with asks := m' })
      | Side.sell => (Except.ok ts, o', { b with bids := m' })

/-- `operations.rs` `OrderOperations::add_order`: validate, match, rest
the residual (unless the order completed or was cancelled by IOC/FOK). -/
def opsAddOrder (b : OrderBook) (o : Order) :
    Except OrderBookError (List MarketEvent) × OrderBook :=
  match validateOrder o with
  | Except.error e => (Except.error e, b)
  | Except.ok _ =>
    match opsMatchOrder b o with
    | (Except.error e, _, b') => (Except.error e, b')
    | (Except.ok ts, o', b') =>
      let events := ts.map MarketEvent.trade
      if o'.remaining_quantity > 0 && !o'.isComplete then
        (Except.ok (events ++ [MarketEvent.orderAdded o']), b'.addOrderToBook o')
      else
        (Except.ok events, b')

/-- Spec §6 `add_ioc`, realised by `OrderOperations::add_order` on an
order of IOC type (the repository has no dedicated entry point; the
wrapper fixes the order type so the dispatcher takes the IOC path). -/
def OrderBook.addIocOrder (b : OrderBook) (o : Order) :
    Except OrderBookError (List MarketEvent) × OrderBook :=
  opsAddOrder b { o with order_type := OrderType.immediateOrCancel }

/-- Spec §6 `add_fok`, realised by `OrderOperations::add_order` on an
order of FOK type. -/
def OrderBook.addFokOrder (b : OrderBook) (o : Order) :
    Except OrderBookError (List MarketEvent) × OrderBook :=
  opsAddOrder b { o with order_type := OrderType.fillOrKill }

/-- `operations.rs` `modify_order_quantity_only`: reject a zero quantity,
then overwrite the resting order's remaining quantity in place (no check
against its filled quantity). -/
def opsModifyQuantityOnly (b : OrderBook) (order_id new_quantity : Nat) :
    Except OrderBookError (List MarketEvent) × OrderBook :=
  if new_quantity = 0 then (Except.error OrderBookError.invalidQuantity, b)
  else
    match alGet b.order_locations order_id with
    | none => (Except.error OrderBookError.orderNotFound, b)
    | some loc =>
      let sideMap := match loc.side with | Side.buy => b.bids | Side.sell => b.asks
      match alGet sideMap loc.price with
      | none => (Except.error OrderBookError.orderNotFound, b)
      | some lvl =>
        match lvl.modifyOrderQuantity order_id new_quantity with
        | (none, _) => (Except.error OrderBookError.orderNotFound, b)
        | (some _, lvl') =>
          let m' := alUpdate sideMap loc.price lvl'
          let b1 :=
            match loc.side with
            | Side.buy => { b with bids := m' }
            | Side.sell => { b with asks := m' }
          (Except.ok [MarketEvent.orderModified order_id none (some new_quantity)], b1)

/-- Tail of `modify_order_with_price_change` before the re-add: drop the
old price level if it emptied, and unregister the order id. -/
def cleanupAndUnregister (b : OrderBook) (loc : OrderLocation) (order_id : Nat) :
    OrderBook :=
  let sideMap := match loc.side with | Side.buy => b.bids | Side.sell => b.asks
  let m2 :=
    match alGet sideMap loc.price with
    | some oldLvl => if oldLvl.isEmpty then alRemove sideMap loc.price else sideMap
    | none => sideMap
  let b' :=
    match loc.side with
    | Side.buy => { b with bids := m2 }
    | Side.sell => { b with asks := m2 }
  { b' with order_locations := alRemove b'.order_locations order_id }

/-- `operations.rs` `modify_order_with_price_change`: pull the order out
of its level, rewrite price (and, if given, quantity — validated against
the filled quantity), clean up, unregister, and push it through
`add_order` again (losing time priority).  Each early error keeps the
mutations already made, as in the source. -/
def opsModifyWithPriceChange (b : OrderBook) (order_id new_price : Nat)
    (new_quantity : Option Nat) :
    Except OrderBookError (List MarketEvent) × OrderBook :=
  match alGet b.order_locations order_id with
  | none => (Except.error OrderBookError.orderNotFound, b)
  | some loc =>
    let sideMap := match loc.side with | Side.buy => b.bids | Side.sell => b.asks
    match alGet sideMap loc.price with
    | none => (Except.error OrderBookError.orderNotFound, b)
    | some lvl =>
      match lvl.removeOrder order_id with
      | (none, _) => (Except.error OrderBookError.orderNotFound, b)
      | (some removed, lvl') =>
        -- the removal happened through the level's `Arc`: visible in the map
        let m1 := alUpdate sideMap loc.price lvl'
        let b1 :=
          match loc.side with
          | Side.buy => { b with bids := m1 }
          | Side.sell => { b with asks := m1 }
        let o1 := { removed with price := new_price }
        match new_quantity with
        | some q =>
          if q = 0 then (Except.error OrderBookError.invalidQuantity, b1)
          else if q < o1.filled_quantity then
            (Except.error OrderBookError.invalidQuantity, b1)
          else
            let o2 := { o1 with
              remaining_quantity := q - o1.filled_quantity
              original_quantity := q }
            let b2 := cleanupAndUnregister b1 loc order_id
            opsAddOrder b2 o2
        | none =>
          let b2 := cleanupAndUnregister b1 loc order_id
          opsAddOrder b2 o1

/-- `operations.rs` `OrderOperations::modify_order` (spec §6 `modify`):
price change (with or without quantity) cancels and re-adds; quantity
only modifies in place; neither is `InvalidOrderState`. -/
def opsModifyOrder (b : OrderBook) (order_id : Nat)
    (new_price new_quantity : Option Nat) :
    Except OrderBookError (List MarketEvent) × OrderBook :=
  match new_price with
  | some np => opsModifyWithPriceChange b order_id np new_quantity
  | none =>
    match new_quantity with
    | some q => opsModifyQuantityOnly b order_id q
    | none => (Except.error OrderBookError.invalidOrderState, b)

/-! ## The public operation alphabet (spec §6) and reachable states -/

/-- One public operation of spec §6.  `add_limit`, `add_market` and
`cancel` are the `OrderBook` entry points of `book.rs` (the ones the
binaries call); `add_ioc`, `add_fok` and `modify` exist only through
`OrderOperations` (`operations.rs`). -/
inductive Op : Type
  | addLimit (o : Order)
  | addMarket (o : Order)
  | addIoc (o : Order)
  | addFok (o : Order)
  | cancel (order_id : Nat)
  | modify (order_id : Nat) (new_price new_quantity : Option Nat)
deriving DecidableEq, Repr

/-- Apply one public operation; the state that results even when the call
reports an error (mutations made before an error persist, as in the
source). -/
def applyOp (b : OrderBook) : Op → OrderBook
  | Op.addLimit o => (b.addLimitOrder o).2
  | Op.addMarket o => (b.addMarketOrder o).2
  | Op.addIoc o => (b.addIocOrder o).2
  | Op.addFok o => (b.addFokOrder o).2
  | Op.cancel order_id => (b.cancelOrder order_id).2
  | Op.modify order_id np nq => (opsModifyOrder b order_id np nq).2

/-- Apply a sequence of public operations to a book. -/
def applyOps (b : OrderBook) (ops : List Op) : OrderBook :=
  ops.foldl applyOp b

/-- The crossing check of spec §8 invariant 5: whenever both sides are
non-empty, the best bid is strictly below the best ask. -/
def notCrossed (b : OrderBook) : Bool :=
  match b.bestBid, b.bestAsk with
  | some pb, some pa => pb < pa
  | _, _ => true

/-! ## Well-formedness invariants (spec §3 / §8) -/

/-- Well-formedness of one price level resting in the book at key `p`:
the cached price matches the key, every resting order has positive
remaining quantity, and the two aggregate counters agree with the queue.
The queue may be empty: `modify_order_with_price_change` returning
`InvalidQuantity` after pulling the order out of its level leaves an
empty level behind (see the C2 counterexample). -/
def LevelWF (p : Nat) (lvl : PriceLevel) : Prop :=
  lvl.price = p ∧ (∀ o ∈ lvl.orders, 0 < o.remaining_quantity) ∧
  lvl.total_quantity = sumRem lvl.orders ∧ lvl.order_count = lvl.orders.length

instance (p : Nat) (lvl : PriceLevel) : Decidable (LevelWF p lvl) := by
  unfold LevelWF; infer_instance

/-- Well-formedness of one side map: duplicate-free keys, all levels
well formed. -/
def MapWF (m : List (Nat × PriceLevel)) : Prop :=
  (alKeys m).Nodup ∧ ∀ pl ∈ m, LevelWF pl.1 pl.2

instance (m : List (Nat × PriceLevel)) : Decidable (MapWF m) := by
  unfold MapWF; infer_instance

/-- Well-formedness of the whole book: both sides well formed. -/
def BookWF (b : OrderBook) : Prop := MapWF b.bids ∧ MapWF b.asks

instance (b : OrderBook) : Decidable (BookWF b) := by
  unfold BookWF; infer_instance

/-- Fixture helper for concrete inputs, the shape `Order::new_limit` /
`Order::new_market` and the tests build orders in. -/
def mkOrd (id : Nat) (side : Side) (ot : OrderType) (price qty : Nat) : Order :=
  { id := id, symbol := "T", side := side, order_type := ot, price := price,
    original_quantity := qty, remaining_quantity := qty, filled_quantity := 0,
    status := OrderStatus.new, client_id := none }

/-- The empty book over the fixture symbol. -/
def bT : OrderBook := OrderBook.new "T"

/-- `notCrossed` judged directly on the two key lists. -/
def notCrossedK (kb ka : List Nat) : Bool :=
  match maxP kb, minP ka with
  | some pb, some pa => pb < pa
  | _, _ => true

/-- The resting (passive) side's order id in a trade, given the
aggressor's side. -/
def restingId (side : Side) (t : Trade) : Nat :=
  match side with
  | Side.buy => t.seller_order_id
  | Side.sell => t.buyer_order_id

/-- The trade `book.rs` builds for one fill. -/
def mkBookTrade (symbol : String) (side : Side) (aggressor_id price : Nat)
    (mf : Order × Nat) : Trade :=
  { symbol := symbol
    buyer_order_id := (tradeIds side aggressor_id mf.1.id).1
    seller_order_id := (tradeIds side aggressor_id mf.1.id).2
    price := price
    quantity := mf.2 }

/-! ## Liquidity-bearing keys and the amended crossing invariant -/

/-- Keys of the levels that actually hold liquidity (non-empty queues);
"both sides have liquidity" in the spec's sense. -/
def activeKeys (m : List (Nat × PriceLevel)) : List Nat :=
  (m.filter (fun pl => !pl.2.isEmpty)).map Prod.fst

/-- The amended crossing invariant: judged on the levels that hold
liquidity (the implemented `best_bid`/`best_ask` over raw map keys can
differ only when a stale empty level persists). -/
def notCrossedActive (b : OrderBook) : Bool :=
  notCrossedK (activeKeys b.bids) (activeKeys b.asks)

/-- Induction invariant for the operation alphabet: both side maps well
formed and the liquidity-bearing keys not crossed. -/
def BookInv (b : OrderBook) : Prop := BookWF b ∧ notCrossedActive b = true

/-! ## Operation-level plumbing -/

/-- Proof-side selector: the opposite side map of an aggressor. -/
def oppoOf (b : OrderBook) (s : Side) : List (Nat × PriceLevel) :=
  match s with
  | Side.buy => b.asks
  | Side.sell => b.bids

/-- Proof-side constructor: write the opposite side map and locations
back into the book. -/
def setOppo (b : OrderBook) (s : Side) (m : List (Nat × PriceLevel))
    (locs : List (Nat × OrderLocation)) : OrderBook :=
  match s with
  | Side.buy => { b with asks := m, order_locations := locs }
  | Side.sell => { b with bids := m, order_locations := locs }


theorem mem_insSorted {α : Type} (le : α → α → Bool) (a x : α) (l : List α) :
    x ∈ insSorted le a l ↔ x = a ∨ x ∈ l := by
  induction l with
  | nil => simp [insSorted]
  | cons b rest ih =>
    simp only [insSorted]
    by_cases h : le a b = true
    · simp [h]
    · simp [h, ih]
      tauto

theorem mem_sortedBy {α : Type} (le : α → α → Bool) (x : α) (l : List α) :
    x ∈ sortedBy le l ↔ x ∈ l := by
  induction l with
  | nil => simp [sortedBy]
  | cons a rest ih =>
    simp [sortedBy, mem_insSorted, ih]

theorem pairwise_insSorted {α : Type} (le : α → α → Bool)
    (htot : ∀ a b : α, le a b = false → le b a = true)
    (htrans : ∀ a b c : α, le a b = true → le b c = true → le a c = true)
    (a : α) (l : List α)
    (h : l.Pairwise (fun x y => le x y = true)) :
    (insSorted le a l).Pairwise (fun x y => le x y = true) := by
  induction l with
  | nil => simp [insSorted]
  | cons b rest ih =>
    simp only [insSorted]
    rcases List.pairwise_cons.mp h with ⟨hb, hrest⟩
    by_cases hab : le a b = true
    · simp only [if_pos hab]
      refine List.pairwise_cons.mpr ⟨?_, h⟩
      intro y hy
      rcases List.mem_cons.mp hy with rfl | hy
      · exact hab
      · exact htrans a b y hab (hb y hy)
    · simp only [if_neg hab]
      refine List.pairwise_cons.mpr ⟨?_, ih hrest⟩
      intro y hy
      rw [mem_insSorted] at hy
      rcases hy with hy | hy
      · subst hy
        exact htot _ b (Bool.not_eq_true _ ▸ eq_false_of_ne_true hab)
      · exact hb y hy

theorem pairwise_sortedBy {α : Type} (le : α → α → Bool)
    (htot : ∀ a b : α, le a b = false → le b a = true)
    (htrans : ∀ a b c : α, le a b = true → le b c = true → le a c = true)
    (l : List α) :
    (sortedBy le l).Pairwise (fun x y => le x y = true) := by
  induction l with
  | nil => simp [sortedBy]
  | cons a rest ih => exact pairwise_insSorted le htot htrans a _ ih

theorem nodup_insSorted {α : Type} (le : α → α → Bool) (a : α) (l : List α)
    (ha : a ∉ l) (h : l.Nodup) : (insSorted le a l).Nodup := by
  induction l with
  | nil => simp [insSorted]
  | cons b rest ih =>
    simp only [insSorted]
    by_cases hab : le a b = true
    · simp only [if_pos hab]
      exact List.nodup_cons.mpr ⟨ha, h⟩
    · simp only [if_neg hab]
      rcases List.nodup_cons.mp h with ⟨hb, hrest⟩
      refine List.nodup_cons.mpr ⟨?_, ih (fun hx => ha (List.mem_cons_of_mem _ hx)) hrest⟩
      rw [mem_insSorted]
      rintro (rfl | hcontr)
      · exact ha (List.mem_cons_self _ _)
      · exact hb hcontr

theorem nodup_sortedBy {α : Type} (le : α → α → Bool) (l : List α)
    (h : l.Nodup) : (sortedBy le l).Nodup := by
  induction l with
  | nil => simp [sortedBy]
  | cons a rest ih =>
    rcases List.nodup_cons.mp h with ⟨ha, hrest⟩
    exact nodup_insSorted le a _ (fun hx => ha ((mem_sortedBy le a rest).mp hx)) (ih hrest)

theorem Order.fill_eq_fillT (o : Order) (q : Nat) (h : q ≤ o.remaining_quantity) :
    o.fill q = Except.ok (o.fillT q) := by
  simp [Order.fill, Order.fillT, Nat.not_lt.mpr h]

theorem sumRem_cons (o : Order) (rest : List Order) :
    sumRem (o :: rest) = o.remaining_quantity + sumRem rest := by
  simp [sumRem]

theorem sumFills_cons (p : Order × Nat) (rest : List (Order × Nat)) :
    sumFills (p :: rest) = p.2 + sumFills rest := by
  simp [sumFills]

@[simp] theorem fillT_id (o : Order) (q : Nat) : (o.fillT q).id = o.id := rfl

@[simp] theorem fillT_price (o : Order) (q : Nat) : (o.fillT q).price = o.price := rfl

@[simp] theorem fillT_side (o : Order) (q : Nat) : (o.fillT q).side = o.side := rfl

@[simp] theorem fillT_symbol (o : Order) (q : Nat) : (o.fillT q).symbol = o.symbol := rfl

@[simp] theorem fillT_remaining (o : Order) (q : Nat) :
    (o.fillT q).remaining_quantity = o.remaining_quantity - q := rfl

@[simp] theorem fillT_filled (o : Order) (q : Nat) :
    (o.fillT q).filled_quantity = o.filled_quantity + q := rfl

@[simp] theorem fillT_original (o : Order) (q : Nat) :
    (o.fillT q).original_quantity = o.original_quantity := rfl

theorem fillT_isComplete (o : Order) (q : Nat) :
    (o.fillT q).isComplete = true ↔ o.remaining_quantity - q = 0 := by
  by_cases h : o.remaining_quantity - q = 0 <;>
    simp [Order.fillT, Order.isComplete, h]

/-- The fill amounts handed out by the `take_quantity` loop never sum to
more than the requested quantity. -/
theorem takeGo_sumFills_le (requested : Nat) (queue : List Order) (tot cnt : Nat) :
    sumFills (takeGo requested queue tot cnt).1 ≤ requested := by
  induction queue generalizing requested tot cnt with
  | nil => simp [takeGo, sumFills]
  | cons o rest ih =>
    simp only [takeGo]
    by_cases h0 : requested = 0
    · simp [h0, sumFills]
    · simp only [if_neg h0]
      by_cases hz : (o.fillT (min requested o.remaining_quantity)).remaining_quantity = 0
      · simp only [if_pos hz]
        have hrec := ih (requested - min requested o.remaining_quantity)
          (tot - min requested o.remaining_quantity) (cnt - 1)
        simp only [sumFills_cons]
        simp only [sumFills] at hrec ⊢
        omega
      · simp only [if_neg hz, sumFills_cons]
        simp only [sumFills, List.map_nil, List.sum_nil]
        omega

/-- Ids appearing in the fills are ids of the input queue. -/
theorem takeGo_fill_ids (requested : Nat) (queue : List Order) (tot cnt : Nat) :
    ∀ p ∈ (takeGo requested queue tot cnt).1, p.1.id ∈ idsOf queue := by
  induction queue generalizing requested tot cnt with
  | nil => simp [takeGo]
  | cons o rest ih =>
    intro p hp
    simp only [takeGo] at hp
    by_cases h0 : requested = 0
    · simp [h0] at hp
    · simp only [if_neg h0] at hp
      by_cases hz : (o.fillT (min requested o.remaining_quantity)).remaining_quantity = 0
      · simp only [if_pos hz] at hp
        rcases hmatch : takeGo (requested - min requested o.remaining_quantity) rest
          (tot - min requested o.remaining_quantity) (cnt - 1) with ⟨fills, q', tot', cnt'⟩
        rw [hmatch] at hp
        simp only [List.mem_cons] at hp
        rcases hp with rfl | hp
        · simp [idsOf]
        · have := ih _ _ _ p (by rw [hmatch]; exact hp)
          simp only [idsOf, List.map_cons, List.mem_cons]
          right
          simpa [idsOf] using this
      · simp only [if_neg hz] at hp
        simp only [List.mem_singleton] at hp
        subst hp
        simp [idsOf]

/-- Ids of the residual queue after the loop are ids of the input queue. -/
theorem takeGo_queue_ids (requested : Nat) (queue : List Order) (tot cnt : Nat) :
    ∀ i ∈ idsOf (takeGo requested queue tot cnt).2.1, i ∈ idsOf queue := by
  induction queue generalizing requested tot cnt with
  | nil => simp [takeGo]
  | cons o rest ih =>
    intro i hi
    simp only [takeGo] at hi
    by_cases h0 : requested = 0
    · simpa [h0] using hi
    · simp only [if_neg h0] at hi
      by_cases hz : (o.fillT (min requested o.remaining_quantity)).remaining_quantity = 0
      · simp only [if_pos hz] at hi
        rcases hmatch : takeGo (requested - min requested o.remaining_quantity) rest
          (tot - min requested o.remaining_quantity) (cnt - 1) with ⟨fills, q', tot', cnt'⟩
        rw [hmatch] at hi
        have := ih _ _ _ i (by rw [hmatch]; exact hi)
        simp only [idsOf, List.map_cons, List.mem_cons]
        right
        simpa [idsOf] using this
      · simp only [if_neg hz] at hi
        simp only [idsOf, List.map_cons, List.mem_cons] at hi ⊢
        rcases hi with hi | hi
        · left; simpa using hi
        · right; exact hi

/-- Behaviour of the `take_quantity` loop on a well-formed level: the
aggregate counters stay in sync with the queue, residual orders keep
positive remaining quantity, exactly `min requested (sumRem queue)` is
taken, the queue empties exactly when everything was requested, and every
fill amount is positive. -/
theorem takeGo_spec (requested : Nat) (queue : List Order) (tot cnt : Nat)
    (hpos : ∀ o ∈ queue, 0 < o.remaining_quantity)
    (htot : tot = sumRem queue) (hcnt : cnt = queue.length) :
    (takeGo requested queue tot cnt).2.2.1 = sumRem (takeGo requested queue tot cnt).2.1 ∧
    (takeGo requested queue tot cnt).2.2.2 = (takeGo requested queue tot cnt).2.1.length ∧
    (∀ o ∈ (takeGo requested queue tot cnt).2.1, 0 < o.remaining_quantity) ∧
    sumFills (takeGo requested queue tot cnt).1 = min requested (sumRem queue) ∧
    ((takeGo requested queue tot cnt).2.1 = [] ↔ sumRem queue ≤ requested) ∧
    (∀ p ∈ (takeGo requested queue tot cnt).1, 0 < p.2) := by
  induction queue generalizing requested tot cnt with
  | nil =>
    subst htot hcnt
    simp [takeGo, sumRem, sumFills]
  | cons o rest ih =>
    have hopos : 0 < o.remaining_quantity := hpos o (List.mem_cons_self _ _)
    by_cases h0 : requested = 0
    · subst h0
      simp only [takeGo, if_pos rfl]
      refine ⟨htot, hcnt, hpos, ?_, ?_, ?_⟩
      · simp [sumFills]
      · simp only [sumRem_cons]
        constructor
        · intro h; exact absurd h (List.cons_ne_nil _ _)
        · intro h; omega
      · simp
    · simp only [takeGo, if_neg h0]
      by_cases hz : (o.fillT (min requested o.remaining_quantity)).remaining_quantity = 0
      · simp only [if_pos hz]
        simp only [fillT_remaining] at hz
        have hfq : min requested o.remaining_quantity = o.remaining_quantity := by omega
        have hrest := ih (requested - min requested o.remaining_quantity)
          (tot - min requested o.remaining_quantity) (cnt - 1)
          (fun x hx => hpos x (List.mem_cons_of_mem _ hx))
          (by rw [htot, sumRem_cons]; omega)
          (by rw [hcnt]; simp)
        obtain ⟨h1, h2, h3, h4, h5, h6⟩ := hrest
        refine ⟨h1, h2, h3, ?_, ?_, ?_⟩
        · rw [sumFills_cons, h4, sumRem_cons]
          omega
        · rw [h5, sumRem_cons]
          omega
        · intro p hp
          rcases List.mem_cons.mp hp with rfl | hp
          · simpa using by omega
          · exact h6 p hp
      · simp only [if_neg hz]
        simp only [fillT_remaining] at hz
        have hfq : min requested o.remaining_quantity = requested := by omega
        refine ⟨?_, ?_, ?_, ?_, ?_, ?_⟩
        · rw [htot, sumRem_cons, sumRem_cons, fillT_remaining]
          omega
        · rw [hcnt]
          simp
        · intro x hx
          rcases List.mem_cons.mp hx with rfl | hx
          · rw [fillT_remaining]; omega
          · exact hpos x (List.mem_cons_of_mem _ hx)
        · rw [sumFills_cons, sumRem_cons]
          simp only [sumFills, List.map_nil, List.sum_nil]
          omega
        · rw [sumRem_cons]
          constructor
          · intro h; exact absurd h (List.cons_ne_nil _ _)
          · intro h; omega
        · intro p hp
          rcases List.mem_singleton.mp hp with rfl
          simpa using by omega

/-- The checked `take_quantity` loop never hits the `expect` branch: it
always returns `some` of the result of the total loop. -/
theorem takeGoChecked_eq (requested : Nat) (queue : List Order) (tot cnt : Nat) :
    takeGoChecked requested queue tot cnt = some (takeGo requested queue tot cnt) := by
  induction queue generalizing requested tot cnt with
  | nil => simp [takeGoChecked, takeGo]
  | cons o rest ih =>
    by_cases h0 : requested = 0
    · simp [takeGoChecked, takeGo, h0]
    · have hle : min requested o.remaining_quantity ≤ o.remaining_quantity :=
        Nat.min_le_right _ _
      simp only [takeGoChecked, takeGo, if_neg h0, Order.fill_eq_fillT _ _ hle]
      by_cases hz : (o.fillT (min requested o.remaining_quantity)).remaining_quantity = 0
      · simp only [if_pos hz, ih]
      · simp only [if_neg hz]

/-- FIFO discipline of the `take_quantity` loop, stated for a queue with
two distinguished orders `A` before `B` (and an arbitrary prefix in
front): if `B` receives any positive fill, then `A` was filled to
exhaustion (a fill of its whole remaining quantity, leaving it with
remaining quantity 0) and `A` is no longer in the residual queue. -/
theorem takeGo_fifo (pre : List Order) (A B : Order) (rest2 : List Order)
    (requested tot cnt : Nat)
    (hBpre : B.id ∉ idsOf pre) (hAB : A.id ≠ B.id)
    (hApost : A.id ∉ idsOf (B :: rest2))
    (h : ∃ p ∈ (takeGo requested (pre ++ A :: B :: rest2) tot cnt).1,
      p.1.id = B.id ∧ 0 < p.2) :
    (∃ pa ∈ (takeGo requested (pre ++ A :: B :: rest2) tot cnt).1,
      pa.1.id = A.id ∧ pa.2 = A.remaining_quantity ∧ pa.1.remaining_quantity = 0) ∧
    A.id ∉ idsOf (takeGo requested (pre ++ A :: B :: rest2) tot cnt).2.1 := by
  induction pre generalizing requested tot cnt with
  | nil =>
    simp only [List.nil_append] at h ⊢
    by_cases h0 : requested = 0
    · rw [h0] at h
      simp [takeGo] at h
    · simp only [takeGo, if_neg h0] at h ⊢
      by_cases hz : (A.fillT (min requested A.remaining_quantity)).remaining_quantity = 0
      · simp only [if_pos hz] at h ⊢
        simp only [fillT_remaining] at hz
        have hfq : min requested A.remaining_quantity = A.remaining_quantity := by omega
        constructor
        · refine ⟨(A.fillT (min requested A.remaining_quantity),
            min requested A.remaining_quantity), List.mem_cons_self _ _, ?_, ?_, ?_⟩
          · simp
          · simpa using hfq
          · simpa using hz
        · intro hmem
          have := takeGo_queue_ids (requested - min requested A.remaining_quantity)
            (B :: rest2) (tot - min requested A.remaining_quantity) (cnt - 1) A.id hmem
          exact hApost this
      · simp only [if_neg hz] at h
        obtain ⟨p, hp, hpid, _⟩ := h
        rcases List.mem_singleton.mp hp with rfl
        simp at hpid
        exact absurd hpid hAB
  | cons o pre' ih =>
    have hoB : o.id ≠ B.id := by
      intro hcontr
      exact hBpre (by simp [idsOf, hcontr])
    have hBpre' : B.id ∉ idsOf pre' := fun hx => hBpre (by simp [idsOf] at hx ⊢; tauto)
    simp only [List.cons_append] at h ⊢
    by_cases h0 : requested = 0
    · rw [h0] at h
      simp [takeGo] at h
    · simp only [takeGo, if_neg h0] at h ⊢
      by_cases hz : (o.fillT (min requested o.remaining_quantity)).remaining_quantity = 0
      · simp only [if_pos hz] at h ⊢
        obtain ⟨p, hp, hpid, hppos⟩ := h
        rcases List.mem_cons.mp hp with rfl | hp
        · simp at hpid
          exact absurd hpid hoB
        · obtain ⟨hfill, hqueue⟩ := ih (requested - min requested o.remaining_quantity)
            (tot - min requested o.remaining_quantity) (cnt - 1) hBpre'
            ⟨p, hp, hpid, hppos⟩
          obtain ⟨pa, hpa, h1, h2, h3⟩ := hfill
          exact ⟨⟨pa, List.mem_cons_of_mem _ hpa, h1, h2, h3⟩, hqueue⟩
      · simp only [if_neg hz] at h
        obtain ⟨p, hp, hpid, _⟩ := h
        rcases List.mem_singleton.mp hp with rfl
        simp at hpid
        exact absurd hpid hoB

/-! ## Claim theorems -/

/-- Claim C10: `PriceLevel::take_quantity` is total and its internal
panic branch is unreachable — for every level state and every requested
quantity the checked loop (in which `none` marks the
`expect("Fill should succeed")` aborting) returns `some` of the result of
the total loop, because each internal fill amount is
`min(remaining requested, head.remaining_quantity)` and hence within what
`Order::fill` accepts; totality of the Lean functions is the loop's
termination. -/
theorem take_quantity_total (lvl : PriceLevel) (requested : Nat) :
    lvl.takeQuantityChecked requested = some (lvl.takeQuantity requested) := by
  simp [PriceLevel.takeQuantityChecked, PriceLevel.takeQuantity, takeGoChecked_eq]

/-- Claim C1: time priority (FIFO within a price level).  Add `A` then
`B` at the same level; if any aggressor's `take_quantity` call takes a
positive quantity from `B`, then it filled `A` to exhaustion — the fills
contain an entry for `A` of its whole remaining quantity leaving it at
remaining quantity 0 — and `A` is no longer in the level's queue. -/
theorem time_priority_fifo (lvl : PriceLevel) (A B : Order) (requested : Nat)
    (hAB : A.id ≠ B.id) (hBfresh : B.id ∉ idsOf lvl.orders)
    (htouch : ∃ p ∈ (((lvl.addOrder A).addOrder B).takeQuantity requested).1,
      p.1.id = B.id ∧ 0 < p.2) :
    (∃ pa ∈ (((lvl.addOrder A).addOrder B).takeQuantity requested).1,
      pa.1.id = A.id ∧ pa.2 = A.remaining_quantity ∧ pa.1.remaining_quantity = 0) ∧
    A.id ∉ idsOf (((lvl.addOrder A).addOrder B).takeQuantity requested).2.orders := by
  have hq : ((lvl.addOrder A).addOrder B).orders = lvl.orders ++ A :: B :: [] := by
    simp [PriceLevel.addOrder]
  have hApost : A.id ∉ idsOf (B :: ([] : List Order)) := by
    simp [idsOf]
    exact hAB
  have := takeGo_fifo lvl.orders A B [] requested
    ((lvl.addOrder A).addOrder B).total_quantity
    ((lvl.addOrder A).addOrder B).order_count hBfresh hAB hApost
  simp only [PriceLevel.takeQuantity, hq] at htouch ⊢
  exact this htouch

/-- Witness for C1 at a concrete input: level at price 100 holding `A`
(id 1, quantity 5) then `B` (id 2, quantity 7); an aggressor taking 8
exhausts `A` (fill 5, remaining 0, removed) before filling `B` with 3. -/
theorem time_priority_fifo_witness :
    (∃ pa ∈ (((((PriceLevel.new 100)).addOrder
          (mkOrd 1 Side.sell OrderType.limit 100 5)).addOrder
          (mkOrd 2 Side.sell OrderType.limit 100 7)).takeQuantity 8).1,
      pa.1.id = (mkOrd 1 Side.sell OrderType.limit 100 5).id ∧
      pa.2 = (mkOrd 1 Side.sell OrderType.limit 100 5).remaining_quantity ∧
      pa.1.remaining_quantity = 0) ∧
    (mkOrd 1 Side.sell OrderType.limit 100 5).id ∉
      idsOf (((((PriceLevel.new 100)).addOrder
          (mkOrd 1 Side.sell OrderType.limit 100 5)).addOrder
          (mkOrd 2 Side.sell OrderType.limit 100 7)).takeQuantity 8).2.orders :=
  time_priority_fifo (PriceLevel.new 100) (mkOrd 1 Side.sell OrderType.limit 100 5)
    (mkOrd 2 Side.sell OrderType.limit 100 7) 8 (by decide) (by decide) (by decide)

/-- Claim C6 (code bug), evaluation at the failing input: a resting buy
order of original quantity 100 (nothing filled) modified via the public
`modify` to quantity 150 ends with `original_quantity = 100`,
`filled_quantity = 0`, `remaining_quantity = 150`: the spec invariant
`original_qty = filled_qty + remaining_qty` is violated, because
`modify_order_quantity_only` overwrites only `remaining_quantity`. -/
theorem modify_breaks_quantity_accounting :
    (alGet (applyOps bT [Op.addLimit (mkOrd 1 Side.buy OrderType.limit 10000 100),
        Op.modify 1 none (some 150)]).bids 10000).map PriceLevel.orders =
      some [{ mkOrd 1 Side.buy OrderType.limit 10000 100 with
              remaining_quantity := 150 }] ∧
    (mkOrd 1 Side.buy OrderType.limit 10000 100).original_quantity ≠
      (mkOrd 1 Side.buy OrderType.limit 10000 100).filled_quantity + 150 := by
  constructor
  · rfl
  · decide

/-- Claim C7 (code bug), evaluation at the failing input: a resting buy
order (original 100) partially filled with 30 by a crossing sell; the
public `modify` with new quantity 10 < filled 30 is accepted (the claim
and spec demand `InvalidQuantity`) and sets `remaining_quantity := 10`
(the spec demands `new_quantity − filled_qty`). -/
theorem modify_below_filled_accepted :
    (opsModifyOrder (applyOps bT
        [Op.addLimit (mkOrd 1 Side.buy OrderType.limit 10000 100),
         Op.addLimit (mkOrd 2 Side.sell OrderType.limit 10000 30)]) 1 none (some 10)).1 =
      Except.ok [MarketEvent.orderModified 1 none (some 10)] ∧
    (alGet (opsModifyOrder (applyOps bT
        [Op.addLimit (mkOrd 1 Side.buy OrderType.limit 10000 100),
         Op.addLimit (mkOrd 2 Side.sell OrderType.limit 10000 30)]) 1 none
        (some 10)).2.bids 10000).map PriceLevel.orders =
      some [{ mkOrd 1 Side.buy OrderType.limit 10000 100 with
              remaining_quantity := 10
              filled_quantity := 30
              status := OrderStatus.partFilled }] := by
  constructor
  · rfl
  · rfl

/-- Claim C8 counterexample: `OrderBook::add_limit_order` (a cited
submission path) performs no price validation at all — submitting a
price-0 limit sell against a book holding a bid at 10000 is not rejected
with `InvalidPrice`; it fills at 10000 and consumes the bid. -/
theorem price_zero_not_rejected :
    ((applyOps bT [Op.addLimit (mkOrd 1 Side.buy OrderType.limit 10000 100)]).addLimitOrder
        (mkOrd 2 Side.sell OrderType.limit 0 100)).1 =
      Except.ok [MarketEvent.trade
        { symbol := "T", buyer_order_id := 1, seller_order_id := 2,
          price := 10000, quantity := 100 }] ∧
    ((applyOps bT [Op.addLimit (mkOrd 1 Side.buy OrderType.limit 10000 100)]).addLimitOrder
        (mkOrd 2 Side.sell OrderType.limit 0 100)).2.bids = [] := by
  constructor
  · rfl
  · rfl

/-- Claim C8 as amended: through the validated submission path
(`OrderOperations::add_order`), every order of type Limit, IOC or FOK
with price 0 and non-zero quantity is rejected with `InvalidPrice` before
any fill and the book is left untouched (`OrderBook::add_limit_order`
itself never checks the price — see the counterexample). -/
theorem price_zero_rejected_on_validated_path (b : OrderBook) (o : Order)
    (htype : o.order_type = OrderType.limit ∨
      o.order_type = OrderType.immediateOrCancel ∨
      o.order_type = OrderType.fillOrKill)
    (hprice : o.price = 0)
    (horig : o.original_quantity ≠ 0) (hrem : o.remaining_quantity ≠ 0) :
    opsAddOrder b o = (Except.error OrderBookError.invalidPrice, b) := by
  have hval : validateOrder o = Except.error OrderBookError.invalidPrice := by
    rcases htype with h | h | h <;>
      simp [validateOrder, h, hprice, horig, hrem]
  simp [opsAddOrder, hval]

/-- Witness for the amended C8: a price-0 limit buy of quantity 5 against
the book holding one ask is rejected with `InvalidPrice` and the book is
unchanged. -/
theorem price_zero_rejected_on_validated_path_witness :
    opsAddOrder (applyOps bT [Op.addLimit (mkOrd 1 Side.sell OrderType.limit 10000 40)])
        (mkOrd 2 Side.buy OrderType.limit 0 5) =
      (Except.error OrderBookError.invalidPrice,
        applyOps bT [Op.addLimit (mkOrd 1 Side.sell OrderType.limit 10000 40)]) :=
  price_zero_rejected_on_validated_path _ _ (Or.inl rfl) rfl (by decide) (by decide)

/-! ## Association-list lemmas -/

theorem alGet_of_mem {α : Type} {m : List (Nat × α)} {k : Nat} {v : α}
    (hnodup : (alKeys m).Nodup) (hmem : (k, v) ∈ m) : alGet m k = some v := by
  induction m with
  | nil => cases hmem
  | cons p rest ih =>
    rcases p with ⟨k', v'⟩
    simp only [alKeys, List.map_cons, List.nodup_cons] at hnodup
    rcases List.mem_cons.mp hmem with heq | hmem'
    · rw [Prod.mk.injEq] at heq
      obtain ⟨h1, h2⟩ := heq
      subst h1
      subst h2
      simp [alGet]
    · have hk : k' ≠ k := by
        intro hcontr
        subst hcontr
        exact hnodup.1 (List.mem_map.mpr ⟨(k', v), hmem', rfl⟩)
      simp only [alGet, if_neg hk]
      exact ih hnodup.2 hmem'

theorem mem_of_alGet {α : Type} {m : List (Nat × α)} {k : Nat} {v : α}
    (h : alGet m k = some v) : (k, v) ∈ m := by
  induction m with
  | nil => simp [alGet] at h
  | cons p rest ih =>
    rcases p with ⟨k', v'⟩
    by_cases hk : k' = k
    · subst hk
      simp [alGet] at h
      subst h
      exact List.mem_cons_self _ _
    · simp only [alGet, if_neg hk] at h
      exact List.mem_cons_of_mem _ (ih h)

theorem alKeys_update {α : Type} (m : List (Nat × α)) (k : Nat) (v : α) :
    alKeys (alUpdate m k v) = alKeys m := by
  induction m with
  | nil => rfl
  | cons p rest ih =>
    rcases p with ⟨k', v'⟩
    simp only [alUpdate]
    by_cases hk : k' = k
    · simp [hk, alKeys]
    · simp [hk, alKeys] at ih ⊢
      exact ih

theorem mem_alUpdate {α : Type} {m : List (Nat × α)} {k : Nat} {v : α}
    {pl : Nat × α} (h : pl ∈ alUpdate m k v) : pl ∈ m ∨ pl = (k, v) := by
  induction m with
  | nil => simp [alUpdate] at h
  | cons p rest ih =>
    rcases p with ⟨k', v'⟩
    simp only [alUpdate] at h
    by_cases hk : k' = k
    · simp only [if_pos hk] at h
      rcases List.mem_cons.mp h with heq | hmem
      · right; rw [heq, hk]
      · left; exact List.mem_cons_of_mem _ hmem
    · simp only [if_neg hk] at h
      rcases List.mem_cons.mp h with heq | hmem
      · left; rw [heq]; exact List.mem_cons_self _ _
      · rcases ih hmem with h' | h'
        · left; exact List.mem_cons_of_mem _ h'
        · right; exact h'

theorem alGet_update_ne {α : Type} (m : List (Nat × α)) (k k' : Nat) (v : α)
    (h : k' ≠ k) : alGet (alUpdate m k v) k' = alGet m k' := by
  induction m with
  | nil => rfl
  | cons p rest ih =>
    rcases p with ⟨k0, v0⟩
    by_cases hk : k0 = k
    · subst hk
      have hne : k0 ≠ k' := fun hc => h hc.symm
      simp [alUpdate, alGet, hne]
    · by_cases hk' : k0 = k'
      · subst hk'
        simp [alUpdate, alGet, hk]
      · simp [alUpdate, alGet, hk, hk', ih]

theorem alGet_update_self {α : Type} (m : List (Nat × α)) (k : Nat) (v : α)
    (h : (alGet m k).isSome) : alGet (alUpdate m k v) k = some v := by
  induction m with
  | nil => simp [alGet] at h
  | cons p rest ih =>
    rcases p with ⟨k0, v0⟩
    simp only [alUpdate, alGet] at h ⊢
    by_cases hk : k0 = k
    · simp [hk, alGet]
    · simp only [if_neg hk] at h ⊢
      simp only [alGet, if_neg hk]
      exact ih h

theorem alUpdate_same {α : Type} {m : List (Nat × α)} {k : Nat} {v : α}
    (h : alGet m k = some v) : alUpdate m k v = m := by
  induction m with
  | nil => rfl
  | cons p rest ih =>
    rcases p with ⟨k0, v0⟩
    simp only [alGet] at h
    simp only [alUpdate]
    by_cases hk : k0 = k
    · simp only [if_pos hk] at h ⊢
      simp only [Option.some.injEq] at h
      rw [h.symm]
    · simp only [if_neg hk] at h ⊢
      rw [ih h]

theorem alUpdate_missing {α : Type} {m : List (Nat × α)} {k : Nat} (v : α)
    (h : alGet m k = none) : alUpdate m k v = m := by
  induction m with
  | nil => rfl
  | cons p rest ih =>
    rcases p with ⟨k0, v0⟩
    simp only [alGet] at h
    simp only [alUpdate]
    by_cases hk : k0 = k
    · simp [hk] at h
    · simp only [if_neg hk] at h ⊢
      rw [ih h]

theorem mem_alRemove {α : Type} {m : List (Nat × α)} {k : Nat} {pl : Nat × α}
    (h : pl ∈ alRemove m k) : pl ∈ m := by
  induction m with
  | nil => simp [alRemove] at h
  | cons p rest ih =>
    rcases p with ⟨k0, v0⟩
    simp only [alRemove] at h
    by_cases hk : k0 = k
    · simp only [if_pos hk] at h
      exact List.mem_cons_of_mem _ h
    · simp only [if_neg hk] at h
      rcases List.mem_cons.mp h with heq | hmem
      · rw [heq]; exact List.mem_cons_self _ _
      · exact List.mem_cons_of_mem _ (ih hmem)

theorem alKeys_remove_subset {α : Type} (m : List (Nat × α)) (k : Nat) :
    ∀ x ∈ alKeys (alRemove m k), x ∈ alKeys m := by
  intro x hx
  simp only [alKeys, List.mem_map] at hx ⊢
  rcases hx with ⟨pl, hpl, hfst⟩
  exact ⟨pl, mem_alRemove hpl, hfst⟩

theorem alKeys_remove_nodup {α : Type} (m : List (Nat × α)) (k : Nat)
    (h : (alKeys m).Nodup) : (alKeys (alRemove m k)).Nodup := by
  induction m with
  | nil => simp [alRemove, alKeys]
  | cons p rest ih =>
    rcases p with ⟨k0, v0⟩
    simp only [alKeys, List.map_cons, List.nodup_cons] at h
    simp only [alRemove]
    by_cases hk : k0 = k
    · simp only [if_pos hk]
      exact h.2
    · simp only [if_neg hk, alKeys, List.map_cons, List.nodup_cons]
      refine ⟨fun hcontr => h.1 ?_, ih h.2⟩
      exact List.mem_map.mpr
        (match List.mem_map.mp hcontr with
         | ⟨pl, hpl, hfst⟩ => ⟨pl, mem_alRemove hpl, hfst⟩)

theorem alGet_remove_ne {α : Type} (m : List (Nat × α)) (k k' : Nat)
    (h : k' ≠ k) : alGet (alRemove m k) k' = alGet m k' := by
  induction m with
  | nil => rfl
  | cons p rest ih =>
    rcases p with ⟨k0, v0⟩
    by_cases hk : k0 = k
    · subst hk
      have hne : k0 ≠ k' := fun hc => h hc.symm
      simp [alRemove, alGet, hne]
    · by_cases hk' : k0 = k'
      · subst hk'
        simp [alRemove, alGet, hk]
      · simp [alRemove, alGet, hk, hk', ih]

theorem alGet_remove_self {α : Type} (m : List (Nat × α)) (k : Nat)
    (hnodup : (alKeys m).Nodup) : alGet (alRemove m k) k = none := by
  induction m with
  | nil => rfl
  | cons p rest ih =>
    rcases p with ⟨k0, v0⟩
    simp only [alKeys, List.map_cons, List.nodup_cons] at hnodup
    by_cases hk : k0 = k
    · subst hk
      have hred : alRemove ((k0, v0) :: rest) k0 = rest := by simp [alRemove]
      rw [hred]
      cases hcase : alGet rest k0 with
      | none => rfl
      | some v =>
        exact absurd (List.mem_map.mpr ⟨(k0, v), mem_of_alGet hcase, rfl⟩) hnodup.1
    · simp only [alRemove, if_neg hk, alGet, if_neg hk]
      exact ih hnodup.2

theorem mem_alKeys_of_get {α : Type} {m : List (Nat × α)} {k : Nat}
    (h : (alGet m k).isSome) : k ∈ alKeys m := by
  cases hcase : alGet m k with
  | none => rw [hcase] at h; cases h
  | some v =>
    exact List.mem_map.mpr ⟨(k, v), mem_of_alGet hcase, rfl⟩

theorem get_isSome_of_mem_alKeys {α : Type} {m : List (Nat × α)} {k : Nat}
    (h : k ∈ alKeys m) : (alGet m k).isSome := by
  induction m with
  | nil => simp [alKeys] at h
  | cons p rest ih =>
    rcases p with ⟨k0, v0⟩
    simp only [alKeys, List.map_cons, List.mem_cons] at h
    simp only [alGet]
    by_cases hk : k0 = k
    · simp [hk]
    · simp only [if_neg hk]
      exact ih (h.resolve_left (fun hcontr => hk hcontr.symm))

theorem maxP_spec (l : List Nat) :
    (l = [] ∧ maxP l = none) ∨
    (∃ m, maxP l = some m ∧ m ∈ l ∧ ∀ x ∈ l, x ≤ m) := by
  induction l with
  | nil => left; exact ⟨rfl, rfl⟩
  | cons p rest ih =>
    right
    rcases ih with ⟨hnil, hnone⟩ | ⟨m, hm, hmem, hbound⟩
    · subst hnil
      exact ⟨p, by simp [maxP], by simp, by simp⟩
    · refine ⟨max p m, by simp [maxP, hm], ?_, ?_⟩
      · rcases Nat.le_total p m with h | h
        · rw [Nat.max_eq_right h]; exact List.mem_cons_of_mem _ hmem
        · rw [Nat.max_eq_left h]; exact List.mem_cons_self _ _
      · intro x hx
        rcases List.mem_cons.mp hx with rfl | hx
        · exact Nat.le_max_left _ _
        · exact Nat.le_trans (hbound x hx) (Nat.le_max_right _ _)

theorem minP_spec (l : List Nat) :
    (l = [] ∧ minP l = none) ∨
    (∃ m, minP l = some m ∧ m ∈ l ∧ ∀ x ∈ l, m ≤ x) := by
  induction l with
  | nil => left; exact ⟨rfl, rfl⟩
  | cons p rest ih =>
    right
    rcases ih with ⟨hnil, hnone⟩ | ⟨m, hm, hmem, hbound⟩
    · subst hnil
      exact ⟨p, by simp [minP], by simp, by simp⟩
    · refine ⟨min p m, by simp [minP, hm], ?_, ?_⟩
      · rcases Nat.le_total p m with h | h
        · rw [Nat.min_eq_left h]; exact List.mem_cons_self _ _
        · rw [Nat.min_eq_right h]; exact List.mem_cons_of_mem _ hmem
      · intro x hx
        rcases List.mem_cons.mp hx with rfl | hx
        · exact Nat.min_le_left _ _
        · exact Nat.le_trans (Nat.min_le_right _ _) (hbound x hx)

theorem notCrossed_eq (b : OrderBook) :
    notCrossed b = notCrossedK (alKeys b.bids) (alKeys b.asks) := rfl

/-- The crossing check survives shrinking either side. -/
theorem notCrossedK_mono (kb ka kb' ka' : List Nat)
    (hb : ∀ x ∈ kb', x ∈ kb) (ha : ∀ x ∈ ka', x ∈ ka)
    (h : notCrossedK kb ka = true) : notCrossedK kb' ka' = true := by
  unfold notCrossedK at h ⊢
  rcases maxP_spec kb' with ⟨hb0, hbn⟩ | ⟨mb', hmb', hmemb', _⟩
  · rw [hbn]
  · rw [hmb']
    rcases minP_spec ka' with ⟨ha0, han⟩ | ⟨ma', hma', hmema', _⟩
    · rw [han]
    · rw [hma']
      rcases maxP_spec kb with ⟨hbnil, _⟩ | ⟨mb, hmb, _, hbound⟩
      · exact absurd (hb mb' hmemb') (by rw [hbnil]; simp)
      · rcases minP_spec ka with ⟨hanil, _⟩ | ⟨ma, hma, _, habound⟩
        · exact absurd (ha ma' hmema') (by rw [hanil]; simp)
        · rw [hmb, hma] at h
          simp only [decide_eq_true_eq] at h ⊢
          have h1 : mb' ≤ mb := hbound mb' (hb mb' hmemb')
          have h2 : ma ≤ ma' := habound ma' (ha ma' hmema')
          omega

/-! ## Comparator facts and the fills loops -/

theorem priceOrder_total (side : Side) (a b : Nat) (h : priceOrder side a b = false) :
    priceOrder side b a = true := by
  cases side <;> simp [priceOrder] at h ⊢ <;> omega

theorem priceOrder_trans (side : Side) (a b c : Nat)
    (h1 : priceOrder side a b = true) (h2 : priceOrder side b c = true) :
    priceOrder side a c = true := by
  cases side <;> simp [priceOrder] at h1 h2 ⊢ <;> omega

/-- Once a level's price is out of reach, every worse-priority price is
out of reach too. -/
theorem canMatch_mono (side : Side) (op p x : Nat)
    (h : canMatchB side op p = false) (hord : priceOrder side p x = true) :
    canMatchB side op x = false := by
  cases side <;> simp [canMatchB, priceOrder] at h hord ⊢ <;> omega

theorem restingId_mkBookTrade (symbol : String) (side : Side)
    (aggressor_id price : Nat) (mf : Order × Nat) :
    restingId side (mkBookTrade symbol side aggressor_id price mf) = mf.1.id := by
  cases side <;> rfl

/-- The trades produced by the `book.rs` fills loop are exactly one
`mkBookTrade` per fill. -/
theorem bookFills_trades (symbol : String) (side : Side) (aggressor_id price : Nat)
    (fills : List (Order × Nat)) (o : Order) (locs : List (Nat × OrderLocation)) :
    (bookFills symbol side aggressor_id price fills o locs).1 =
      fills.map (mkBookTrade symbol side aggressor_id price) := by
  induction fills generalizing o locs with
  | nil => rfl
  | cons mf rest ih =>
    rcases mf with ⟨matched, fq⟩
    simp only [bookFills, List.map_cons]
    rw [ih]
    rfl

/-- The `book.rs` fills loop does not change the aggressor's identity
fields, and lowers its remaining quantity by the sum of the fills. -/
theorem bookFills_agg (symbol : String) (side : Side) (aggressor_id price : Nat)
    (fills : List (Order × Nat)) (o : Order) (locs : List (Nat × OrderLocation)) :
    (bookFills symbol side aggressor_id price fills o locs).2.1.id = o.id ∧
    (bookFills symbol side aggressor_id price fills o locs).2.1.price = o.price ∧
    (bookFills symbol side aggressor_id price fills o locs).2.1.side = o.side ∧
    (bookFills symbol side aggressor_id price fills o locs).2.1.symbol = o.symbol ∧
    (bookFills symbol side aggressor_id price fills o locs).2.1.remaining_quantity =
      o.remaining_quantity - sumFills fills := by
  induction fills generalizing o locs with
  | nil => exact ⟨rfl, rfl, rfl, rfl, by simp [bookFills, sumFills]⟩
  | cons mf rest ih =>
    rcases mf with ⟨matched, fq⟩
    simp only [bookFills]
    obtain ⟨h1, h2, h3, h4, h5⟩ := ih (o.fillT fq)
      (if matched.isComplete = true then alRemove locs matched.id else locs)
    refine ⟨by simpa using h1, by simpa using h2, by simpa using h3,
      by simpa using h4, ?_⟩
    rw [sumFills_cons]
    simp only [h5, fillT_remaining]
    omega

/-- Location keys only shrink through the `book.rs` fills loop. -/
theorem bookFills_locs (symbol : String) (side : Side) (aggressor_id price : Nat)
    (fills : List (Order × Nat)) (o : Order) (locs : List (Nat × OrderLocation)) :
    (∀ x ∈ alKeys (bookFills symbol side aggressor_id price fills o locs).2.2,
      x ∈ alKeys locs) ∧
    ((alKeys locs).Nodup →
      (alKeys (bookFills symbol side aggressor_id price fills o locs).2.2).Nodup) := by
  induction fills generalizing o locs with
  | nil => exact ⟨fun x hx => hx, fun h => h⟩
  | cons mf rest ih =>
    rcases mf with ⟨matched, fq⟩
    simp only [bookFills]
    by_cases hc : matched.isComplete = true
    · simp only [if_pos hc]
      obtain ⟨hsub, hnd⟩ := ih (o.fillT fq) (alRemove locs matched.id)
      exact ⟨fun x hx => alKeys_remove_subset locs matched.id x (hsub x hx),
        fun h => hnd (alKeys_remove_nodup locs matched.id h)⟩
    · simp only [if_neg hc]
      exact ih (o.fillT fq) locs

/-- The fallible fills loop of `book.rs` (`order.fill(..)?`) never takes
its error branch when the fill amounts sum to at most the aggressor's
remaining quantity. -/
theorem bookFillsE_eq (symbol : String) (side : Side) (aggressor_id price : Nat)
    (fills : List (Order × Nat)) (o : Order) (locs : List (Nat × OrderLocation))
    (h : sumFills fills ≤ o.remaining_quantity) :
    bookFillsE symbol side aggressor_id price fills o locs =
      (Except.ok (bookFills symbol side aggressor_id price fills o locs).1,
        (bookFills symbol side aggressor_id price fills o locs).2.1,
        (bookFills symbol side aggressor_id price fills o locs).2.2) := by
  induction fills generalizing o locs with
  | nil => rfl
  | cons mf rest ih =>
    rcases mf with ⟨matched, fq⟩
    rw [sumFills_cons] at h
    have hfq : fq ≤ o.remaining_quantity := by omega
    have hrest : sumFills rest ≤ (o.fillT fq).remaining_quantity := by
      rw [fillT_remaining]; omega
    simp only [bookFillsE, bookFills, Order.fill_eq_fillT o fq hfq]
    rw [ih (o.fillT fq) (if matched.isComplete = true then alRemove locs matched.id else locs) hrest]

/-- The fallible price loop of `book.rs` never takes its error branch:
each level's take is bounded by the aggressor's remaining quantity. -/
theorem bookGoE_eq (flag : Bool) (symbol : String) (prices : List Nat) (o : Order)
    (m : List (Nat × PriceLevel)) (locs : List (Nat × OrderLocation)) :
    bookGoE flag symbol prices o m locs =
      (Except.ok (bookGo flag symbol prices o m locs).1,
        (bookGo flag symbol prices o m locs).2.1,
        (bookGo flag symbol prices o m locs).2.2.1,
        (bookGo flag symbol prices o m locs).2.2.2) := by
  induction prices generalizing o m locs with
  | nil => rfl
  | cons p ps ih =>
    by_cases h0 : o.remaining_quantity = 0
    · simp [bookGoE, bookGo, h0]
    · by_cases hbreak : (flag && !canMatchB o.side o.price p) = true
      · simp [bookGoE, bookGo, h0, hbreak]
      · cases hget : alGet m p with
        | none => simp [bookGoE, bookGo, h0, hbreak, hget, ih]
        | some lvl =>
          by_cases htz : lvl.total_quantity = 0
          · simp [bookGoE, bookGo, h0, hbreak, hget, htz, ih]
          · have hmq : min o.remaining_quantity lvl.total_quantity ≤ o.remaining_quantity :=
              Nat.min_le_left _ _
            have hsum : sumFills
                (lvl.takeQuantity (min o.remaining_quantity lvl.total_quantity)).1 ≤
                o.remaining_quantity := by
              have := takeGo_sumFills_le (min o.remaining_quantity lvl.total_quantity)
                lvl.orders lvl.total_quantity lvl.order_count
              simp only [PriceLevel.takeQuantity] at *
              omega
            simp only [bookGoE, bookGo, if_neg h0, Bool.if_false_left] at *
            simp only [hbreak, if_false, hget, if_neg htz]
            rw [bookFillsE_eq _ _ _ _ _ _ _ hsum]
            simp [ih]

/-- Effect of the `book.rs` price loop on the book's side map, location
map and aggressor: well-formedness of the side map is preserved, its keys
only shrink, the location keys only shrink, and the aggressor keeps its
identity fields. -/
theorem bookGo_wf (flag : Bool) (symbol : String) (prices : List Nat) (o : Order)
    (m : List (Nat × PriceLevel)) (locs : List (Nat × OrderLocation))
    (hwf : MapWF m) :
    MapWF (bookGo flag symbol prices o m locs).2.2.1 ∧
    (∀ x ∈ alKeys (bookGo flag symbol prices o m locs).2.2.1, x ∈ alKeys m) ∧
    (∀ x ∈ alKeys (bookGo flag symbol prices o m locs).2.2.2, x ∈ alKeys locs) ∧
    (bookGo flag symbol prices o m locs).2.1.id = o.id ∧
    (bookGo flag symbol prices o m locs).2.1.price = o.price ∧
    (bookGo flag symbol prices o m locs).2.1.side = o.side ∧
    (bookGo flag symbol prices o m locs).2.1.symbol = o.symbol := by
  induction prices generalizing o m locs with
  | nil =>
    exact ⟨hwf, fun x hx => hx, fun x hx => hx, rfl, rfl, rfl, rfl⟩
  | cons p ps ih =>
    by_cases h0 : o.remaining_quantity = 0
    · simp only [bookGo, if_pos h0]
      exact ⟨hwf, fun x hx => hx, fun x hx => hx, trivial, trivial, trivial, trivial⟩
    · by_cases hbreak : (flag && !canMatchB o.side o.price p) = true
      · simp only [bookGo, if_neg h0, if_pos hbreak]
        exact ⟨hwf, fun x hx => hx, fun x hx => hx, trivial, trivial, trivial, trivial⟩
      · cases hget : alGet m p with
        | none =>
          simp only [bookGo, if_neg h0, if_neg hbreak, hget]
          exact ih o m locs hwf
        | some lvl =>
          by_cases htz : lvl.total_quantity = 0
          · simp only [bookGo, if_neg h0, if_neg hbreak, hget, if_pos htz]
            exact ih o m locs hwf
          · have hlwf : LevelWF p lvl := hwf.2 (p, lvl) (mem_of_alGet hget)
            obtain ⟨hprice, hpos, htoteq, hcnteq⟩ := hlwf
            have hspec := takeGo_spec (min o.remaining_quantity lvl.total_quantity)
              lvl.orders lvl.total_quantity lvl.order_count hpos htoteq hcnteq
            obtain ⟨hs1, hs2, hs3, hs4, hs5, hs6⟩ := hspec
            simp only [bookGo, if_neg h0, if_neg hbreak, hget, if_neg htz]
            set mq := min o.remaining_quantity lvl.total_quantity with hmq
            set tk := takeGo mq lvl.orders lvl.total_quantity lvl.order_count with htk
            set lvl' : PriceLevel :=
              { price := lvl.price, orders := tk.2.1,
                total_quantity := tk.2.2.1, order_count := tk.2.2.2 } with hlvl'
            have hql : PriceLevel.takeQuantity lvl mq = (tk.1, lvl') := by
              simp [PriceLevel.takeQuantity, hlvl']
            set fb := bookFills symbol o.side o.id p tk.1 o locs with hfb
            have hagg := bookFills_agg symbol o.side o.id p tk.1 o locs
            have hlocs := bookFills_locs symbol o.side o.id p tk.1 o locs
            set m' := if lvl'.isEmpty then alRemove m p else alUpdate m p lvl' with hm'
            have hwf' : MapWF m' := by
              rw [hm']
              by_cases he : lvl'.isEmpty
              · rw [if_pos he]
                exact ⟨alKeys_remove_nodup m p hwf.1,
                  fun pl hpl => hwf.2 pl (mem_alRemove hpl)⟩
              · rw [if_neg he]
                refine ⟨by rw [alKeys_update]; exact hwf.1, fun pl hpl => ?_⟩
                rcases mem_alUpdate hpl with hold | hnew
                · exact hwf.2 pl hold
                · rw [hnew]
                  exact ⟨hprice, hs3, hs1, hs2⟩
            have hkeys' : ∀ x ∈ alKeys m', x ∈ alKeys m := by
              rw [hm']
              by_cases he : lvl'.isEmpty
              · rw [if_pos he]; exact alKeys_remove_subset m p
              · rw [if_neg he]; rw [alKeys_update]; exact fun x hx => hx
            have hrec := ih fb.2.1 m' fb.2.2 hwf'
            rw [hql]
            refine ⟨hrec.1, ?_, ?_, ?_, ?_, ?_, ?_⟩
            · exact fun x hx => hkeys' x (hrec.2.1 x hx)
            · exact fun x hx => hlocs.1 x (hrec.2.2.1 x hx)
            · rw [hrec.2.2.2.1, hagg.1]
            · rw [hrec.2.2.2.2.1, hagg.2.1]
            · rw [hrec.2.2.2.2.2.1, hagg.2.2.1]
            · rw [hrec.2.2.2.2.2.2, hagg.2.2.2.1]

/-- A spent aggressor stops the `book.rs` price loop immediately. -/
theorem bookGo_rem_zero (flag : Bool) (symbol : String) (prices : List Nat)
    (o : Order) (m : List (Nat × PriceLevel)) (locs : List (Nat × OrderLocation))
    (h : o.remaining_quantity = 0) :
    bookGo flag symbol prices o m locs = ([], o, m, locs) := by
  cases prices with
  | nil => rfl
  | cons p ps => simp [bookGo, h]

theorem mem_alKeys_remove_ne {α : Type} {m : List (Nat × α)} {k x : Nat}
    (hnodup : (alKeys m).Nodup) (hx : x ∈ alKeys (alRemove m k)) : x ≠ k := by
  intro hcontr
  subst hcontr
  have := get_isSome_of_mem_alKeys hx
  rw [alGet_remove_self m x hnodup] at this
  cases this

/-- A well-formed level with zero total quantity is empty. -/
theorem LevelWF_isEmpty_of_total_zero {p : Nat} {lvl : PriceLevel}
    (h : LevelWF p lvl) (hz : lvl.total_quantity = 0) : lvl.isEmpty = true := by
  obtain ⟨_, hpos, htot, hcnt⟩ := h
  cases hq : lvl.orders with
  | nil =>
    simp [PriceLevel.isEmpty, hcnt, hq]
  | cons a t =>
    exfalso
    have h1 := hpos a (by rw [hq]; exact List.mem_cons_self _ _)
    rw [hq] at htot
    rw [sumRem_cons] at htot
    omega

/-- Price-priority break property of the `book.rs` limit loop: if the
aggressor still has remaining quantity after the loop, every surviving
non-empty opposite level has a price its limit cannot reach. -/
theorem bookGo_break (symbol : String) (prices : List Nat) (o : Order)
    (m : List (Nat × PriceLevel)) (locs : List (Nat × OrderLocation))
    (hwf : MapWF m)
    (hsub : ∀ x lvlx, alGet m x = some lvlx → lvlx.isEmpty = false → x ∈ prices)
    (hsorted : prices.Pairwise (fun a b => priceOrder o.side a b = true))
    (hrem : (bookGo true symbol prices o m locs).2.1.remaining_quantity > 0) :
    ∀ x lvlx, alGet (bookGo true symbol prices o m locs).2.2.1 x = some lvlx →
      lvlx.isEmpty = false → canMatchB o.side o.price x = false := by
  induction prices generalizing o m locs with
  | nil =>
    intro x lvlx hgx hnex
    simp only [bookGo] at hgx
    exact absurd (hsub x lvlx hgx hnex) (List.not_mem_nil x)
  | cons p ps ih =>
    by_cases h0 : o.remaining_quantity = 0
    · rw [bookGo_rem_zero true symbol _ o m locs h0] at hrem
      have hconc : o.remaining_quantity > 0 := hrem
      omega
    · by_cases hcm : canMatchB o.side o.price p = true
      · have hbreak : (true && !canMatchB o.side o.price p) = false := by
          simp [hcm]
        cases hget : alGet m p with
        | none =>
          simp only [bookGo, if_neg h0, hbreak, Bool.false_eq_true, if_false, hget] at hrem ⊢
          have hsub' : ∀ x lvlx, alGet m x = some lvlx → lvlx.isEmpty = false → x ∈ ps := by
            intro x lvlx hgx hnex
            rcases List.mem_cons.mp (hsub x lvlx hgx hnex) with rfl | hx'
            · rw [hget] at hgx; cases hgx
            · exact hx'
          exact ih o m locs hwf hsub' (List.Pairwise.of_cons hsorted) hrem
        | some lvl =>
          have hlwf : LevelWF p lvl := hwf.2 (p, lvl) (mem_of_alGet hget)
          by_cases htz : lvl.total_quantity = 0
          · have hemp : lvl.isEmpty = true := LevelWF_isEmpty_of_total_zero hlwf htz
            simp only [bookGo, if_neg h0, hbreak, Bool.false_eq_true, if_false, hget,
              if_pos htz] at hrem ⊢
            have hsub' : ∀ x lvlx, alGet m x = some lvlx → lvlx.isEmpty = false →
                x ∈ ps := by
              intro x lvlx hgx hnex
              rcases List.mem_cons.mp (hsub x lvlx hgx hnex) with rfl | hx'
              · rw [hget] at hgx
                injection hgx with hgx
                rw [hgx] at hemp
                rw [hemp] at hnex
                exact Bool.noConfusion hnex
              · exact hx'
            exact ih o m locs hwf hsub' (List.Pairwise.of_cons hsorted) hrem
          · obtain ⟨hprice, hpos, htoteq, hcnteq⟩ := hlwf
            have hspec := takeGo_spec (min o.remaining_quantity lvl.total_quantity)
              lvl.orders lvl.total_quantity lvl.order_count hpos htoteq hcnteq
            obtain ⟨hs1, hs2, hs3, hs4, hs5, hs6⟩ := hspec
            simp only [bookGo, if_neg h0, hbreak, Bool.false_eq_true, if_false, hget,
              if_neg htz] at hrem ⊢
            set mq := min o.remaining_quantity lvl.total_quantity with hmq
            set tk := takeGo mq lvl.orders lvl.total_quantity lvl.order_count with htk
            set lvl' : PriceLevel :=
              { price := lvl.price, orders := tk.2.1,
                total_quantity := tk.2.2.1, order_count := tk.2.2.2 } with hlvl'
            have hql : PriceLevel.takeQuantity lvl mq = (tk.1, lvl') := by
              simp [PriceLevel.takeQuantity, hlvl']
            rw [hql] at hrem ⊢
            set fb := bookFills symbol o.side o.id p tk.1 o locs with hfb
            have hagg := bookFills_agg symbol o.side o.id p tk.1 o locs
            have hsumf : sumFills tk.1 = mq := by
              rw [htk, hs4, ← htoteq]
              have : mq ≤ lvl.total_quantity := Nat.min_le_right _ _
              omega
            by_cases he : lvl'.isEmpty
            · simp only [if_pos he] at hrem ⊢
              set m' := alRemove m p with hm'
              have hwf' : MapWF m' :=
                ⟨alKeys_remove_nodup m p hwf.1, fun pl hpl => hwf.2 pl (mem_alRemove hpl)⟩
              have hsub' : ∀ x lvlx, alGet m' x = some lvlx → lvlx.isEmpty = false →
                  x ∈ ps := by
                intro x lvlx hgx hnex
                have hxp : x ≠ p := by
                  intro hcontr
                  subst hcontr
                  rw [hm', alGet_remove_self m x hwf.1] at hgx
                  cases hgx
                have hgm : alGet m x = some lvlx := by
                  rw [alGet_remove_ne m p x hxp] at hgx
                  exact hgx
                rcases List.mem_cons.mp (hsub x lvlx hgm hnex) with rfl | hx'
                · exact absurd rfl hxp
                · exact hx'
              have hside : fb.2.1.side = o.side := hagg.2.2.1
              have hprice2 : fb.2.1.price = o.price := hagg.2.1
              have hrec := ih fb.2.1 m' fb.2.2 hwf' hsub'
                (by rw [hside]; exact List.Pairwise.of_cons hsorted)
              rw [hside, hprice2] at hrec
              exact hrec hrem
            · -- level survived the take: the aggressor was exhausted there
              exfalso
              have hqne : tk.2.1 ≠ [] := by
                intro hcontr
                apply he
                have hc0 : tk.2.2.2 = 0 := by rw [hs2, hcontr]; rfl
                simp [PriceLevel.isEmpty, hlvl', hc0]
              have hlt : ¬ (sumRem lvl.orders ≤ mq) := fun hc => hqne (hs5.mpr hc)
              have hmqrem : mq = o.remaining_quantity := by
                rw [htoteq] at hmq
                omega
              have hrem1 : fb.2.1.remaining_quantity = 0 := by
                rw [hfb, hagg.2.2.2.2, hsumf, hmqrem]
                omega
              rw [if_neg he] at hrem
              rw [bookGo_rem_zero true symbol ps fb.2.1 (alUpdate m p lvl') fb.2.2 hrem1]
                at hrem
              simp only at hrem
              omega
      · -- the loop breaks at p: every remaining level fails the price test
        have hp : canMatchB o.side o.price p = false := by
          cases hc : canMatchB o.side o.price p
          · rfl
          · exact absurd hc hcm
        have hbreak : (true && !canMatchB o.side o.price p) = true := by simp [hp]
        simp only [bookGo, if_neg h0, if_pos hbreak]
        intro x lvlx hgx hnex
        rcases List.mem_cons.mp (hsub x lvlx hgx hnex) with rfl | hx'
        · exact hp
        · exact canMatch_mono o.side o.price p x hp
            ((List.pairwise_cons.mp hsorted).1 x hx')

/-- The `take_quantity` loop always produces a first fill when asked for
a positive quantity from a non-empty queue. -/
theorem takeGo_ne_nil (requested : Nat) (queue : List Order) (tot cnt : Nat)
    (hreq : requested ≠ 0) (hq : queue ≠ []) :
    (takeGo requested queue tot cnt).1 ≠ [] := by
  cases queue with
  | nil => exact absurd rfl hq
  | cons o rest =>
    simp only [takeGo, if_neg hreq]
    by_cases hz : (o.fillT (min requested o.remaining_quantity)).remaining_quantity = 0
    · simp only [if_pos hz]
      exact List.cons_ne_nil _ _
    · simp only [if_neg hz]
      exact List.cons_ne_nil _ _

/-- If the `book.rs` price loop produced no trade, it changed nothing:
the aggressor, side map and locations return as they came (levels with
liquidity always yield a fill). -/
theorem bookGo_no_trades (flag : Bool) (symbol : String) (prices : List Nat)
    (o : Order) (m : List (Nat × PriceLevel)) (locs : List (Nat × OrderLocation))
    (hwf : MapWF m)
    (h : (bookGo flag symbol prices o m locs).1 = []) :
    (bookGo flag symbol prices o m locs).2.1 = o ∧
    (bookGo flag symbol prices o m locs).2.2.1 = m ∧
    (bookGo flag symbol prices o m locs).2.2.2 = locs := by
  induction prices generalizing o m locs with
  | nil => exact ⟨rfl, rfl, rfl⟩
  | cons p ps ih =>
    by_cases h0 : o.remaining_quantity = 0
    · simp only [bookGo, if_pos h0]
      exact ⟨trivial, trivial, trivial⟩
    · by_cases hbreak : (flag && !canMatchB o.side o.price p) = true
      · simp only [bookGo, if_neg h0, if_pos hbreak]
        exact ⟨trivial, trivial, trivial⟩
      · cases hget : alGet m p with
        | none =>
          simp only [bookGo, if_neg h0, if_neg hbreak, hget] at h ⊢
          exact ih o m locs hwf h
        | some lvl =>
          by_cases htz : lvl.total_quantity = 0
          · simp only [bookGo, if_neg h0, if_neg hbreak, hget, if_pos htz] at h ⊢
            exact ih o m locs hwf h
          · exfalso
            have hlwf : LevelWF p lvl := hwf.2 (p, lvl) (mem_of_alGet hget)
            have hne : lvl.orders ≠ [] := by
              intro hcontr
              apply htz
              rw [hlwf.2.2.1, hcontr]
              rfl
            have hmq : min o.remaining_quantity lvl.total_quantity ≠ 0 := by
              have h1 : o.remaining_quantity ≠ 0 := h0
              omega
            have hfne := takeGo_ne_nil (min o.remaining_quantity lvl.total_quantity)
              lvl.orders lvl.total_quantity lvl.order_count hmq hne
            simp only [bookGo, if_neg h0, if_neg hbreak, hget, if_neg htz] at h
            rw [bookFills_trades] at h
            rcases hcase : (takeGo (min o.remaining_quantity lvl.total_quantity)
                lvl.orders lvl.total_quantity lvl.order_count).1 with _ | ⟨f, fs⟩
            · exact hfne hcase
            · rw [PriceLevel.takeQuantity] at h
              rw [hcase] at h
              simp at h

/-- Every trade the `book.rs` price loop emits executes at the key of an
opposite-side level of the starting map, and its passive order id is an
id resting in that level's queue. -/
theorem bookGo_trades (flag : Bool) (symbol : String) (prices : List Nat)
    (o : Order) (m m0 : List (Nat × PriceLevel)) (locs : List (Nat × OrderLocation))
    (hnodup : prices.Nodup)
    (hagree : ∀ q ∈ prices, alGet m q = alGet m0 q) :
    ∀ t ∈ (bookGo flag symbol prices o m locs).1,
      ∃ pl : Nat × PriceLevel, alGet m0 pl.1 = some pl.2 ∧ t.price = pl.1 ∧
        restingId o.side t ∈ idsOf pl.2.orders := by
  induction prices generalizing o m locs with
  | nil =>
    intro t ht
    simp [bookGo] at ht
  | cons p ps ih =>
    have hnodup' : ps.Nodup := (List.nodup_cons.mp hnodup).2
    have hpnotin : p ∉ ps := (List.nodup_cons.mp hnodup).1
    by_cases h0 : o.remaining_quantity = 0
    · intro t ht
      simp [bookGo, h0] at ht
    · by_cases hbreak : (flag && !canMatchB o.side o.price p) = true
      · intro t ht
        simp only [bookGo, if_neg h0, if_pos hbreak] at ht
        simp at ht
      · cases hget : alGet m p with
        | none =>
          simp only [bookGo, if_neg h0, if_neg hbreak, hget]
          exact ih o m locs hnodup' (fun q hq => hagree q (List.mem_cons_of_mem _ hq))
        | some lvl =>
          by_cases htz : lvl.total_quantity = 0
          · simp only [bookGo, if_neg h0, if_neg hbreak, hget, if_pos htz]
            exact ih o m locs hnodup' (fun q hq => hagree q (List.mem_cons_of_mem _ hq))
          · simp only [bookGo, if_neg h0, if_neg hbreak, hget, if_neg htz]
            intro t ht
            set mq := min o.remaining_quantity lvl.total_quantity with hmq
            set tk := takeGo mq lvl.orders lvl.total_quantity lvl.order_count with htk
            set lvl' : PriceLevel :=
              { price := lvl.price, orders := tk.2.1,
                total_quantity := tk.2.2.1, order_count := tk.2.2.2 } with hlvl'
            have hql : PriceLevel.takeQuantity lvl mq = (tk.1, lvl') := by
              simp [PriceLevel.takeQuantity, hlvl']
            rw [hql] at ht
            set fb := bookFills symbol o.side o.id p tk.1 o locs with hfb
            have hagg := bookFills_agg symbol o.side o.id p tk.1 o locs
            rw [← hfb] at hagg
            set m' := if lvl'.isEmpty then alRemove m p else alUpdate m p lvl' with hm'
            rcases List.mem_append.mp ht with hin | hin
            · -- a trade from this level
              rw [hfb, bookFills_trades] at hin
              rcases List.mem_map.mp hin with ⟨mf, hmf, hteq⟩
              refine ⟨(p, lvl), ?_, ?_, ?_⟩
              · rw [← hagree p (List.mem_cons_self _ _)]
                exact hget
              · rw [← hteq]
                rfl
              · rw [← hteq, restingId_mkBookTrade]
                exact takeGo_fill_ids mq lvl.orders lvl.total_quantity lvl.order_count
                  mf hmf
            · -- a trade from a later level
              have hagree' : ∀ q ∈ ps, alGet m' q = alGet m0 q := by
                intro q hq
                have hqp : q ≠ p := fun hcontr => hpnotin (hcontr ▸ hq)
                rw [hm']
                by_cases he : lvl'.isEmpty
                · rw [if_pos he, alGet_remove_ne m p q hqp]
                  exact hagree q (List.mem_cons_of_mem _ hq)
                · rw [if_neg he, alGet_update_ne m p q lvl' hqp]
                  exact hagree q (List.mem_cons_of_mem _ hq)
              have hrec := ih fb.2.1 m' fb.2.2 hnodup' hagree' t hin
              rw [hagg.2.2.1] at hrec
              exact hrec

/-! ## Matching-engine loop lemmas -/

/-- The engine fills loop preserves the aggressor's identity fields. -/
theorem engineFills_agg (o : Order) (price : Nat) (fills : List (Order × Nat)) :
    (engineFills o price fills).2.id = o.id ∧
    (engineFills o price fills).2.price = o.price ∧
    (engineFills o price fills).2.side = o.side ∧
    (engineFills o price fills).2.symbol = o.symbol := by
  induction fills generalizing o with
  | nil => exact ⟨rfl, rfl, rfl, rfl⟩
  | cons mf rest ih =>
    rcases mf with ⟨matched, fq⟩
    simp only [engineFills]
    by_cases hle : fq ≤ o.remaining_quantity
    · rw [Order.fill_eq_fillT o fq hle]
      by_cases hz : o.remaining_quantity - fq = 0
      · simp [hz]
      · simp only [fillT_remaining, if_neg hz]
        simpa using ih (o.fillT fq)
    · have herr : o.fill fq = Except.error "Cannot fill more than remaining quantity" := by
        rw [Order.fill]
        rw [if_pos (by omega)]
      rw [herr]
      by_cases hz : o.remaining_quantity = 0
      · simp [hz]
      · simp only [if_neg hz]
        simpa using ih o

/-- With positive fill amounts summing to at most the aggressor's
remaining quantity, the engine fills loop consumes exactly that sum (the
early break can only fire at the last fill). -/
theorem engineFills_rem (o : Order) (price : Nat) (fills : List (Order × Nat))
    (hpos : ∀ f ∈ fills, 0 < f.2) (hsum : sumFills fills ≤ o.remaining_quantity) :
    (engineFills o price fills).2.remaining_quantity =
      o.remaining_quantity - sumFills fills := by
  induction fills generalizing o with
  | nil => simp [engineFills, sumFills]
  | cons mf rest ih =>
    rcases mf with ⟨matched, fq⟩
    rw [sumFills_cons] at hsum ⊢
    have hle : fq ≤ o.remaining_quantity := by omega
    simp only [engineFills, Order.fill_eq_fillT o fq hle]
    by_cases hz : (o.fillT fq).remaining_quantity = 0
    · simp only [if_pos hz]
      rw [fillT_remaining] at hz
      have hrest0 : sumFills rest = 0 := by omega
      have hrestnil : rest = [] := by
        cases hr : rest with
        | nil => rfl
        | cons f fs =>
          exfalso
          have hf := hpos f (by rw [hr]; exact List.mem_cons_of_mem _ (List.mem_cons_self _ _))
          rw [hr, sumFills_cons] at hrest0
          omega
      rw [fillT_remaining]
      omega
    · simp only [if_neg hz]
      have := ih (o.fillT fq) (fun f hf => hpos f (List.mem_cons_of_mem _ hf))
        (by rw [fillT_remaining]; omega)
      rw [this, fillT_remaining]
      omega

/-- Every trade of the engine fills loop executes at the given level
price, with a passive order id drawn from the fills. -/
theorem engineFills_trades (o : Order) (price : Nat) (fills : List (Order × Nat)) :
    ∀ t ∈ (engineFills o price fills).1, t.price = price ∧
      restingId o.side t ∈ (fills.map (fun mf => mf.1.id)) := by
  induction fills generalizing o with
  | nil => simp [engineFills]
  | cons mf rest ih =>
    rcases mf with ⟨matched, fq⟩
    intro t ht
    simp only [engineFills] at ht
    have hthead : ∀ o' : Order, o'.side = o.side →
        t = { symbol := o.symbol
              buyer_order_id := (tradeIds o.side o.id matched.id).1
              seller_order_id := (tradeIds o.side o.id matched.id).2
              price := price
              quantity := fq } →
        t.price = price ∧ restingId o.side t ∈ ((matched, fq) :: rest).map
          (fun mf => mf.1.id) := by
      intro o' _ hteq
      subst hteq
      refine ⟨rfl, ?_⟩
      cases hside : o.side <;>
        simp [restingId, tradeIds, hside]
    rcases hfill : o.fill fq with e | o'
    · rw [hfill] at ht
      by_cases hz : o.remaining_quantity = 0
      · simp only [if_pos hz] at ht
        rcases List.mem_singleton.mp ht with rfl
        cases hside : o.side <;> simp [restingId, tradeIds, hside]
      · simp only [if_neg hz] at ht
        rcases List.mem_cons.mp ht with rfl | htl
        · cases hside : o.side <;> simp [restingId, tradeIds, hside]
        · have := ih o t htl
          simp only [List.map_cons, List.mem_cons]
          exact ⟨this.1, Or.inr this.2⟩
    · rw [hfill] at ht
      have ho' : o'.side = o.side ∧ o'.id = o.id := by
        have hle : ¬ fq > o.remaining_quantity := by
          intro hcontr
          rw [Order.fill] at hfill
          simp [hcontr] at hfill
        rw [Order.fill_eq_fillT o fq (by omega)] at hfill
        injection hfill with hfill
        rw [← hfill]
        exact ⟨rfl, rfl⟩
      by_cases hz : o'.remaining_quantity = 0
      · simp only [if_pos hz] at ht
        rcases List.mem_singleton.mp ht with rfl
        cases hside : o.side <;> simp [restingId, tradeIds, hside]
      · simp only [if_neg hz] at ht
        rcases List.mem_cons.mp ht with rfl | htl
        · cases hside : o.side <;> simp [restingId, tradeIds, hside]
        · have := ih o' t htl
          rw [ho'.1] at this
          simp only [List.map_cons, List.mem_cons]
          exact ⟨this.1, Or.inr this.2⟩

/-- A spent aggressor stops the engine level loop immediately. -/
theorem engineGo_rem_zero (flag : Bool) (o : Order) (lvls : List (Nat × PriceLevel))
    (h : o.remaining_quantity = 0) : engineGo flag o lvls = ([], o, lvls) := by
  cases lvls with
  | nil => rfl
  | cons pl rest =>
    rcases pl with ⟨p, lvl⟩
    simp [engineGo, h]

/-- Effect of the engine level loop on the traversal list: keys and order
are preserved, levels stay well formed, a level left non-empty was
non-empty to begin with, and the aggressor keeps its identity fields. -/
theorem engineGo_wf (flag : Bool) (o : Order) (lvls : List (Nat × PriceLevel))
    (hwf : ∀ pl ∈ lvls, LevelWF pl.1 pl.2) :
    (engineGo flag o lvls).2.2.map Prod.fst = lvls.map Prod.fst ∧
    (∀ pl ∈ (engineGo flag o lvls).2.2, LevelWF pl.1 pl.2) ∧
    (∀ pl ∈ (engineGo flag o lvls).2.2, pl.2.isEmpty = false →
      ∃ lvl0, (pl.1, lvl0) ∈ lvls ∧ lvl0.isEmpty = false) ∧
    (engineGo flag o lvls).2.1.id = o.id ∧
    (engineGo flag o lvls).2.1.price = o.price ∧
    (engineGo flag o lvls).2.1.side = o.side ∧
    (engineGo flag o lvls).2.1.symbol = o.symbol := by
  induction lvls generalizing o with
  | nil =>
    exact ⟨rfl, by simp [engineGo], by simp [engineGo], rfl, rfl, rfl, rfl⟩
  | cons pl rest ih =>
    rcases pl with ⟨p, lvl⟩
    by_cases h0 : o.remaining_quantity = 0
    · simp only [engineGo, if_pos h0]
      exact ⟨trivial, hwf, fun pl hpl hne => ⟨pl.2, hpl, hne⟩,
        trivial, trivial, trivial, trivial⟩
    · by_cases hbreak : (flag && !canMatchB o.side o.price p) = true
      · simp only [engineGo, if_neg h0, if_pos hbreak]
        exact ⟨trivial, hwf, fun pl hpl hne => ⟨pl.2, hpl, hne⟩,
          trivial, trivial, trivial, trivial⟩
      · by_cases htz : lvl.total_quantity = 0
        · simp only [engineGo, if_neg h0, if_neg hbreak, if_pos htz]
          obtain ⟨k1, k2, k3, k4, k5, k6, k7⟩ :=
            ih o (fun pl hpl => hwf pl (List.mem_cons_of_mem _ hpl))
          refine ⟨by simpa using k1, ?_, ?_, k4, k5, k6, k7⟩
          · intro pl2 hpl2
            rcases List.mem_cons.mp hpl2 with rfl | hpl2
            · exact hwf (p, lvl) (List.mem_cons_self _ _)
            · exact k2 pl2 hpl2
          · intro pl2 hpl2 hne
            rcases List.mem_cons.mp hpl2 with rfl | hpl2
            · exact ⟨lvl, List.mem_cons_self _ _, hne⟩
            · obtain ⟨lvl0, hmem, hne0⟩ := k3 pl2 hpl2 hne
              exact ⟨lvl0, List.mem_cons_of_mem _ hmem, hne0⟩
        · have hlwf : LevelWF p lvl := hwf (p, lvl) (List.mem_cons_self _ _)
          obtain ⟨hprice, hpos, htoteq, hcnteq⟩ := hlwf
          have hspec := takeGo_spec (min o.remaining_quantity lvl.total_quantity)
            lvl.orders lvl.total_quantity lvl.order_count hpos htoteq hcnteq
          obtain ⟨hs1, hs2, hs3, hs4, hs5, hs6⟩ := hspec
          simp only [engineGo, if_neg h0, if_neg hbreak, if_neg htz]
          set mq := min o.remaining_quantity lvl.total_quantity with hmq
          set tk := takeGo mq lvl.orders lvl.total_quantity lvl.order_count with htk
          set lvl' : PriceLevel :=
            { price := lvl.price, orders := tk.2.1,
              total_quantity := tk.2.2.1, order_count := tk.2.2.2 } with hlvl'
          have hql : PriceLevel.takeQuantity lvl mq = (tk.1, lvl') := by
            simp [PriceLevel.takeQuantity, hlvl']
          simp only [hql]
          have hagg := engineFills_agg o p tk.1
          obtain ⟨k1, k2, k3, k4, k5, k6, k7⟩ :=
            ih (engineFills o p tk.1).2 (fun pl hpl => hwf pl (List.mem_cons_of_mem _ hpl))
          refine ⟨by simpa using k1, ?_, ?_, by rw [k4, hagg.1],
            by rw [k5, hagg.2.1], by rw [k6, hagg.2.2.1],
            by rw [k7, hagg.2.2.2]⟩
          · intro pl2 hpl2
            rcases List.mem_cons.mp hpl2 with rfl | hpl2
            · exact ⟨hprice, hs3, hs1, hs2⟩
            · exact k2 pl2 hpl2
          · intro pl2 hpl2 hne
            rcases List.mem_cons.mp hpl2 with rfl | hpl2
            · refine ⟨lvl, List.mem_cons_self _ _, ?_⟩
              simp only [PriceLevel.isEmpty, decide_eq_false_iff_not] at hne
              have hqne : tk.2.1 ≠ [] := by
                intro hcontr
                apply hne
                show lvl'.order_count = 0
                simp only [hlvl']
                rw [hs2, hcontr]
                rfl
              have hlne : lvl.orders ≠ [] := by
                intro hcontr
                apply hqne
                rw [htk, hcontr]
                cases mq <;> rfl
              simp [PriceLevel.isEmpty, hcnteq, List.length_eq_zero, hlne]
            · obtain ⟨lvl0, hmem, hne0⟩ := k3 pl2 hpl2 hne
              exact ⟨lvl0, List.mem_cons_of_mem _ hmem, hne0⟩

/-- Break property of the engine level loop: a leftover aggressor means
every level left non-empty was never price-eligible (for the market loop,
`flag = false`, there is no such level at all). -/
theorem engineGo_break (flag : Bool) (o : Order) (lvls : List (Nat × PriceLevel))
    (hwf : ∀ pl ∈ lvls, LevelWF pl.1 pl.2)
    (hsorted : (lvls.map Prod.fst).Pairwise (fun a b => priceOrder o.side a b = true))
    (hrem : (engineGo flag o lvls).2.1.remaining_quantity > 0) :
    ∀ pl ∈ (engineGo flag o lvls).2.2, pl.2.isEmpty = false →
      flag = true ∧ canMatchB o.side o.price pl.1 = false := by
  induction lvls generalizing o with
  | nil =>
    intro pl hpl
    simp [engineGo] at hpl
  | cons hd rest ih =>
    rcases hd with ⟨p, lvl⟩
    by_cases h0 : o.remaining_quantity = 0
    · rw [engineGo_rem_zero flag o _ h0] at hrem
      have hconc : o.remaining_quantity > 0 := hrem
      omega
    · by_cases hbreak : (flag && !canMatchB o.side o.price p) = true
      · simp only [engineGo, if_neg h0, if_pos hbreak]
        rcases Bool.and_eq_true_iff.mp hbreak with ⟨hflag, hnotcm⟩
        have hp : canMatchB o.side o.price p = false := by
          cases hc : canMatchB o.side o.price p
          · rfl
          · rw [hc] at hnotcm; cases hnotcm
        intro pl hpl hne
        rcases List.mem_cons.mp hpl with rfl | hpl'
        · exact ⟨hflag, hp⟩
        · refine ⟨hflag, canMatch_mono o.side o.price p pl.1 hp ?_⟩
          exact (List.pairwise_cons.mp hsorted).1 pl.1 (List.mem_map_of_mem _ hpl')
      · by_cases htz : lvl.total_quantity = 0
        · have hemp : lvl.isEmpty = true :=
            LevelWF_isEmpty_of_total_zero (hwf (p, lvl) (List.mem_cons_self _ _)) htz
          simp only [engineGo, if_neg h0, if_neg hbreak, if_pos htz] at hrem ⊢
          intro pl hpl hne
          rcases List.mem_cons.mp hpl with rfl | hpl'
          · rw [hemp] at hne; cases hne
          · exact ih o (fun q hq => hwf q (List.mem_cons_of_mem _ hq))
              (List.Pairwise.of_cons (by simpa using hsorted)) hrem pl hpl' hne
        · have hlwf : LevelWF p lvl := hwf (p, lvl) (List.mem_cons_self _ _)
          obtain ⟨hprice, hpos, htoteq, hcnteq⟩ := hlwf
          have hspec := takeGo_spec (min o.remaining_quantity lvl.total_quantity)
            lvl.orders lvl.total_quantity lvl.order_count hpos htoteq hcnteq
          obtain ⟨hs1, hs2, hs3, hs4, hs5, hs6⟩ := hspec
          simp only [engineGo, if_neg h0, if_neg hbreak, if_neg htz] at hrem ⊢
          set mq := min o.remaining_quantity lvl.total_quantity with hmq
          set tk := takeGo mq lvl.orders lvl.total_quantity lvl.order_count with htk
          set lvl' : PriceLevel :=
            { price := lvl.price, orders := tk.2.1,
              total_quantity := tk.2.2.1, order_count := tk.2.2.2 } with hlvl'
          have hql : PriceLevel.takeQuantity lvl mq = (tk.1, lvl') := by
            simp [PriceLevel.takeQuantity, hlvl']
          simp only [hql] at hrem ⊢
          have hagg := engineFills_agg o p tk.1
          by_cases he : lvl'.isEmpty
          · intro pl hpl hne
            rcases List.mem_cons.mp hpl with rfl | hpl'
            · rw [he] at hne; cases hne
            · have hrec := ih (engineFills o p tk.1).2
                (fun q hq => hwf q (List.mem_cons_of_mem _ hq))
                (by rw [hagg.2.2.1]; exact List.Pairwise.of_cons (by simpa using hsorted))
                hrem pl hpl' hne
              rw [hagg.2.2.1, hagg.2.1] at hrec
              exact hrec
          · exfalso
            have hqne : tk.2.1 ≠ [] := by
              intro hcontr
              apply he
              have hc0 : tk.2.2.2 = 0 := by rw [hs2, hcontr]; rfl
              simp [PriceLevel.isEmpty, hlvl', hc0]
            have hlt : ¬ (sumRem lvl.orders ≤ mq) := fun hc => hqne (hs5.mpr hc)
            have hmqrem : mq = o.remaining_quantity := by
              rw [htoteq] at hmq
              omega
            have hsumf : sumFills tk.1 = mq := by
              rw [htk, hs4, ← htoteq]
              have hmin : mq ≤ lvl.total_quantity := Nat.min_le_right _ _
              omega
            have hrem1 : (engineFills o p tk.1).2.remaining_quantity = 0 := by
              rw [engineFills_rem o p tk.1 hs6 (by rw [hsumf, hmqrem])]
              rw [hsumf, hmqrem]
              omega
            rw [engineGo_rem_zero flag _ rest hrem1] at hrem
            have hconc : (engineFills o p tk.1).2.remaining_quantity > 0 := hrem
            omega

/-- Every trade the engine loop emits executes at the key of a level of
the traversal list, with a passive order id resting in that level. -/
theorem engineGo_trades (flag : Bool) (o : Order) (lvls : List (Nat × PriceLevel)) :
    ∀ t ∈ (engineGo flag o lvls).1, ∃ pl ∈ lvls, t.price = pl.1 ∧
      restingId o.side t ∈ idsOf pl.2.orders := by
  induction lvls generalizing o with
  | nil =>
    intro t ht
    simp [engineGo] at ht
  | cons hd rest ih =>
    rcases hd with ⟨p, lvl⟩
    by_cases h0 : o.remaining_quantity = 0
    · intro t ht
      rw [engineGo_rem_zero flag o _ h0] at ht
      simp at ht
    · by_cases hbreak : (flag && !canMatchB o.side o.price p) = true
      · intro t ht
        simp only [engineGo, if_neg h0, if_pos hbreak] at ht
        simp at ht
      · by_cases htz : lvl.total_quantity = 0
        · simp only [engineGo, if_neg h0, if_neg hbreak, if_pos htz]
          intro t ht
          obtain ⟨pl, hpl, h1, h2⟩ := ih o t ht
          exact ⟨pl, List.mem_cons_of_mem _ hpl, h1, h2⟩
        · simp only [engineGo, if_neg h0, if_neg hbreak, if_neg htz]
          intro t ht
          set mq := min o.remaining_quantity lvl.total_quantity with hmq
          set tk := takeGo mq lvl.orders lvl.total_quantity lvl.order_count with htk
          set lvl' : PriceLevel :=
            { price := lvl.price, orders := tk.2.1,
              total_quantity := tk.2.2.1, order_count := tk.2.2.2 } with hlvl'
          have hql : PriceLevel.takeQuantity lvl mq = (tk.1, lvl') := by
            simp [PriceLevel.takeQuantity, hlvl']
          simp only [hql] at ht
          have hagg := engineFills_agg o p tk.1
          rcases List.mem_append.mp ht with hin | hin
          · obtain ⟨h1, h2⟩ := engineFills_trades o p tk.1 t hin
            refine ⟨(p, lvl), List.mem_cons_self _ _, h1, ?_⟩
            rcases List.mem_map.mp h2 with ⟨mf, hmf, hid⟩
            rw [← hid]
            exact takeGo_fill_ids mq lvl.orders lvl.total_quantity lvl.order_count mf hmf
          · obtain ⟨pl, hpl, h1, h2⟩ := ih (engineFills o p tk.1).2 t hin
            rw [hagg.2.2.1] at h2
            exact ⟨pl, List.mem_cons_of_mem _ hpl, h1, h2⟩

/-! ## Write-back and cleanup fold lemmas (`operations.rs` `match_order`) -/

theorem writeBack_untouched (m lvls : List (Nat × PriceLevel)) (p : Nat)
    (h : p ∉ lvls.map Prod.fst) : alGet (writeBack m lvls) p = alGet m p := by
  induction lvls generalizing m with
  | nil => rfl
  | cons hd rest ih =>
    rcases hd with ⟨p0, l0⟩
    simp only [List.map_cons, List.mem_cons] at h
    push_neg at h
    simp only [writeBack, List.foldl_cons]
    have ih' := ih (alUpdate m p0 l0) h.2
    simp only [writeBack] at ih'
    rw [ih']
    exact alGet_update_ne m p0 p l0 h.1

theorem cleanup_untouched (m lvls : List (Nat × PriceLevel)) (p : Nat)
    (h : p ∉ lvls.map Prod.fst) : alGet (cleanupLevels m lvls) p = alGet m p := by
  induction lvls generalizing m with
  | nil => rfl
  | cons hd rest ih =>
    rcases hd with ⟨p0, l0⟩
    simp only [List.map_cons, List.mem_cons] at h
    push_neg at h
    simp only [cleanupLevels, List.foldl_cons]
    by_cases he : l0.isEmpty
    · simp only [if_pos he]
      have ih' := ih (alRemove m p0) h.2
      simp only [cleanupLevels] at ih'
      rw [ih']
      exact alGet_remove_ne m p0 p h.1
    · simp only [if_neg he]
      exact ih m h.2

theorem writeBack_keys (m lvls : List (Nat × PriceLevel)) :
    alKeys (writeBack m lvls) = alKeys m := by
  induction lvls generalizing m with
  | nil => rfl
  | cons hd rest ih =>
    simp only [writeBack, List.foldl_cons] at ih ⊢
    rw [ih (alUpdate m hd.1 hd.2), alKeys_update]

theorem cleanup_keys_subset (m lvls : List (Nat × PriceLevel)) :
    ∀ x ∈ alKeys (cleanupLevels m lvls), x ∈ alKeys m := by
  induction lvls generalizing m with
  | nil => exact fun x hx => hx
  | cons hd rest ih =>
    intro x hx
    simp only [cleanupLevels, List.foldl_cons] at hx
    by_cases he : hd.2.isEmpty
    · rw [if_pos he] at hx
      exact alKeys_remove_subset m hd.1 x (ih (alRemove m hd.1) x hx)
    · rw [if_neg he] at hx
      exact ih m x hx

theorem cleanup_nodup (m lvls : List (Nat × PriceLevel))
    (h : (alKeys m).Nodup) : (alKeys (cleanupLevels m lvls)).Nodup := by
  induction lvls generalizing m with
  | nil => exact h
  | cons hd rest ih =>
    simp only [cleanupLevels, List.foldl_cons]
    by_cases he : hd.2.isEmpty
    · rw [if_pos he]
      exact ih (alRemove m hd.1) (alKeys_remove_nodup m hd.1 h)
    · rw [if_neg he]
      exact ih m h

theorem writeBack_get (m lvls : List (Nat × PriceLevel)) (p : Nat) (l : PriceLevel)
    (hnodup : (lvls.map Prod.fst).Nodup) (hmem : (p, l) ∈ lvls)
    (hkey : p ∈ alKeys m) : alGet (writeBack m lvls) p = some l := by
  induction lvls generalizing m with
  | nil => cases hmem
  | cons hd rest ih =>
    rcases hd with ⟨p0, l0⟩
    simp only [List.map_cons, List.nodup_cons] at hnodup
    simp only [writeBack, List.foldl_cons]
    rcases List.mem_cons.mp hmem with heq | hmem'
    · rw [Prod.mk.injEq] at heq
      obtain ⟨h1, h2⟩ := heq
      subst h1
      subst h2
      have hout : p ∉ rest.map Prod.fst := hnodup.1
      have := writeBack_untouched (alUpdate m p l) rest p hout
      simp only [writeBack] at this
      rw [this]
      exact alGet_update_self m p l (get_isSome_of_mem_alKeys hkey)
    · have hkey' : p ∈ alKeys (alUpdate m p0 l0) := by
        rw [alKeys_update]
        exact hkey
      exact ih (alUpdate m p0 l0) hnodup.2 hmem' hkey'

theorem cleanup_get (m lvls : List (Nat × PriceLevel)) (p : Nat) (l : PriceLevel)
    (hnodupl : (lvls.map Prod.fst).Nodup) (hnodupm : (alKeys m).Nodup)
    (hmem : (p, l) ∈ lvls) :
    alGet (cleanupLevels m lvls) p =
      if l.isEmpty then none else alGet m p := by
  induction lvls generalizing m with
  | nil => cases hmem
  | cons hd rest ih =>
    rcases hd with ⟨p0, l0⟩
    simp only [List.map_cons, List.nodup_cons] at hnodupl
    simp only [cleanupLevels, List.foldl_cons]
    rcases List.mem_cons.mp hmem with heq | hmem'
    · rw [Prod.mk.injEq] at heq
      obtain ⟨h1, h2⟩ := heq
      subst h1
      subst h2
      have hout : p ∉ rest.map Prod.fst := hnodupl.1
      by_cases he : l.isEmpty
      · rw [if_pos he, if_pos he]
        have := cleanup_untouched (alRemove m p) rest p hout
        simp only [cleanupLevels] at this
        rw [this]
        exact alGet_remove_self m p hnodupm
      · rw [if_neg he, if_neg he]
        have := cleanup_untouched m rest p hout
        simp only [cleanupLevels] at this
        rw [this]
    · have hne : p ≠ p0 := by
        intro hcontr
        subst hcontr
        exact hnodupl.1 (List.mem_map_of_mem _ hmem')
      by_cases he : l0.isEmpty
      · rw [if_pos he]
        have ih' := ih (alRemove m p0) hnodupl.2 (alKeys_remove_nodup m p0 hnodupm) hmem'
        simp only [cleanupLevels] at ih'
        rw [ih']
        by_cases hel : l.isEmpty
        · rw [if_pos hel, if_pos hel]
        · rw [if_neg hel, if_neg hel]
          exact alGet_remove_ne m p0 p hne
      · rw [if_neg he]
        exact ih m hnodupl.2 hnodupm hmem'

theorem writeBack_id (m lvls : List (Nat × PriceLevel))
    (h : ∀ pl ∈ lvls, alGet m pl.1 = some pl.2) : writeBack m lvls = m := by
  induction lvls generalizing m with
  | nil => rfl
  | cons hd rest ih =>
    simp only [writeBack, List.foldl_cons]
    rw [alUpdate_same (h hd (List.mem_cons_self _ _))]
    exact ih m (fun pl hpl => h pl (List.mem_cons_of_mem _ hpl))

theorem cleanup_id (m lvls : List (Nat × PriceLevel))
    (h : ∀ pl ∈ lvls, pl.2.isEmpty = false) : cleanupLevels m lvls = m := by
  induction lvls generalizing m with
  | nil => rfl
  | cons hd rest ih =>
    simp only [cleanupLevels, List.foldl_cons]
    rw [if_neg (by rw [h hd (List.mem_cons_self _ _)]; exact Bool.false_ne_true)]
    exact ih m (fun pl hpl => h pl (List.mem_cons_of_mem _ hpl))

theorem mem_activeKeys_of_mem {m : List (Nat × PriceLevel)} {pl : Nat × PriceLevel}
    (hmem : pl ∈ m) (hne : pl.2.isEmpty = false) : pl.1 ∈ activeKeys m := by
  unfold activeKeys
  refine List.mem_map_of_mem _ (List.mem_filter.mpr ⟨hmem, ?_⟩)
  rw [hne]
  rfl

theorem exists_of_mem_activeKeys {m : List (Nat × PriceLevel)} {x : Nat}
    (hx : x ∈ activeKeys m) : ∃ pl ∈ m, pl.1 = x ∧ pl.2.isEmpty = false := by
  unfold activeKeys at hx
  rcases List.mem_map.mp hx with ⟨pl, hpl, hfst⟩
  rcases List.mem_filter.mp hpl with ⟨hmem, hne⟩
  refine ⟨pl, hmem, hfst, ?_⟩
  simpa using hne

theorem activeKeys_remove_subset (m : List (Nat × PriceLevel)) (k : Nat) :
    ∀ x ∈ activeKeys (alRemove m k), x ∈ activeKeys m := by
  intro x hx
  rcases exists_of_mem_activeKeys hx with ⟨pl, hpl, hfst, hne⟩
  rw [← hfst]
  exact mem_activeKeys_of_mem (mem_alRemove hpl) hne

theorem activeKeys_update_subset {m : List (Nat × PriceLevel)} {k : Nat}
    {lvl lvl' : PriceLevel} (hget : alGet m k = some lvl)
    (himp : lvl'.isEmpty = false → lvl.isEmpty = false) :
    ∀ x ∈ activeKeys (alUpdate m k lvl'), x ∈ activeKeys m := by
  intro x hx
  rcases exists_of_mem_activeKeys hx with ⟨pl, hpl, hfst, hne⟩
  rcases mem_alUpdate hpl with hold | hnew
  · rw [← hfst]
    exact mem_activeKeys_of_mem hold hne
  · subst hnew
    simp only at hfst hne
    subst hfst
    exact mem_activeKeys_of_mem (mem_of_alGet hget) (himp hne)

/-- Adding a bid at a price strictly below every liquid ask keeps the
book uncrossed. -/
theorem notCrossedK_insert_bid (kb ka kb' ka' : List Nat) (pnew : Nat)
    (hb : ∀ x ∈ kb', x ∈ kb ∨ x = pnew) (ha : ∀ x ∈ ka', x ∈ ka)
    (h : notCrossedK kb ka = true) (hnew : ∀ x ∈ ka', pnew < x) :
    notCrossedK kb' ka' = true := by
  unfold notCrossedK at h ⊢
  rcases maxP_spec kb' with ⟨hb0, hbn⟩ | ⟨mb', hmb', hmemb', _⟩
  · rw [hbn]
  · rw [hmb']
    rcases minP_spec ka' with ⟨ha0, han⟩ | ⟨ma', hma', hmema', _⟩
    · rw [han]
    · rw [hma']
      simp only [decide_eq_true_eq]
      rcases hb mb' hmemb' with hmbk | rfl
      · rcases maxP_spec kb with ⟨hbnil, _⟩ | ⟨mb, hmb, _, hbound⟩
        · exact absurd hmbk (by rw [hbnil]; simp)
        · rcases minP_spec ka with ⟨hanil, _⟩ | ⟨ma, hma, _, habound⟩
          · exact absurd (ha ma' hmema') (by rw [hanil]; simp)
          · rw [hmb, hma] at h
            simp only [decide_eq_true_eq] at h
            have h1 : mb' ≤ mb := hbound mb' hmbk
            have h2 : ma ≤ ma' := habound ma' (ha ma' hmema')
            omega
      · exact hnew ma' hmema'

/-- Adding an ask at a price strictly above every liquid bid keeps the
book uncrossed. -/
theorem notCrossedK_insert_ask (kb ka kb' ka' : List Nat) (pnew : Nat)
    (hb : ∀ x ∈ kb', x ∈ kb) (ha : ∀ x ∈ ka', x ∈ ka ∨ x = pnew)
    (h : notCrossedK kb ka = true) (hnew : ∀ x ∈ kb', x < pnew) :
    notCrossedK kb' ka' = true := by
  unfold notCrossedK at h ⊢
  rcases maxP_spec kb' with ⟨hb0, hbn⟩ | ⟨mb', hmb', hmemb', _⟩
  · rw [hbn]
  · rw [hmb']
    rcases minP_spec ka' with ⟨ha0, han⟩ | ⟨ma', hma', hmema', _⟩
    · rw [han]
    · rw [hma']
      simp only [decide_eq_true_eq]
      rcases ha ma' hmema' with hmak | rfl
      · rcases maxP_spec kb with ⟨hbnil, _⟩ | ⟨mb, hmb, _, hbound⟩
        · exact absurd (hb mb' hmemb') (by rw [hbnil]; simp)
        · rcases minP_spec ka with ⟨hanil, _⟩ | ⟨ma, hma, _, habound⟩
          · exact absurd hmak (by rw [hanil]; simp)
          · rw [hmb, hma] at h
            simp only [decide_eq_true_eq] at h
            have h1 : mb' ≤ mb := hbound mb' (hb mb' hmemb')
            have h2 : ma ≤ ma' := habound ma' hmak
            omega
      · exact hnew mb' hmemb'

/-- The `book.rs` price loop only sheds liquidity: every key that holds a
non-empty level afterwards held one before. -/
theorem bookGo_active (flag : Bool) (symbol : String) (prices : List Nat)
    (o : Order) (m : List (Nat × PriceLevel)) (locs : List (Nat × OrderLocation))
    (hwf : MapWF m) :
    ∀ x ∈ activeKeys (bookGo flag symbol prices o m locs).2.2.1,
      x ∈ activeKeys m := by
  induction prices generalizing o m locs with
  | nil => exact fun x hx => hx
  | cons p ps ih =>
    by_cases h0 : o.remaining_quantity = 0
    · rw [bookGo_rem_zero flag symbol _ o m locs h0]
      exact fun x hx => hx
    · by_cases hbreak : (flag && !canMatchB o.side o.price p) = true
      · simp only [bookGo, if_neg h0, if_pos hbreak]
        exact fun x hx => hx
      · cases hget : alGet m p with
        | none =>
          simp only [bookGo, if_neg h0, if_neg hbreak, hget]
          exact ih o m locs hwf
        | some lvl =>
          by_cases htz : lvl.total_quantity = 0
          · simp only [bookGo, if_neg h0, if_neg hbreak, hget, if_pos htz]
            exact ih o m locs hwf
          · have hlwf : LevelWF p lvl := hwf.2 (p, lvl) (mem_of_alGet hget)
            obtain ⟨hprice, hpos, htoteq, hcnteq⟩ := hlwf
            have hspec := takeGo_spec (min o.remaining_quantity lvl.total_quantity)
              lvl.orders lvl.total_quantity lvl.order_count hpos htoteq hcnteq
            obtain ⟨hs1, hs2, hs3, hs4, hs5, hs6⟩ := hspec
            simp only [bookGo, if_neg h0, if_neg hbreak, hget, if_neg htz]
            set mq := min o.remaining_quantity lvl.total_quantity with hmq
            set tk := takeGo mq lvl.orders lvl.total_quantity lvl.order_count with htk
            set lvl' : PriceLevel :=
              { price := lvl.price, orders := tk.2.1,
                total_quantity := tk.2.2.1, order_count := tk.2.2.2 } with hlvl'
            have hql : PriceLevel.takeQuantity lvl mq = (tk.1, lvl') := by
              simp [PriceLevel.takeQuantity, hlvl']
            simp only [hql]
            set fb := bookFills symbol o.side o.id p tk.1 o locs with hfb
            set m' := if lvl'.isEmpty then alRemove m p else alUpdate m p lvl' with hm'
            have hwf' : MapWF m' := by
              rw [hm']
              by_cases he : lvl'.isEmpty
              · rw [if_pos he]
                exact ⟨alKeys_remove_nodup m p hwf.1,
                  fun pl hpl => hwf.2 pl (mem_alRemove hpl)⟩
              · rw [if_neg he]
                refine ⟨by rw [alKeys_update]; exact hwf.1, fun pl hpl => ?_⟩
                rcases mem_alUpdate hpl with hold | hnew
                · exact hwf.2 pl hold
                · rw [hnew]
                  exact ⟨hprice, hs3, hs1, hs2⟩
            have hsub : ∀ x ∈ activeKeys m', x ∈ activeKeys m := by
              rw [hm']
              by_cases he : lvl'.isEmpty
              · rw [if_pos he]
                exact activeKeys_remove_subset m p
              · rw [if_neg he]
                refine activeKeys_update_subset hget ?_
                intro hne
                have hqne : tk.2.1 ≠ [] := by
                  intro hcontr
                  have hc0 : lvl'.order_count = 0 := by
                    simp only [hlvl']
                    rw [hs2, hcontr]
                    rfl
                  rw [PriceLevel.isEmpty] at hne
                  rw [hc0] at hne
                  simp at hne
                have hlne : lvl.orders ≠ [] := by
                  intro hcontr
                  apply hqne
                  rw [htk, hcontr]
                  cases mq <;> rfl
                simp [PriceLevel.isEmpty, hcnteq, List.length_eq_zero, hlne]
            intro x hx
            exact hsub x (ih fb.2.1 m' fb.2.2 hwf' x hx)

@[simp] theorem applyStats_bids (b : OrderBook) (ts : List Trade) :
    (applyStats b ts).bids = b.bids := by
  unfold applyStats
  split <;> rfl

@[simp] theorem applyStats_asks (b : OrderBook) (ts : List Trade) :
    (applyStats b ts).asks = b.asks := by
  unfold applyStats
  split <;> rfl

@[simp] theorem applyStats_locs (b : OrderBook) (ts : List Trade) :
    (applyStats b ts).order_locations = b.order_locations := by
  unfold applyStats
  split <;> rfl

@[simp] theorem applyStats_symbol (b : OrderBook) (ts : List Trade) :
    (applyStats b ts).symbol = b.symbol := by
  unfold applyStats
  split <;> rfl

/-- The fallible `match_order` / `execute_market_order` wrapper never
errors: it returns `ok` of the total wrapper. -/
theorem bookMatchE_eq (b : OrderBook) (o : Order) (flag : Bool) :
    b.bookMatchE o flag =
      (Except.ok (b.bookMatch o flag).1, (b.bookMatch o flag).2.1,
        (b.bookMatch o flag).2.2) := by
  cases hs : o.side <;>
    simp [OrderBook.bookMatchE, OrderBook.bookMatch, bookGoE_eq, hs]

/-- The total `match_order` wrapper, unfolded to its loop. -/
theorem bookMatch_eq (b : OrderBook) (o : Order) (flag : Bool) :
    b.bookMatch o flag =
      ((bookGo flag b.symbol (priorityPrices o.side (alKeys (oppoOf b o.side))) o
          (oppoOf b o.side) b.order_locations).1,
        (bookGo flag b.symbol (priorityPrices o.side (alKeys (oppoOf b o.side))) o
          (oppoOf b o.side) b.order_locations).2.1,
        applyStats
          (setOppo b o.side
            (bookGo flag b.symbol (priorityPrices o.side (alKeys (oppoOf b o.side))) o
              (oppoOf b o.side) b.order_locations).2.2.1
            (bookGo flag b.symbol (priorityPrices o.side (alKeys (oppoOf b o.side))) o
              (oppoOf b o.side) b.order_locations).2.2.2)
          (bookGo flag b.symbol (priorityPrices o.side (alKeys (oppoOf b o.side))) o
            (oppoOf b o.side) b.order_locations).1) := by
  cases hs : o.side <;>
    simp [OrderBook.bookMatch, oppoOf, setOppo, hs]

theorem sumRem_append (l1 l2 : List Order) :
    sumRem (l1 ++ l2) = sumRem l1 + sumRem l2 := by
  simp [sumRem]

theorem not_mem_alKeys_of_get_none {α : Type} {m : List (Nat × α)} {k : Nat}
    (h : alGet m k = none) : k ∉ alKeys m := by
  intro hcontr
  have := get_isSome_of_mem_alKeys hcontr
  rw [h] at this
  cases this

theorem alUpdate_append_fresh {α : Type} (m : List (Nat × α)) (k : Nat) (v v' : α)
    (h : alGet m k = none) :
    alUpdate (m ++ [(k, v)]) k v' = m ++ [(k, v')] := by
  induction m with
  | nil => simp [alUpdate]
  | cons hd rest ih =>
    rcases hd with ⟨k0, v0⟩
    simp only [alGet] at h
    by_cases hk : k0 = k
    · rw [if_pos hk] at h
      cases h
    · rw [if_neg hk] at h
      simp only [List.cons_append, alUpdate, if_neg hk]
      simp only [List.append_eq]
      rw [ih h]

/-- `add_order_to_book` on one side map: well-formedness is preserved and
the only possibly-new liquid key is the order's price. -/
theorem addToMap_wf (m : List (Nat × PriceLevel)) (o : Order)
    (hrem : 0 < o.remaining_quantity) (hwf : MapWF m) :
    MapWF (alUpdate (alGetOrInsert m o.price (PriceLevel.new o.price)).2 o.price
      ((alGetOrInsert m o.price (PriceLevel.new o.price)).1.addOrder o)) ∧
    (∀ x ∈ activeKeys (alUpdate (alGetOrInsert m o.price (PriceLevel.new o.price)).2
        o.price ((alGetOrInsert m o.price (PriceLevel.new o.price)).1.addOrder o)),
      x ∈ activeKeys m ∨ x = o.price) := by
  cases hget : alGet m o.price with
  | some lvl =>
    have hgi : alGetOrInsert m o.price (PriceLevel.new o.price) = (lvl, m) := by
      simp [alGetOrInsert, hget]
    rw [hgi]
    have hlwf : LevelWF o.price lvl := hwf.2 (o.price, lvl) (mem_of_alGet hget)
    have hlwf' : LevelWF o.price (lvl.addOrder o) := by
      refine ⟨hlwf.1, ?_, ?_, ?_⟩
      · intro x hx
        simp only [PriceLevel.addOrder] at hx
        rcases List.mem_append.mp hx with hx | hx
        · exact hlwf.2.1 x hx
        · rcases List.mem_singleton.mp hx with rfl
          exact hrem
      · simp only [PriceLevel.addOrder, sumRem_append, hlwf.2.2.1]
        simp [sumRem]
      · simp [PriceLevel.addOrder, hlwf.2.2.2]
    constructor
    · refine ⟨by rw [alKeys_update]; exact hwf.1, fun pl hpl => ?_⟩
      rcases mem_alUpdate hpl with hold | hnew
      · exact hwf.2 pl hold
      · rw [hnew]
        exact hlwf'
    · intro x hx
      rcases exists_of_mem_activeKeys hx with ⟨pl, hpl, hfst, hne⟩
      rcases mem_alUpdate hpl with hold | hnew
      · left
        rw [← hfst]
        exact mem_activeKeys_of_mem hold hne
      · right
        rw [← hfst, hnew]
  | none =>
    have hgi : alGetOrInsert m o.price (PriceLevel.new o.price) =
        (PriceLevel.new o.price, m ++ [(o.price, PriceLevel.new o.price)]) := by
      simp [alGetOrInsert, hget]
    rw [hgi]
    rw [alUpdate_append_fresh m o.price _ _ hget]
    have hlwf' : LevelWF o.price ((PriceLevel.new o.price).addOrder o) := by
      refine ⟨rfl, ?_, ?_, ?_⟩
      · intro x hx
        simp only [PriceLevel.addOrder, PriceLevel.new, List.nil_append] at hx
        rcases List.mem_singleton.mp hx with rfl
        exact hrem
      · simp [PriceLevel.addOrder, PriceLevel.new, sumRem]
      · simp [PriceLevel.addOrder, PriceLevel.new]
    constructor
    · constructor
      · simp only [alKeys, List.map_append]
        simp only [List.map_cons, List.map_nil]
        rw [List.nodup_append]
        refine ⟨hwf.1, List.nodup_singleton _, ?_⟩
        intro a ha hb
        rcases List.mem_singleton.mp hb with rfl
        exact not_mem_alKeys_of_get_none hget ha
      · intro pl hpl
        rcases List.mem_append.mp hpl with hold | hnew
        · exact hwf.2 pl hold
        · rcases List.mem_singleton.mp hnew with rfl
          exact hlwf'
    · intro x hx
      rcases exists_of_mem_activeKeys hx with ⟨pl, hpl, hfst, hne⟩
      rcases List.mem_append.mp hpl with hold | hnew
      · left
        rw [← hfst]
        exact mem_activeKeys_of_mem hold hne
      · rcases List.mem_singleton.mp hnew with rfl
        right
        rw [← hfst]

/-- Resting a residual on its own side keeps the book well formed and
uncrossed, provided its price is strictly inside every liquid opposite
level. -/
theorem rest_preserves (b1 : OrderBook) (o' : Order) (hwf1 : BookWF b1)
    (hcross1 : notCrossedActive b1 = true) (hrem : 0 < o'.remaining_quantity)
    (hsafe : match o'.side with
      | Side.buy => ∀ x ∈ activeKeys b1.asks, o'.price < x
      | Side.sell => ∀ x ∈ activeKeys b1.bids, x < o'.price) :
    BookInv (b1.addOrderToBook o') := by
  cases hside : o'.side with
  | buy =>
    rw [hside] at hsafe
    have hmap := addToMap_wf b1.bids o' hrem hwf1.1
    have hres : b1.addOrderToBook o' =
        { b1 with
          bids := alUpdate (alGetOrInsert b1.bids o'.price (PriceLevel.new o'.price)).2
            o'.price ((alGetOrInsert b1.bids o'.price (PriceLevel.new o'.price)).1.addOrder o')
          order_locations := alInsert b1.order_locations o'.id ⟨o'.price, o'.side⟩ } := by
      simp [OrderBook.addOrderToBook, hside]
    rw [hres]
    refine ⟨⟨hmap.1, hwf1.2⟩, ?_⟩
    unfold notCrossedActive at hcross1 ⊢
    exact notCrossedK_insert_bid (activeKeys b1.bids) (activeKeys b1.asks) _ _
      o'.price hmap.2 (fun x hx => hx) hcross1 hsafe
  | sell =>
    rw [hside] at hsafe
    have hmap := addToMap_wf b1.asks o' hrem hwf1.2
    have hres : b1.addOrderToBook o' =
        { b1 with
          asks := alUpdate (alGetOrInsert b1.asks o'.price (PriceLevel.new o'.price)).2
            o'.price ((alGetOrInsert b1.asks o'.price (PriceLevel.new o'.price)).1.addOrder o')
          order_locations := alInsert b1.order_locations o'.id ⟨o'.price, o'.side⟩ } := by
      simp [OrderBook.addOrderToBook, hside]
    rw [hres]
    refine ⟨⟨hwf1.1, hmap.1⟩, ?_⟩
    unfold notCrossedActive at hcross1 ⊢
    exact notCrossedK_insert_ask (activeKeys b1.bids) (activeKeys b1.asks) _ _
      o'.price (fun x hx => hx) hmap.2 hcross1 hsafe

/-- Combined effect of `match_order` / `execute_market_order` on the
invariant: the result book is well formed and uncrossed, the aggressor
keeps its identity fields, the own side is untouched, and (for the
price-checked loop) a leftover aggressor is strictly inside every liquid
surviving opposite level. -/
theorem bookMatch_spec (b : OrderBook) (o : Order) (flag : Bool) (hinv : BookInv b) :
    BookInv (b.bookMatch o flag).2.2 ∧
    (b.bookMatch o flag).2.1.side = o.side ∧
    (b.bookMatch o flag).2.1.price = o.price ∧
    (match o.side with
     | Side.buy => (b.bookMatch o flag).2.2.bids = b.bids
     | Side.sell => (b.bookMatch o flag).2.2.asks = b.asks) ∧
    (flag = true → (b.bookMatch o flag).2.1.remaining_quantity > 0 →
      match o.side with
      | Side.buy => ∀ x ∈ activeKeys (b.bookMatch o flag).2.2.asks, o.price < x
      | Side.sell => ∀ x ∈ activeKeys (b.bookMatch o flag).2.2.bids, x < o.price) := by
  obtain ⟨⟨hwfb, hwfa⟩, hcross⟩ := hinv
  cases hside : o.side with
  | buy =>
    have hnodup : (alKeys b.asks).Nodup := hwfa.1
    have hbm : b.bookMatch o flag =
        ((bookGo flag b.symbol (priorityPrices o.side (alKeys b.asks)) o
            b.asks b.order_locations).1,
          (bookGo flag b.symbol (priorityPrices o.side (alKeys b.asks)) o
            b.asks b.order_locations).2.1,
          applyStats
            { b with
              asks := (bookGo flag b.symbol (priorityPrices o.side (alKeys b.asks)) o
                b.asks b.order_locations).2.2.1
              order_locations := (bookGo flag b.symbol
                (priorityPrices o.side (alKeys b.asks)) o
                b.asks b.order_locations).2.2.2 }
            (bookGo flag b.symbol (priorityPrices o.side (alKeys b.asks)) o
              b.asks b.order_locations).1) := by
      rw [bookMatch_eq]
      simp [oppoOf, setOppo, hside]
    have hwfgo := bookGo_wf flag b.symbol (priorityPrices o.side (alKeys b.asks)) o
      b.asks b.order_locations ⟨hnodup, hwfa.2⟩
    have hact := bookGo_active flag b.symbol (priorityPrices o.side (alKeys b.asks)) o
      b.asks b.order_locations ⟨hnodup, hwfa.2⟩
    rw [hbm]
    refine ⟨⟨⟨?_, ?_⟩, ?_⟩, ?_, ?_, ?_, ?_⟩
    · rw [applyStats_bids]
      exact hwfb
    · rw [applyStats_asks]
      exact hwfgo.1
    · unfold notCrossedActive
      rw [applyStats_bids, applyStats_asks]
      exact notCrossedK_mono (activeKeys b.bids) (activeKeys b.asks) _ _
        (fun x hx => hx) hact hcross
    · rw [hwfgo.2.2.2.2.2.1]
      exact hside
    · exact hwfgo.2.2.2.2.1
    · rw [applyStats_bids]
    · intro hflag hrem
      subst hflag
      intro x hx
      rw [applyStats_asks] at hx
      rcases exists_of_mem_activeKeys hx with ⟨pl, hpl, hfst, hne⟩
      have hget : alGet (bookGo true b.symbol (priorityPrices o.side (alKeys b.asks)) o
          b.asks b.order_locations).2.2.1 pl.1 = some pl.2 :=
        alGet_of_mem hwfgo.1.1 (by rw [Prod.mk.eta]; exact hpl)
      have hbrk := bookGo_break b.symbol (priorityPrices o.side (alKeys b.asks)) o
        b.asks b.order_locations ⟨hnodup, hwfa.2⟩
        (fun y ly hgy hny => by
          unfold priorityPrices
          rw [mem_sortedBy]
          exact mem_alKeys_of_get (by rw [hgy]; rfl))
        (pairwise_sortedBy _ (priceOrder_total o.side) (priceOrder_trans o.side) _)
        hrem pl.1 pl.2 hget hne
      rw [hside] at hbrk
      rw [← hfst]
      simp only [canMatchB, decide_eq_false_iff_not] at hbrk
      omega
  | sell =>
    have hnodup : (alKeys b.bids).Nodup := hwfb.1
    have hbm : b.bookMatch o flag =
        ((bookGo flag b.symbol (priorityPrices o.side (alKeys b.bids)) o
            b.bids b.order_locations).1,
          (bookGo flag b.symbol (priorityPrices o.side (alKeys b.bids)) o
            b.bids b.order_locations).2.1,
          applyStats
            { b with
              bids := (bookGo flag b.symbol (priorityPrices o.side (alKeys b.bids)) o
                b.bids b.order_locations).2.2.1
              order_locations := (bookGo flag b.symbol
                (priorityPrices o.side (alKeys b.bids)) o
                b.bids b.order_locations).2.2.2 }
            (bookGo flag b.symbol (priorityPrices o.side (alKeys b.bids)) o
              b.bids b.order_locations).1) := by
      rw [bookMatch_eq]
      simp [oppoOf, setOppo, hside]
    have hwfgo := bookGo_wf flag b.symbol (priorityPrices o.side (alKeys b.bids)) o
      b.bids b.order_locations ⟨hnodup, hwfb.2⟩
    have hact := bookGo_active flag b.symbol (priorityPrices o.side (alKeys b.bids)) o
      b.bids b.order_locations ⟨hnodup, hwfb.2⟩
    rw [hbm]
    refine ⟨⟨⟨?_, ?_⟩, ?_⟩, ?_, ?_, ?_, ?_⟩
    · rw [applyStats_bids]
      exact hwfgo.1
    · rw [applyStats_asks]
      exact hwfa
    · unfold notCrossedActive
      rw [applyStats_bids, applyStats_asks]
      exact notCrossedK_mono (activeKeys b.bids) (activeKeys b.asks) _ _
        hact (fun x hx => hx) hcross
    · rw [hwfgo.2.2.2.2.2.1]
      exact hside
    · exact hwfgo.2.2.2.2.1
    · rw [applyStats_asks]
    · intro hflag hrem
      subst hflag
      intro x hx
      rw [applyStats_bids] at hx
      rcases exists_of_mem_activeKeys hx with ⟨pl, hpl, hfst, hne⟩
      have hget : alGet (bookGo true b.symbol (priorityPrices o.side (alKeys b.bids)) o
          b.bids b.order_locations).2.2.1 pl.1 = some pl.2 :=
        alGet_of_mem hwfgo.1.1 (by rw [Prod.mk.eta]; exact hpl)
      have hbrk := bookGo_break b.symbol (priorityPrices o.side (alKeys b.bids)) o
        b.bids b.order_locations ⟨hnodup, hwfb.2⟩
        (fun y ly hgy hny => by
          unfold priorityPrices
          rw [mem_sortedBy]
          exact mem_alKeys_of_get (by rw [hgy]; rfl))
        (pairwise_sortedBy _ (priceOrder_total o.side) (priceOrder_trans o.side) _)
        hrem pl.1 pl.2 hget hne
      rw [hside] at hbrk
      rw [← hfst]
      simp only [canMatchB, decide_eq_false_iff_not] at hbrk
      omega

/-! ## Permutation facts about the sorting helper -/

theorem insSorted_perm {α : Type} (le : α → α → Bool) (a : α) (l : List α) :
    (insSorted le a l).Perm (a :: l) := by
  induction l with
  | nil => exact List.Perm.refl _
  | cons hd rest ih =>
    simp only [insSorted]
    by_cases h : le a hd = true
    · rw [if_pos h]
    · rw [if_neg h]
      exact (List.Perm.cons hd ih).trans (List.Perm.swap a hd rest)

theorem sortedBy_perm {α : Type} (le : α → α → Bool) (l : List α) :
    (sortedBy le l).Perm l := by
  induction l with
  | nil => exact List.Perm.refl _
  | cons hd rest ih =>
    simp only [sortedBy]
    exact (insSorted_perm le hd (sortedBy le rest)).trans (List.Perm.cons hd ih)

theorem sortedPairs_keys_nodup (side : Side) (m : List (Nat × PriceLevel))
    (h : (alKeys m).Nodup) : ((sortedPairs side m).map Prod.fst).Nodup := by
  have hperm := (sortedBy_perm (fun a b => priceOrder side a.1 b.1) m).map Prod.fst
  exact hperm.nodup_iff.mpr h

theorem mem_keys_sortedPairs (side : Side) (m : List (Nat × PriceLevel)) (k : Nat)
    (h : k ∈ alKeys m) : k ∈ (sortedPairs side m).map Prod.fst := by
  rcases List.mem_map.mp h with ⟨pl, hpl, hfst⟩
  exact List.mem_map.mpr ⟨pl, (mem_sortedBy _ _ _).mpr hpl, hfst⟩

theorem mem_of_mem_sortedPairs {side : Side} {m : List (Nat × PriceLevel)}
    {pl : Nat × PriceLevel} (h : pl ∈ sortedPairs side m) : pl ∈ m :=
  (mem_sortedBy _ _ _).mp h

theorem sortedPairs_keys_sorted (side : Side) (m : List (Nat × PriceLevel)) :
    ((sortedPairs side m).map Prod.fst).Pairwise
      (fun a b => priceOrder side a b = true) := by
  rw [List.pairwise_map]
  exact pairwise_sortedBy _ (fun a b h => priceOrder_total side a.1 b.1 h)
    (fun a b c h1 h2 => priceOrder_trans side a.1 b.1 c.1 h1 h2) m

/-! ## Facts about removal and in-place modification of a level -/

theorem removeById_none {order_id : Nat} {q rest : List Order}
    (h : removeById order_id q = (none, rest)) : rest = q := by
  induction q generalizing rest with
  | nil =>
    simp only [removeById, Prod.mk.injEq] at h
    exact h.2.symm
  | cons o tail ih =>
    simp only [removeById] at h
    by_cases ho : o.id = order_id
    · rw [if_pos ho, Prod.mk.injEq] at h
      exact absurd h.1 (by simp)
    · rw [if_neg ho] at h
      rcases hrb : removeById order_id tail with ⟨found, rest'⟩
      simp only [hrb, Prod.mk.injEq] at h
      obtain ⟨h1, h2⟩ := h
      subst h1
      rw [← h2, ih hrb]

theorem removeById_some {order_id : Nat} {q rest : List Order} {o : Order}
    (h : removeById order_id q = (some o, rest)) :
    o ∈ q ∧ (∀ x ∈ rest, x ∈ q) ∧
      sumRem q = sumRem rest + o.remaining_quantity ∧
      q.length = rest.length + 1 := by
  induction q generalizing rest with
  | nil =>
    simp only [removeById, Prod.mk.injEq] at h
    exact absurd h.1 (by simp)
  | cons hd tail ih =>
    simp only [removeById] at h
    by_cases ho : hd.id = order_id
    · rw [if_pos ho] at h
      simp only [Prod.mk.injEq] at h
      obtain ⟨h1, h2⟩ := h
      injection h1 with h1
      subst h1
      subst h2
      refine ⟨List.mem_cons_self _ _, fun x hx => List.mem_cons_of_mem _ hx, ?_, rfl⟩
      rw [sumRem_cons]
      omega
    · rw [if_neg ho] at h
      rcases hrb : removeById order_id tail with ⟨found, rest'⟩
      simp only [hrb, Prod.mk.injEq] at h
      obtain ⟨h1, h2⟩ := h
      subst h1
      obtain ⟨k1, k2, k3, k4⟩ := ih hrb
      subst h2
      refine ⟨List.mem_cons_of_mem _ k1, ?_, ?_, ?_⟩
      · intro x hx
        rcases List.mem_cons.mp hx with rfl | hx
        · exact List.mem_cons_self _ _
        · exact List.mem_cons_of_mem _ (k2 x hx)
      · rw [sumRem_cons, sumRem_cons]
        omega
      · simp only [List.length_cons]
        omega

theorem removeOrder_wf {p : Nat} {lvl : PriceLevel} (order_id : Nat)
    (hwf : LevelWF p lvl) : LevelWF p (lvl.removeOrder order_id).2 := by
  unfold PriceLevel.removeOrder
  rcases hrb : removeById order_id lvl.orders with ⟨found, rest⟩
  cases found with
  | none =>
    simp only [hrb]
    exact hwf
  | some o =>
    simp only [hrb]
    obtain ⟨k1, k2, k3, k4⟩ := removeById_some hrb
    obtain ⟨w1, w2, w3, w4⟩ := hwf
    refine ⟨w1, fun x hx => w2 x (k2 x hx), ?_, ?_⟩
    · show lvl.total_quantity - o.remaining_quantity = sumRem rest
      omega
    · show lvl.order_count - 1 = rest.length
      omega

theorem removeOrder_some_nonempty {lvl : PriceLevel} {order_id : Nat} {o : Order}
    {lvl' : PriceLevel} (h : lvl.removeOrder order_id = (some o, lvl')) :
    lvl.orders ≠ [] := by
  intro hc
  unfold PriceLevel.removeOrder at h
  rw [hc] at h
  simp [removeById] at h

theorem LevelWF_nonempty {p : Nat} {lvl : PriceLevel} (hwf : LevelWF p lvl)
    (hne : lvl.orders ≠ []) : lvl.isEmpty = false := by
  simp [PriceLevel.isEmpty, hwf.2.2.2, List.length_eq_zero, hne]

/-- Writing the level that lost an order back into its side map keeps
the map well formed and sheds liquidity only. -/
theorem updateRemoved_wf {m : List (Nat × PriceLevel)} {price : Nat}
    {lvl : PriceLevel} {order_id : Nat} (hwf : MapWF m)
    (hget : alGet m price = some lvl) {removed : Order} {lvl' : PriceLevel}
    (hrm : lvl.removeOrder order_id = (some removed, lvl')) :
    MapWF (alUpdate m price lvl') ∧
    (∀ x ∈ activeKeys (alUpdate m price lvl'), x ∈ activeKeys m) := by
  have hlwf : LevelWF price lvl := hwf.2 (price, lvl) (mem_of_alGet hget)
  have hlwf' : LevelWF price lvl' := by
    have h := removeOrder_wf order_id hlwf
    rw [hrm] at h
    exact h
  refine ⟨⟨by rw [alKeys_update]; exact hwf.1, fun pl hpl => ?_⟩, ?_⟩
  · rcases mem_alUpdate hpl with hold | hnew
    · exact hwf.2 pl hold
    · rw [hnew]
      exact hlwf'
  · exact activeKeys_update_subset hget
      (fun _ => LevelWF_nonempty hlwf (removeOrder_some_nonempty hrm))

/-- The remove-or-drop step of `cancel_order` keeps the map well formed
and sheds liquidity only. -/
theorem removeUpdate_wf {m : List (Nat × PriceLevel)} {price : Nat}
    {lvl : PriceLevel} {order_id : Nat} (hwf : MapWF m)
    (hget : alGet m price = some lvl) {removed : Order} {lvl' : PriceLevel}
    (hrm : lvl.removeOrder order_id = (some removed, lvl')) :
    MapWF (if lvl'.isEmpty then alRemove m price else alUpdate m price lvl') ∧
    (∀ x ∈ activeKeys
        (if lvl'.isEmpty then alRemove m price else alUpdate m price lvl'),
      x ∈ activeKeys m) := by
  by_cases he : lvl'.isEmpty
  · rw [if_pos he]
    exact ⟨⟨alKeys_remove_nodup m price hwf.1,
      fun pl hpl => hwf.2 pl (mem_alRemove hpl)⟩,
      activeKeys_remove_subset m price⟩
  · rw [if_neg he]
    exact updateRemoved_wf hwf hget hrm

/-- `OrderBook::cancel_order` preserves the book invariant. -/
theorem cancel_inv (b : OrderBook) (order_id : Nat) (hinv : BookInv b) :
    BookInv (b.cancelOrder order_id).2 := by
  obtain ⟨⟨hwfb, hwfa⟩, hcross⟩ := hinv
  cases hloc : alGet b.order_locations order_id with
  | none =>
    have h : (b.cancelOrder order_id).2 = b := by
      simp [OrderBook.cancelOrder, hloc]
    rw [h]
    exact ⟨⟨hwfb, hwfa⟩, hcross⟩
  | some loc =>
    cases hside : loc.side with
    | buy =>
      cases hget : alGet b.bids loc.price with
      | none =>
        have h : (b.cancelOrder order_id).2 =
            { b with order_locations := alRemove b.order_locations order_id } := by
          simp [OrderBook.cancelOrder, hloc, hside, hget]
        rw [h]
        exact ⟨⟨hwfb, hwfa⟩, hcross⟩
      | some lvl =>
        rcases hrm : lvl.removeOrder order_id with ⟨found, lvl'⟩
        cases found with
        | none =>
          have h : (b.cancelOrder order_id).2 =
              { b with order_locations := alRemove b.order_locations order_id } := by
            simp [OrderBook.cancelOrder, hloc, hside, hget, hrm]
          rw [h]
          exact ⟨⟨hwfb, hwfa⟩, hcross⟩
        | some removed =>
          have h : (b.cancelOrder order_id).2 =
              { b with
                order_locations := alRemove b.order_locations order_id
                bids := if lvl'.isEmpty then alRemove b.bids loc.price
                  else alUpdate b.bids loc.price lvl' } := by
            simp [OrderBook.cancelOrder, hloc, hside, hget, hrm]
          rw [h]
          obtain ⟨hm', hact⟩ := removeUpdate_wf hwfb hget hrm
          refine ⟨⟨hm', hwfa⟩, ?_⟩
          unfold notCrossedActive at hcross ⊢
          exact notCrossedK_mono _ _ _ _ hact (fun x hx => hx) hcross
    | sell =>
      cases hget : alGet b.asks loc.price with
      | none =>
        have h : (b.cancelOrder order_id).2 =
            { b with order_locations := alRemove b.order_locations order_id } := by
          simp [OrderBook.cancelOrder, hloc, hside, hget]
        rw [h]
        exact ⟨⟨hwfb, hwfa⟩, hcross⟩
      | some lvl =>
        rcases hrm : lvl.removeOrder order_id with ⟨found, lvl'⟩
        cases found with
        | none =>
          have h : (b.cancelOrder order_id).2 =
              { b with order_locations := alRemove b.order_locations order_id } := by
            simp [OrderBook.cancelOrder, hloc, hside, hget, hrm]
          rw [h]
          exact ⟨⟨hwfb, hwfa⟩, hcross⟩
        | some removed =>
          have h : (b.cancelOrder order_id).2 =
              { b with
                order_locations := alRemove b.order_locations order_id
                asks := if lvl'.isEmpty then alRemove b.asks loc.price
                  else alUpdate b.asks loc.price lvl' } := by
            simp [OrderBook.cancelOrder, hloc, hside, hget, hrm]
          rw [h]
          obtain ⟨hm', hact⟩ := removeUpdate_wf hwfa hget hrm
          refine ⟨⟨hwfb, hm'⟩, ?_⟩
          unfold notCrossedActive at hcross ⊢
          exact notCrossedK_mono _ _ _ _ (fun x hx => hx) hact hcross

theorem setRemainingById_some {order_id new_quantity : Nat} {l l' : List Order}
    {old : Nat}
    (h : setRemainingById order_id new_quantity l = (some old, l')) :
    sumRem l' + old = sumRem l + new_quantity ∧ l'.length = l.length ∧
      (∀ x ∈ l', x ∈ l ∨ x.remaining_quantity = new_quantity) := by
  induction l generalizing l' with
  | nil =>
    simp only [setRemainingById, Prod.mk.injEq] at h
    exact absurd h.1 (by simp)
  | cons o tail ih =>
    simp only [setRemainingById] at h
    by_cases ho : o.id = order_id
    · rw [if_pos ho] at h
      simp only [Prod.mk.injEq] at h
      obtain ⟨h1, h2⟩ := h
      injection h1 with h1
      subst h1
      subst h2
      refine ⟨?_, rfl, ?_⟩
      · rw [sumRem_cons, sumRem_cons]
        have hx : ({ o with remaining_quantity := new_quantity } : Order).remaining_quantity
            = new_quantity := rfl
        rw [hx]
        omega
      · intro x hx
        rcases List.mem_cons.mp hx with rfl | hx
        · right
          rfl
        · left
          exact List.mem_cons_of_mem _ hx
    · rw [if_neg ho] at h
      rcases hs : setRemainingById order_id new_quantity tail with ⟨found, rest'⟩
      simp only [hs, Prod.mk.injEq] at h
      obtain ⟨h1, h2⟩ := h
      subst h1
      obtain ⟨k1, k2, k3⟩ := ih hs
      subst h2
      refine ⟨?_, ?_, ?_⟩
      · rw [sumRem_cons, sumRem_cons]
        omega
      · simp only [List.length_cons]
        omega
      · intro x hx
        rcases List.mem_cons.mp hx with rfl | hx
        · left
          exact List.mem_cons_self _ _
        · rcases k3 x hx with hm | hq
          · left
            exact List.mem_cons_of_mem _ hm
          · right
            exact hq

/-- `PriceLevel::modify_order_quantity` keeps the level well formed for a
positive new quantity and does not change the order count. -/
theorem modifyQuantity_wf {p : Nat} {lvl : PriceLevel} (order_id : Nat)
    {new_quantity : Nat} (hwf : LevelWF p lvl) (hq : 0 < new_quantity) :
    LevelWF p (lvl.modifyOrderQuantity order_id new_quantity).2 ∧
    (lvl.modifyOrderQuantity order_id new_quantity).2.order_count = lvl.order_count := by
  unfold PriceLevel.modifyOrderQuantity
  rcases hs : setRemainingById order_id new_quantity lvl.orders with ⟨found, orders'⟩
  cases found with
  | none =>
    simp only [hs]
    exact ⟨hwf, trivial⟩
  | some old =>
    simp only [hs]
    obtain ⟨k1, k2, k3⟩ := setRemainingById_some hs
    obtain ⟨w1, w2, w3, w4⟩ := hwf
    refine ⟨⟨w1, ?_, ?_, ?_⟩, trivial⟩
    · intro x hx
      rcases k3 x hx with hm | hq'
      · exact w2 x hm
      · rw [hq']
        exact hq
    · show (if new_quantity ≥ old then lvl.total_quantity + (new_quantity - old)
        else lvl.total_quantity - (old - new_quantity)) = sumRem orders'
      by_cases hge : new_quantity ≥ old
      · rw [if_pos hge]
        omega
      · rw [if_neg hge]
        omega
    · show lvl.order_count = orders'.length
      rw [w4, k2]

/-- `OrderOperations::modify_order_quantity_only` preserves the book
invariant. -/
theorem opsModifyQty_inv (b : OrderBook) (order_id new_quantity : Nat)
    (hinv : BookInv b) :
    BookInv (opsModifyQuantityOnly b order_id new_quantity).2 := by
  obtain ⟨⟨hwfb, hwfa⟩, hcross⟩ := hinv
  by_cases hq0 : new_quantity = 0
  · have h : (opsModifyQuantityOnly b order_id new_quantity).2 = b := by
      simp [opsModifyQuantityOnly, hq0]
    rw [h]
    exact ⟨⟨hwfb, hwfa⟩, hcross⟩
  · cases hloc : alGet b.order_locations order_id with
    | none =>
      have h : (opsModifyQuantityOnly b order_id new_quantity).2 = b := by
        simp [opsModifyQuantityOnly, hq0, hloc]
      rw [h]
      exact ⟨⟨hwfb, hwfa⟩, hcross⟩
    | some loc =>
      cases hside : loc.side with
      | buy =>
        cases hget : alGet b.bids loc.price with
        | none =>
          have h : (opsModifyQuantityOnly b order_id new_quantity).2 = b := by
            simp [opsModifyQuantityOnly, hq0, hloc, hside, hget]
          rw [h]
          exact ⟨⟨hwfb, hwfa⟩, hcross⟩
        | some lvl =>
          rcases hm : lvl.modifyOrderQuantity order_id new_quantity with ⟨found, lvl'⟩
          cases found with
          | none =>
            have h : (opsModifyQuantityOnly b order_id new_quantity).2 = b := by
              simp [opsModifyQuantityOnly, hq0, hloc, hside, hget, hm]
            rw [h]
            exact ⟨⟨hwfb, hwfa⟩, hcross⟩
          | some old =>
            have h : (opsModifyQuantityOnly b order_id new_quantity).2 =
                { b with bids := alUpdate b.bids loc.price lvl' } := by
              simp [opsModifyQuantityOnly, hq0, hloc, hside, hget, hm]
            rw [h]
            have hlwf : LevelWF loc.price lvl := hwfb.2 _ (mem_of_alGet hget)
            have hmod := modifyQuantity_wf order_id hlwf (Nat.pos_of_ne_zero hq0)
            rw [hm] at hmod
            refine ⟨⟨⟨?_, ?_⟩, hwfa⟩, ?_⟩
            · rw [alKeys_update]
              exact hwfb.1
            · intro pl hpl
              rcases mem_alUpdate hpl with hold | hnew
              · exact hwfb.2 pl hold
              · rw [hnew]
                exact hmod.1
            · unfold notCrossedActive at hcross ⊢
              refine notCrossedK_mono _ _ _ _ ?_ (fun x hx => hx) hcross
              exact activeKeys_update_subset hget (fun hne => by
                unfold PriceLevel.isEmpty at hne ⊢
                rw [← hmod.2]
                exact hne)
      | sell =>
        cases hget : alGet b.asks loc.price with
        | none =>
          have h : (opsModifyQuantityOnly b order_id new_quantity).2 = b := by
            simp [opsModifyQuantityOnly, hq0, hloc, hside, hget]
          rw [h]
          exact ⟨⟨hwfb, hwfa⟩, hcross⟩
        | some lvl =>
          rcases hm : lvl.modifyOrderQuantity order_id new_quantity with ⟨found, lvl'⟩
          cases found with
          | none =>
            have h : (opsModifyQuantityOnly b order_id new_quantity).2 = b := by
              simp [opsModifyQuantityOnly, hq0, hloc, hside, hget, hm]
            rw [h]
            exact ⟨⟨hwfb, hwfa⟩, hcross⟩
          | some old =>
            have h : (opsModifyQuantityOnly b order_id new_quantity).2 =
                { b with asks := alUpdate b.asks loc.price lvl' } := by
              simp [opsModifyQuantityOnly, hq0, hloc, hside, hget, hm]
            rw [h]
            have hlwf : LevelWF loc.price lvl := hwfa.2 _ (mem_of_alGet hget)
            have hmod := modifyQuantity_wf order_id hlwf (Nat.pos_of_ne_zero hq0)
            rw [hm] at hmod
            refine ⟨⟨hwfb, ⟨?_, ?_⟩⟩, ?_⟩
            · rw [alKeys_update]
              exact hwfa.1
            · intro pl hpl
              rcases mem_alUpdate hpl with hold | hnew
              · exact hwfa.2 pl hold
              · rw [hnew]
                exact hmod.1
            · unfold notCrossedActive at hcross ⊢
              refine notCrossedK_mono _ _ _ _ (fun x hx => hx) ?_ hcross
              exact activeKeys_update_subset hget (fun hne => by
                unfold PriceLevel.isEmpty at hne ⊢
                rw [← hmod.2]
                exact hne)

/-- `OrderBook::add_limit_order` preserves the book invariant. -/
theorem addLimit_inv (b : OrderBook) (o : Order) (hinv : BookInv b) :
    BookInv (b.addLimitOrder o).2 := by
  have hspec := bookMatch_spec b o true hinv
  by_cases hsym : o.symbol ≠ b.symbol
  · have h : (b.addLimitOrder o).2 = b := by
      simp [OrderBook.addLimitOrder, hsym]
    rw [h]
    exact hinv
  · rw [not_ne_iff] at hsym
    by_cases hrem : (b.bookMatch o true).2.1.remaining_quantity > 0
    · have h : (b.addLimitOrder o).2 =
          (b.bookMatch o true).2.2.addOrderToBook (b.bookMatch o true).2.1 := by
        simp [OrderBook.addLimitOrder, hsym, bookMatchE_eq, hrem]
      rw [h]
      refine rest_preserves _ _ hspec.1.1 hspec.1.2 hrem ?_
      have hs := hspec.2.2.2.2 rfl hrem
      rw [hspec.2.1, hspec.2.2.1]
      exact hs
    · have h : (b.addLimitOrder o).2 = (b.bookMatch o true).2.2 := by
        simp [OrderBook.addLimitOrder, hsym, bookMatchE_eq, hrem]
      rw [h]
      exact hspec.1

/-- `OrderBook::add_market_order` preserves the book invariant. -/
theorem addMarket_inv (b : OrderBook) (o : Order) (hinv : BookInv b) :
    BookInv (b.addMarketOrder o).2 := by
  have hspec := bookMatch_spec b o false hinv
  by_cases hsym : o.symbol ≠ b.symbol
  · have h : (b.addMarketOrder o).2 = b := by
      simp [OrderBook.addMarketOrder, hsym]
    rw [h]
    exact hinv
  · rw [not_ne_iff] at hsym
    by_cases hty : o.order_type ≠ OrderType.market
    · have h : (b.addMarketOrder o).2 = b := by
        simp [OrderBook.addMarketOrder, hsym, hty]
      rw [h]
      exact hinv
    · rw [not_ne_iff] at hty
      have h : (b.addMarketOrder o).2 = (b.bookMatch o false).2.2 := by
        unfold OrderBook.addMarketOrder
        rw [bookMatchE_eq]
        simp only [hsym, hty]
        simp only [ne_eq, not_true_eq_false, if_false]
        by_cases hts : (b.bookMatch o false).1.isEmpty <;> simp [hts]
      rw [h]
      exact hspec.1

/-- Assembled effect of write-back plus cleanup on the opposite side map:
well-formedness, liquidity shedding, and traceability of every surviving
liquid level to the traversal list. -/
theorem wbClean_spec (m lvls' : List (Nat × PriceLevel)) (hwfm : MapWF m)
    (h1 : (lvls'.map Prod.fst).Nodup)
    (h2 : ∀ k ∈ alKeys m, k ∈ lvls'.map Prod.fst)
    (h3 : ∀ pl ∈ lvls', LevelWF pl.1 pl.2)
    (h4 : ∀ pl ∈ lvls', pl.2.isEmpty = false → pl.1 ∈ activeKeys m) :
    MapWF (cleanupLevels (writeBack m lvls') lvls') ∧
    (∀ x ∈ activeKeys (cleanupLevels (writeBack m lvls') lvls'), x ∈ activeKeys m) ∧
    (∀ x ∈ activeKeys (cleanupLevels (writeBack m lvls') lvls'),
      ∃ l, (x, l) ∈ lvls' ∧ l.isEmpty = false) := by
  have hwbk : alKeys (writeBack m lvls') = alKeys m := writeBack_keys m lvls'
  have hwbnodup : (alKeys (writeBack m lvls')).Nodup := by
    rw [hwbk]
    exact hwfm.1
  have hresnodup : (alKeys (cleanupLevels (writeBack m lvls') lvls')).Nodup :=
    cleanup_nodup _ _ hwbnodup
  have hmain : ∀ pl ∈ cleanupLevels (writeBack m lvls') lvls',
      pl ∈ lvls' ∧ pl.2.isEmpty = false := by
    intro pl hpl
    have hkey : pl.1 ∈ alKeys (cleanupLevels (writeBack m lvls') lvls') :=
      List.mem_map_of_mem _ hpl
    have hkeym : pl.1 ∈ alKeys m := by
      rw [← hwbk]
      exact cleanup_keys_subset _ _ _ hkey
    rcases List.mem_map.mp (h2 pl.1 hkeym) with ⟨pl0, hpl0, hfst0⟩
    have hmem' : (pl.1, pl0.2) ∈ lvls' := by
      rw [← hfst0, Prod.mk.eta]
      exact hpl0
    have hget : alGet (cleanupLevels (writeBack m lvls') lvls') pl.1 = some pl.2 :=
      alGet_of_mem hresnodup (by rw [Prod.mk.eta]; exact hpl)
    rw [cleanup_get (writeBack m lvls') lvls' pl.1 pl0.2 h1 hwbnodup hmem'] at hget
    by_cases he : pl0.2.isEmpty
    · rw [if_pos he] at hget
      cases hget
    · rw [Bool.not_eq_true] at he
      rw [if_neg (by rw [he]; exact Bool.false_ne_true)] at hget
      rw [writeBack_get m lvls' pl.1 pl0.2 h1 hmem' hkeym] at hget
      injection hget with hget
      have hplpl0 : pl = pl0 := by
        rcases pl with ⟨a, c⟩
        rcases pl0 with ⟨a0, c0⟩
        simp only at hfst0 hget
        rw [← hfst0, ← hget]
      rw [hplpl0]
      exact ⟨hpl0, he⟩
  refine ⟨⟨hresnodup, ?_⟩, ?_, ?_⟩
  · intro pl hpl
    exact h3 pl (hmain pl hpl).1
  · intro x hx
    rcases exists_of_mem_activeKeys hx with ⟨pl, hpl, hfst, hne⟩
    obtain ⟨hmem, hnem⟩ := hmain pl hpl
    rw [← hfst]
    exact h4 pl hmem hnem
  · intro x hx
    rcases exists_of_mem_activeKeys hx with ⟨pl, hpl, hfst, hne⟩
    obtain ⟨hmem, hnem⟩ := hmain pl hpl
    refine ⟨pl.2, ?_, hnem⟩
    rw [← hfst, Prod.mk.eta]
    exact hmem

/-- Uniform effect of `MatchingEngine::match_order` across the four
accepted order types: keys preserved, levels well formed, surviving
liquidity traceable, aggressor identity kept, and a restable leftover
only when every surviving liquid level is price-ineligible. -/
theorem engineDispatch_spec (o : Order) (lvls : List (Nat × PriceLevel))
    (ts : List Trade) (o' : Order) (lvls' : List (Nat × PriceLevel))
    (hwf : ∀ pl ∈ lvls, LevelWF pl.1 pl.2)
    (hsorted : (lvls.map Prod.fst).Pairwise (fun a b => priceOrder o.side a b = true))
    (heq : engineMatchOrder o lvls = Except.ok (ts, o', lvls')) :
    lvls'.map Prod.fst = lvls.map Prod.fst ∧
    (∀ pl ∈ lvls', LevelWF pl.1 pl.2) ∧
    (∀ pl ∈ lvls', pl.2.isEmpty = false →
      ∃ lvl0, (pl.1, lvl0) ∈ lvls ∧ lvl0.isEmpty = false) ∧
    o'.price = o.price ∧ o'.side = o.side ∧
    (o'.remaining_quantity > 0 → o'.isComplete = false →
      ∀ pl ∈ lvls', pl.2.isEmpty = false →
        canMatchB o.side o.price pl.1 = false) := by
  unfold engineMatchOrder at heq
  cases hty : o.order_type with
  | market =>
    simp only [hty] at heq
    injection heq with heq
    have h1 : ts = (engineGo false o lvls).1 := by rw [heq]
    have h2 : o' = (engineGo false o lvls).2.1 := by rw [heq]
    have h3 : lvls' = (engineGo false o lvls).2.2 := by rw [heq]
    subst h1
    subst h2
    subst h3
    obtain ⟨k1, k2, k3, _, k5, k6, _⟩ := engineGo_wf false o lvls hwf
    refine ⟨k1, k2, k3, k5, k6, ?_⟩
    intro hrem hcomp pl hpl hne
    have hbrk := engineGo_break false o lvls hwf hsorted hrem pl hpl hne
    exact absurd hbrk.1 (by simp)
  | limit =>
    simp only [hty] at heq
    injection heq with heq
    have h1 : ts = (engineGo true o lvls).1 := by rw [heq]
    have h2 : o' = (engineGo true o lvls).2.1 := by rw [heq]
    have h3 : lvls' = (engineGo true o lvls).2.2 := by rw [heq]
    subst h1
    subst h2
    subst h3
    obtain ⟨k1, k2, k3, _, k5, k6, _⟩ := engineGo_wf true o lvls hwf
    refine ⟨k1, k2, k3, k5, k6, ?_⟩
    intro hrem hcomp pl hpl hne
    exact (engineGo_break true o lvls hwf hsorted hrem pl hpl hne).2
  | immediateOrCancel =>
    simp only [hty] at heq
    injection heq with heq
    unfold matchIocE at heq
    rcases hgo : engineGo true o lvls with ⟨ts0, o0, l0⟩
    simp only [hgo] at heq
    obtain ⟨k1, k2, k3, _, k5, k6, _⟩ := engineGo_wf true o lvls hwf
    rw [hgo] at k1 k2 k3 k5 k6
    by_cases hr : o0.remaining_quantity > 0
    · rw [if_pos hr] at heq
      rw [Prod.mk.injEq, Prod.mk.injEq] at heq
      obtain ⟨he1, he2, he3⟩ := heq
      subst he1
      subst he2
      subst he3
      refine ⟨k1, k2, k3, k5, k6, ?_⟩
      intro hrem hcomp pl hpl hne
      exact absurd hcomp (by simp [Order.cancel, Order.isComplete])
    · rw [if_neg hr] at heq
      rw [Prod.mk.injEq, Prod.mk.injEq] at heq
      obtain ⟨he1, he2, he3⟩ := heq
      subst he1
      subst he2
      subst he3
      refine ⟨k1, k2, k3, k5, k6, ?_⟩
      intro hrem hcomp pl hpl hne
      exact absurd hrem hr
  | fillOrKill =>
    simp only [hty] at heq
    injection heq with heq
    unfold matchFokE at heq
    by_cases hav : calcAvailable o lvls < o.remaining_quantity
    · rw [if_pos hav] at heq
      rw [Prod.mk.injEq, Prod.mk.injEq] at heq
      obtain ⟨he1, he2, he3⟩ := heq
      subst he1
      subst he2
      subst he3
      refine ⟨rfl, hwf, ?_, rfl, rfl, ?_⟩
      · intro pl hpl hne
        exact ⟨pl.2, by rw [Prod.mk.eta]; exact hpl, hne⟩
      · intro hrem hcomp pl hpl hne
        exact absurd hcomp (by simp [Order.cancel, Order.isComplete])
    · rw [if_neg hav] at heq
      have h1 : ts = (engineGo true o lvls).1 := by rw [heq]
      have h2 : o' = (engineGo true o lvls).2.1 := by rw [heq]
      have h3 : lvls' = (engineGo true o lvls).2.2 := by rw [heq]
      subst h1
      subst h2
      subst h3
      obtain ⟨k1, k2, k3, _, k5, k6, _⟩ := engineGo_wf true o lvls hwf
      refine ⟨k1, k2, k3, k5, k6, ?_⟩
      intro hrem hcomp pl hpl hne
      exact (engineGo_break true o lvls hwf hsorted hrem pl hpl hne).2
  | stop =>
    simp only [hty] at heq
    cases heq
  | stopLimit trigger =>
    simp only [hty] at heq
    cases heq

/-- `OrderOperations::match_order` unfolded for a buy aggressor. -/
theorem opsMatchOrder_buy (b : OrderBook) (o : Order) (hside : o.side = Side.buy) :
    opsMatchOrder b o =
      match validateForMatching o with
      | Except.error e => (Except.error e, o, b)
      | Except.ok _ =>
        match engineMatchOrder o (sortedPairs o.side b.asks) with
        | Except.error e => (Except.error e, o, b)
        | Except.ok (ts, o', lvls') =>
          (Except.ok ts, o',
            { b with asks := cleanupLevels (writeBack b.asks lvls') lvls' }) := by
  unfold opsMatchOrder
  rw [hside]

/-- `OrderOperations::match_order` unfolded for a sell aggressor. -/
theorem opsMatchOrder_sell (b : OrderBook) (o : Order) (hside : o.side = Side.sell) :
    opsMatchOrder b o =
      match validateForMatching o with
      | Except.error e => (Except.error e, o, b)
      | Except.ok _ =>
        match engineMatchOrder o (sortedPairs o.side b.bids) with
        | Except.error e => (Except.error e, o, b)
        | Except.ok (ts, o', lvls') =>
          (Except.ok ts, o',
            { b with bids := cleanupLevels (writeBack b.bids lvls') lvls' }) := by
  unfold opsMatchOrder
  rw [hside]

/-- `match_order` leaves the book untouched when it reports an error. -/
theorem opsMatch_err (b : OrderBook) (o : Order) (e : OrderBookError) (o0 : Order)
    (b0 : OrderBook) (heq : opsMatchOrder b o = (Except.error e, o0, b0)) :
    b0 = b := by
  cases hside : o.side with
  | buy =>
    rw [opsMatchOrder_buy b o hside] at heq
    cases hv : validateForMatching o with
    | error e1 =>
      simp only [hv, Prod.mk.injEq] at heq
      exact heq.2.2.symm
    | ok u =>
      simp only [hv] at heq
      cases hd : engineMatchOrder o (sortedPairs o.side b.asks) with
      | error e1 =>
        simp only [hd, Prod.mk.injEq] at heq
        exact heq.2.2.symm
      | ok res =>
        rcases res with ⟨ts0, o1, lvls'⟩
        simp only [hd, Prod.mk.injEq] at heq
        exact absurd heq.1 (by simp)
  | sell =>
    rw [opsMatchOrder_sell b o hside] at heq
    cases hv : validateForMatching o with
    | error e1 =>
      simp only [hv, Prod.mk.injEq] at heq
      exact heq.2.2.symm
    | ok u =>
      simp only [hv] at heq
      cases hd : engineMatchOrder o (sortedPairs o.side b.bids) with
      | error e1 =>
        simp only [hd, Prod.mk.injEq] at heq
        exact heq.2.2.symm
      | ok res =>
        rcases res with ⟨ts0, o1, lvls'⟩
        simp only [hd, Prod.mk.injEq] at heq
        exact absurd heq.1 (by simp)

/-- Combined effect of `OrderOperations::match_order` on the invariant:
result book well formed and uncrossed, aggressor identity kept, own side
untouched, and a restable leftover strictly inside every liquid opposite
level. -/
theorem opsMatch_spec (b : OrderBook) (o : Order) (ts : List Trade) (o' : Order)
    (b' : OrderBook) (hinv : BookInv b)
    (heq : opsMatchOrder b o = (Except.ok ts, o', b')) :
    BookInv b' ∧ o'.side = o.side ∧ o'.price = o.price ∧
    (match o.side with
     | Side.buy => b'.bids = b.bids
     | Side.sell => b'.asks = b.asks) ∧
    (o'.remaining_quantity > 0 → o'.isComplete = false →
      match o.side with
      | Side.buy => ∀ x ∈ activeKeys b'.asks, o.price < x
      | Side.sell => ∀ x ∈ activeKeys b'.bids, x < o.price) := by
  obtain ⟨⟨hwfb, hwfa⟩, hcross⟩ := hinv
  cases hside : o.side with
  | buy =>
    rw [opsMatchOrder_buy b o hside] at heq
    cases hv : validateForMatching o with
    | error e1 =>
      simp only [hv, Prod.mk.injEq] at heq
      exact absurd heq.1 (by simp)
    | ok u =>
      simp only [hv] at heq
      cases hd : engineMatchOrder o (sortedPairs o.side b.asks) with
      | error e1 =>
        simp only [hd, Prod.mk.injEq] at heq
        exact absurd heq.1 (by simp)
      | ok res =>
        rcases res with ⟨ts0, o0, lvls'⟩
        simp only [hd, Prod.mk.injEq] at heq
        obtain ⟨hts, ho0, hb'⟩ := heq
        injection hts with hts
        subst hts
        subst ho0
        subst hb'
        have hlwf : ∀ pl ∈ sortedPairs o.side b.asks, LevelWF pl.1 pl.2 :=
          fun pl hpl => hwfa.2 pl (mem_of_mem_sortedPairs hpl)
        obtain ⟨d1, d2, d3, d4, d5, d6⟩ := engineDispatch_spec o
          (sortedPairs o.side b.asks) ts0 o0 lvls' hlwf
          (sortedPairs_keys_sorted o.side b.asks) hd
        have hnod : (lvls'.map Prod.fst).Nodup := by
          rw [d1]
          exact sortedPairs_keys_nodup o.side b.asks hwfa.1
        have hcov : ∀ k ∈ alKeys b.asks, k ∈ lvls'.map Prod.fst := by
          intro k hk
          rw [d1]
          exact mem_keys_sortedPairs o.side b.asks k hk
        have h4' : ∀ pl ∈ lvls', pl.2.isEmpty = false → pl.1 ∈ activeKeys b.asks := by
          intro pl hpl hne
          obtain ⟨lvl0, hmem, hne0⟩ := d3 pl hpl hne
          have hmem2 : (pl.1, lvl0) ∈ b.asks := mem_of_mem_sortedPairs hmem
          have hres : ((pl.1, lvl0) : Nat × PriceLevel).1 ∈ activeKeys b.asks :=
            mem_activeKeys_of_mem hmem2 hne0
          exact hres
        obtain ⟨w1, w2, w3⟩ := wbClean_spec b.asks lvls' hwfa hnod hcov d2 h4'
        refine ⟨⟨⟨hwfb, w1⟩, ?_⟩, d5.trans hside, d4, rfl, ?_⟩
        · unfold notCrossedActive at hcross ⊢
          exact notCrossedK_mono _ _ _ _ (fun x hx => hx) w2 hcross
        · intro hrem hcomp x hx
          obtain ⟨l, hl, hlne⟩ := w3 x hx
          have hcm := d6 hrem hcomp (x, l) hl hlne
          rw [hside] at hcm
          simp only [canMatchB, decide_eq_false_iff_not] at hcm
          omega
  | sell =>
    rw [opsMatchOrder_sell b o hside] at heq
    cases hv : validateForMatching o with
    | error e1 =>
      simp only [hv, Prod.mk.injEq] at heq
      exact absurd heq.1 (by simp)
    | ok u =>
      simp only [hv] at heq
      cases hd : engineMatchOrder o (sortedPairs o.side b.bids) with
      | error e1 =>
        simp only [hd, Prod.mk.injEq] at heq
        exact absurd heq.1 (by simp)
      | ok res =>
        rcases res with ⟨ts0, o0, lvls'⟩
        simp only [hd, Prod.mk.injEq] at heq
        obtain ⟨hts, ho0, hb'⟩ := heq
        injection hts with hts
        subst hts
        subst ho0
        subst hb'
        have hlwf : ∀ pl ∈ sortedPairs o.side b.bids, LevelWF pl.1 pl.2 :=
          fun pl hpl => hwfb.2 pl (mem_of_mem_sortedPairs hpl)
        obtain ⟨d1, d2, d3, d4, d5, d6⟩ := engineDispatch_spec o
          (sortedPairs o.side b.bids) ts0 o0 lvls' hlwf
          (sortedPairs_keys_sorted o.side b.bids) hd
        have hnod : (lvls'.map Prod.fst).Nodup := by
          rw [d1]
          exact sortedPairs_keys_nodup o.side b.bids hwfb.1
        have hcov : ∀ k ∈ alKeys b.bids, k ∈ lvls'.map Prod.fst := by
          intro k hk
          rw [d1]
          exact mem_keys_sortedPairs o.side b.bids k hk
        have h4' : ∀ pl ∈ lvls', pl.2.isEmpty = false → pl.1 ∈ activeKeys b.bids := by
          intro pl hpl hne
          obtain ⟨lvl0, hmem, hne0⟩ := d3 pl hpl hne
          have hmem2 : (pl.1, lvl0) ∈ b.bids := mem_of_mem_sortedPairs hmem
          have hres : ((pl.1, lvl0) : Nat × PriceLevel).1 ∈ activeKeys b.bids :=
            mem_activeKeys_of_mem hmem2 hne0
          exact hres
        obtain ⟨w1, w2, w3⟩ := wbClean_spec b.bids lvls' hwfb hnod hcov d2 h4'
        refine ⟨⟨⟨w1, hwfa⟩, ?_⟩, d5.trans hside, d4, rfl, ?_⟩
        · unfold notCrossedActive at hcross ⊢
          exact notCrossedK_mono _ _ _ _ w2 (fun x hx => hx) hcross
        · intro hrem hcomp x hx
          obtain ⟨l, hl, hlne⟩ := w3 x hx
          have hcm := d6 hrem hcomp (x, l) hl hlne
          rw [hside] at hcm
          simp only [canMatchB, decide_eq_false_iff_not] at hcm
          omega

/-- `OrderOperations::add_order` preserves the book invariant. -/
theorem opsAdd_inv (b : OrderBook) (o : Order) (hinv : BookInv b) :
    BookInv (opsAddOrder b o).2 := by
  cases hv : validateOrder o with
  | error e =>
    have h : (opsAddOrder b o).2 = b := by
      simp [opsAddOrder, hv]
    rw [h]
    exact hinv
  | ok u =>
    rcases hm : opsMatchOrder b o with ⟨r, o', b'⟩
    cases r with
    | error e =>
      have h : (opsAddOrder b o).2 = b' := by
        simp [opsAddOrder, hv, hm]
      rw [h, opsMatch_err b o e o' b' hm]
      exact hinv
    | ok ts =>
      obtain ⟨binv', hside', hprice', hown', hsafe'⟩ := opsMatch_spec b o ts o' b' hinv hm
      by_cases hrest : (o'.remaining_quantity > 0 && !o'.isComplete) = true
      · have h : (opsAddOrder b o).2 = b'.addOrderToBook o' := by
          simp [opsAddOrder, hv, hm, hrest]
        rw [h]
        rcases Bool.and_eq_true_iff.mp hrest with ⟨hr1, hr2⟩
        have hrem : o'.remaining_quantity > 0 := by simpa using hr1
        have hcomp : o'.isComplete = false := by
          simp only [Bool.not_eq_true'] at hr2
          exact hr2
        refine rest_preserves b' o' binv'.1 binv'.2 hrem ?_
        have hs := hsafe' hrem hcomp
        rw [hside', hprice']
        exact hs
      · have h : (opsAddOrder b o).2 = b' := by
          simp [opsAddOrder, hv, hm, hrest]
        rw [h]
        exact binv'

/-- The cleanup-and-unregister step of `modify_order_with_price_change`
preserves the book invariant. -/
theorem cleanupUnregister_inv (b : OrderBook) (loc : OrderLocation) (order_id : Nat)
    (hinv : BookInv b) : BookInv (cleanupAndUnregister b loc order_id) := by
  obtain ⟨⟨hwfb, hwfa⟩, hcross⟩ := hinv
  cases hside : loc.side with
  | buy =>
    cases hget : alGet b.bids loc.price with
    | none =>
      have h : cleanupAndUnregister b loc order_id =
          { b with order_locations := alRemove b.order_locations order_id } := by
        simp [cleanupAndUnregister, hside, hget]
      rw [h]
      exact ⟨⟨hwfb, hwfa⟩, hcross⟩
    | some oldLvl =>
      by_cases he : oldLvl.isEmpty
      · have h : cleanupAndUnregister b loc order_id =
            { b with
              bids := alRemove b.bids loc.price
              order_locations := alRemove b.order_locations order_id } := by
          simp [cleanupAndUnregister, hside, hget, he]
        rw [h]
        refine ⟨⟨⟨alKeys_remove_nodup _ _ hwfb.1,
          fun pl hpl => hwfb.2 pl (mem_alRemove hpl)⟩, hwfa⟩, ?_⟩
        unfold notCrossedActive at hcross ⊢
        exact notCrossedK_mono _ _ _ _ (activeKeys_remove_subset b.bids loc.price)
          (fun x hx => hx) hcross
      · have h : cleanupAndUnregister b loc order_id =
            { b with order_locations := alRemove b.order_locations order_id } := by
          simp [cleanupAndUnregister, hside, hget, he]
        rw [h]
        exact ⟨⟨hwfb, hwfa⟩, hcross⟩
  | sell =>
    cases hget : alGet b.asks loc.price with
    | none =>
      have h : cleanupAndUnregister b loc order_id =
          { b with order_locations := alRemove b.order_locations order_id } := by
        simp [cleanupAndUnregister, hside, hget]
      rw [h]
      exact ⟨⟨hwfb, hwfa⟩, hcross⟩
    | some oldLvl =>
      by_cases he : oldLvl.isEmpty
      · have h : cleanupAndUnregister b loc order_id =
            { b with
              asks := alRemove b.asks loc.price
              order_locations := alRemove b.order_locations order_id } := by
          simp [cleanupAndUnregister, hside, hget, he]
        rw [h]
        refine ⟨⟨hwfb, ⟨alKeys_remove_nodup _ _ hwfa.1,
          fun pl hpl => hwfa.2 pl (mem_alRemove hpl)⟩⟩, ?_⟩
        unfold notCrossedActive at hcross ⊢
        exact notCrossedK_mono _ _ _ _ (fun x hx => hx)
          (activeKeys_remove_subset b.asks loc.price) hcross
      · have h : cleanupAndUnregister b loc order_id =
            { b with order_locations := alRemove b.order_locations order_id } := by
          simp [cleanupAndUnregister, hside, hget, he]
        rw [h]
        exact ⟨⟨hwfb, hwfa⟩, hcross⟩

/-- `OrderOperations::modify_order_with_price_change` preserves the book
invariant (also through its early-error exits, which keep the removal
already made). -/
theorem opsModifyPrice_inv (b : OrderBook) (order_id new_price : Nat)
    (new_quantity : Option Nat) (hinv : BookInv b) :
    BookInv (opsModifyWithPriceChange b order_id new_price new_quantity).2 := by
  obtain ⟨⟨hwfb, hwfa⟩, hcross⟩ := hinv
  cases hloc : alGet b.order_locations order_id with
  | none =>
    have h : (opsModifyWithPriceChange b order_id new_price new_quantity).2 = b := by
      simp [opsModifyWithPriceChange, hloc]
    rw [h]
    exact ⟨⟨hwfb, hwfa⟩, hcross⟩
  | some loc =>
    cases hside : loc.side with
    | buy =>
      cases hget : alGet b.bids loc.price with
      | none =>
        have h : (opsModifyWithPriceChange b order_id new_price new_quantity).2 = b := by
          simp [opsModifyWithPriceChange, hloc, hside, hget]
        rw [h]
        exact ⟨⟨hwfb, hwfa⟩, hcross⟩
      | some lvl =>
        rcases hrm : lvl.removeOrder order_id with ⟨found, lvl'⟩
        cases found with
        | none =>
          have h : (opsModifyWithPriceChange b order_id new_price new_quantity).2 = b := by
            simp [opsModifyWithPriceChange, hloc, hside, hget, hrm]
          rw [h]
          exact ⟨⟨hwfb, hwfa⟩, hcross⟩
        | some removed =>
          have hinv1 : BookInv { b with bids := alUpdate b.bids loc.price lvl' } := by
            obtain ⟨u1, u2⟩ := updateRemoved_wf hwfb hget hrm
            refine ⟨⟨u1, hwfa⟩, ?_⟩
            unfold notCrossedActive at hcross ⊢
            exact notCrossedK_mono _ _ _ _ u2 (fun x hx => hx) hcross
          cases new_quantity with
          | some q =>
            by_cases hq0 : q = 0
            · have h : (opsModifyWithPriceChange b order_id new_price (some q)).2 =
                  { b with bids := alUpdate b.bids loc.price lvl' } := by
                simp [opsModifyWithPriceChange, hloc, hside, hget, hrm, hq0]
              rw [h]
              exact hinv1
            · by_cases hqf : q < removed.filled_quantity
              · have h : (opsModifyWithPriceChange b order_id new_price (some q)).2 =
                    { b with bids := alUpdate b.bids loc.price lvl' } := by
                  simp [opsModifyWithPriceChange, hloc, hside, hget, hrm, hq0, hqf]
                rw [h]
                exact hinv1
              · have h : (opsModifyWithPriceChange b order_id new_price (some q)).2 =
                    (opsAddOrder
                      (cleanupAndUnregister
                        { b with bids := alUpdate b.bids loc.price lvl' } loc order_id)
                      { removed with
                        price := new_price
                        remaining_quantity := q - removed.filled_quantity
                        original_quantity := q }).2 := by
                  simp [opsModifyWithPriceChange, hloc, hside, hget, hrm, hq0, hqf]
                rw [h]
                exact opsAdd_inv _ _ (cleanupUnregister_inv _ loc order_id hinv1)
          | none =>
            have h : (opsModifyWithPriceChange b order_id new_price none).2 =
                (opsAddOrder
                  (cleanupAndUnregister
                    { b with bids := alUpdate b.bids loc.price lvl' } loc order_id)
                  { removed with price := new_price }).2 := by
              simp [opsModifyWithPriceChange, hloc, hside, hget, hrm]
            rw [h]
            exact opsAdd_inv _ _ (cleanupUnregister_inv _ loc order_id hinv1)
    | sell =>
      cases hget : alGet b.asks loc.price with
      | none =>
        have h : (opsModifyWithPriceChange b order_id new_price new_quantity).2 = b := by
          simp [opsModifyWithPriceChange, hloc, hside, hget]
        rw [h]
        exact ⟨⟨hwfb, hwfa⟩, hcross⟩
      | some lvl =>
        rcases hrm : lvl.removeOrder order_id with ⟨found, lvl'⟩
        cases found with
        | none =>
          have h : (opsModifyWithPriceChange b order_id new_price new_quantity).2 = b := by
            simp [opsModifyWithPriceChange, hloc, hside, hget, hrm]
          rw [h]
          exact ⟨⟨hwfb, hwfa⟩, hcross⟩
        | some removed =>
          have hinv1 : BookInv { b with asks := alUpdate b.asks loc.price lvl' } := by
            obtain ⟨u1, u2⟩ := updateRemoved_wf hwfa hget hrm
            refine ⟨⟨hwfb, u1⟩, ?_⟩
            unfold notCrossedActive at hcross ⊢
            exact notCrossedK_mono _ _ _ _ (fun x hx => hx) u2 hcross
          cases new_quantity with
          | some q =>
            by_cases hq0 : q = 0
            · have h : (opsModifyWithPriceChange b order_id new_price (some q)).2 =
                  { b with asks := alUpdate b.asks loc.price lvl' } := by
                simp [opsModifyWithPriceChange, hloc, hside, hget, hrm, hq0]
              rw [h]
              exact hinv1
            · by_cases hqf : q < removed.filled_quantity
              · have h : (opsModifyWithPriceChange b order_id new_price (some q)).2 =
                    { b with asks := alUpdate b.asks loc.price lvl' } := by
                  simp [opsModifyWithPriceChange, hloc, hside, hget, hrm, hq0, hqf]
                rw [h]
                exact hinv1
              · have h : (opsModifyWithPriceChange b order_id new_price (some q)).2 =
                    (opsAddOrder
                      (cleanupAndUnregister
                        { b with asks := alUpdate b.asks loc.price lvl' } loc order_id)
                      { removed with
                        price := new_price
                        remaining_quantity := q - removed.filled_quantity
                        original_quantity := q }).2 := by
                  simp [opsModifyWithPriceChange, hloc, hside, hget, hrm, hq0, hqf]
                rw [h]
                exact opsAdd_inv _ _ (cleanupUnregister_inv _ loc order_id hinv1)
          | none =>
            have h : (opsModifyWithPriceChange b order_id new_price none).2 =
                (opsAddOrder
                  (cleanupAndUnregister
                    { b with asks := alUpdate b.asks loc.price lvl' } loc order_id)
                  { removed with price := new_price }).2 := by
              simp [opsModifyWithPriceChange, hloc, hside, hget, hrm]
            rw [h]
            exact opsAdd_inv _ _ (cleanupUnregister_inv _ loc order_id hinv1)

/-- `OrderOperations::modify_order` preserves the book invariant. -/
theorem opsModify_inv (b : OrderBook) (order_id : Nat)
    (new_price new_quantity : Option Nat) (hinv : BookInv b) :
    BookInv (opsModifyOrder b order_id new_price new_quantity).2 := by
  cases new_price with
  | some p => exact opsModifyPrice_inv b order_id p new_quantity hinv
  | none =>
    cases new_quantity with
    | some q => exact opsModifyQty_inv b order_id q hinv
    | none => exact hinv

/-- Every operation of the public alphabet preserves the book invariant. -/
theorem applyOp_inv (b : OrderBook) (op : Op) (hinv : BookInv b) :
    BookInv (applyOp b op) := by
  cases op with
  | addLimit o => exact addLimit_inv b o hinv
  | addMarket o => exact addMarket_inv b o hinv
  | addIoc o => exact opsAdd_inv b _ hinv
  | addFok o => exact opsAdd_inv b _ hinv
  | cancel order_id => exact cancel_inv b order_id hinv
  | modify order_id np nq => exact opsModify_inv b order_id np nq hinv

/-- The book invariant holds along every sequence of public operations. -/
theorem applyOps_inv (b : OrderBook) (ops : List Op) (hinv : BookInv b) :
    BookInv (applyOps b ops) := by
  induction ops generalizing b with
  | nil => exact hinv
  | cons op rest ih => exact ih _ (applyOp_inv b op hinv)

/-- A fresh book satisfies the invariant. -/
theorem newBook_inv (s : String) : BookInv (OrderBook.new s) := by
  refine ⟨⟨⟨List.nodup_nil, ?_⟩, ⟨List.nodup_nil, ?_⟩⟩, rfl⟩
  · intro pl hpl
    exact absurd hpl (List.not_mem_nil _)
  · intro pl hpl
    exact absurd hpl (List.not_mem_nil _)

/-- Claim C2 counterexample: the literal never-crossed property over the
raw map keys is falsifiable.  `modify` with a price change pulls the
order out of its level before validating the new quantity; rejecting the
quantity leaves an empty ask level (and its stale location) behind, and a
later limit bid above that price crosses the raw-key best ask.  After the
three operations below, `best_bid = some 10500 > best_ask = some 10000`. -/
theorem crossed_book_reachable :
    notCrossed (applyOps bT
      [Op.addLimit (mkOrd 1 Side.sell OrderType.limit 10000 10),
       Op.modify 1 (some 10000) (some 0),
       Op.addLimit (mkOrd 2 Side.buy OrderType.limit 10500 5)]) = false ∧
    (applyOps bT
      [Op.addLimit (mkOrd 1 Side.sell OrderType.limit 10000 10),
       Op.modify 1 (some 10000) (some 0),
       Op.addLimit (mkOrd 2 Side.buy OrderType.limit 10500 5)]).bestBid =
      some 10500 ∧
    (applyOps bT
      [Op.addLimit (mkOrd 1 Side.sell OrderType.limit 10000 10),
       Op.modify 1 (some 10000) (some 0),
       Op.addLimit (mkOrd 2 Side.buy OrderType.limit 10500 5)]).bestAsk =
      some 10000 := by
  refine ⟨?_, ?_, ?_⟩
  · rfl
  · rfl
  · rfl

/-- Claim C2 as amended: after every sequence of public operations
(`add_limit`, `add_market`, `add_ioc`, `add_fok`, `cancel`, `modify`)
from a fresh book, the book is never crossed on its liquidity-bearing
levels: whenever both sides hold a level with a non-empty queue, the
highest such bid price is strictly below the lowest such ask price.  The
raw-key property of the claim fails only through stale empty levels left
by a failed price-change modify (see the counterexample). -/
theorem never_crossed_on_liquidity (s : String) (ops : List Op) :
    notCrossedActive (applyOps (OrderBook.new s) ops) = true :=
  (applyOps_inv (OrderBook.new s) ops (newBook_inv s)).2

/-- Every trade any accepted order type produces through
`MatchingEngine::match_order` executes at the key of a traversal-list
level holding the passive order. -/
theorem engineDispatch_trades (o : Order) (lvls : List (Nat × PriceLevel))
    (ts : List Trade) (o' : Order) (lvls' : List (Nat × PriceLevel))
    (heq : engineMatchOrder o lvls = Except.ok (ts, o', lvls')) :
    ∀ t ∈ ts, ∃ pl ∈ lvls, t.price = pl.1 ∧
      restingId o.side t ∈ idsOf pl.2.orders := by
  unfold engineMatchOrder at heq
  cases hty : o.order_type with
  | market =>
    simp only [hty] at heq
    injection heq with heq
    have h1 : ts = (engineGo false o lvls).1 := by rw [heq]
    subst h1
    exact engineGo_trades false o lvls
  | limit =>
    simp only [hty] at heq
    injection heq with heq
    have h1 : ts = (engineGo true o lvls).1 := by rw [heq]
    subst h1
    exact engineGo_trades true o lvls
  | immediateOrCancel =>
    simp only [hty] at heq
    injection heq with heq
    unfold matchIocE at heq
    rcases hgo : engineGo true o lvls with ⟨ts0, o0, l0⟩
    simp only [hgo] at heq
    have htr := engineGo_trades true o lvls
    rw [hgo] at htr
    by_cases hr : o0.remaining_quantity > 0
    · rw [if_pos hr] at heq
      rw [Prod.mk.injEq, Prod.mk.injEq] at heq
      obtain ⟨he1, he2⟩ := heq
      subst he1
      exact htr
    · rw [if_neg hr] at heq
      rw [Prod.mk.injEq, Prod.mk.injEq] at heq
      obtain ⟨he1, he2⟩ := heq
      subst he1
      exact htr
  | fillOrKill =>
    simp only [hty] at heq
    injection heq with heq
    unfold matchFokE at heq
    by_cases hav : calcAvailable o lvls < o.remaining_quantity
    · rw [if_pos hav] at heq
      rw [Prod.mk.injEq, Prod.mk.injEq] at heq
      obtain ⟨he1, he2⟩ := heq
      subst he1
      intro t ht
      simp at ht
    · rw [if_neg hav] at heq
      have h1 : ts = (engineGo true o lvls).1 := by rw [heq]
      subst h1
      exact engineGo_trades true o lvls
  | stop =>
    simp only [hty] at heq
    cases heq
  | stopLimit trigger =>
    simp only [hty] at heq
    cases heq

/-- Claim C3: every emitted trade carries the resting (passive) side's
level price, never the aggressor's.  First conjunct: every trade of the
`book.rs` matching wrapper (`OrderBook::match_order` /
`execute_market_order`, shared by `add_limit_order` and
`add_market_order`) executes at the `price` field of an opposite-side
level of the starting book that holds the passive order.  Second
conjunct: the same for every trade `MatchingEngine::match_order`
(`operations.rs` stack) returns, over its priority-sorted traversal
list. -/
theorem trade_price_is_resting_level_price (b : OrderBook) (o : Order) (flag : Bool)
    (hwf : BookWF b) (oe : Order) (lvls : List (Nat × PriceLevel)) (ts : List Trade)
    (oe' : Order) (lvls' : List (Nat × PriceLevel))
    (hlwf : ∀ pl ∈ lvls, LevelWF pl.1 pl.2)
    (heq : engineMatchOrder oe lvls = Except.ok (ts, oe', lvls')) :
    (∀ t ∈ (b.bookMatch o flag).1, ∃ pl : Nat × PriceLevel,
      alGet (oppoOf b o.side) pl.1 = some pl.2 ∧ t.price = pl.2.price ∧
      restingId o.side t ∈ idsOf pl.2.orders) ∧
    (∀ t ∈ ts, ∃ pl ∈ lvls, t.price = pl.2.price ∧
      restingId oe.side t ∈ idsOf pl.2.orders) := by
  constructor
  · intro t ht
    rw [bookMatch_eq] at ht
    have hmwf : MapWF (oppoOf b o.side) := by
      cases hs : o.side
      · exact hwf.2
      · exact hwf.1
    have hnodup : (priorityPrices o.side (alKeys (oppoOf b o.side))).Nodup := by
      unfold priorityPrices
      exact (sortedBy_perm _ _).nodup_iff.mpr hmwf.1
    have htr := bookGo_trades flag b.symbol
      (priorityPrices o.side (alKeys (oppoOf b o.side))) o (oppoOf b o.side)
      (oppoOf b o.side) b.order_locations hnodup (fun q hq => rfl) t ht
    obtain ⟨pl, hget, hteq, hid⟩ := htr
    have hmem : pl ∈ oppoOf b o.side := by
      have h := mem_of_alGet hget
      rwa [Prod.mk.eta] at h
    have hplwf : LevelWF pl.1 pl.2 := hmwf.2 pl hmem
    refine ⟨pl, hget, ?_, hid⟩
    rw [hteq, hplwf.1]
  · intro t ht
    obtain ⟨pl, hmem, hteq, hid⟩ := engineDispatch_trades oe lvls ts oe' lvls' heq t ht
    have hplwf : LevelWF pl.1 pl.2 := hlwf pl hmem
    refine ⟨pl, hmem, ?_, hid⟩
    rw [hteq, hplwf.1]

/-- Witness for C3: the aggressor buy at 10500 against a book holding one
ask level at 10000 trades, and every trade it emits satisfies the
resting-level-price property; the engine conjunct is instantiated at the
empty traversal list. -/
theorem trade_price_is_resting_level_price_witness :
    (∀ t ∈ ((applyOps bT [Op.addLimit (mkOrd 1 Side.sell OrderType.limit 10000 40)]).bookMatch
        (mkOrd 2 Side.buy OrderType.limit 10500 5) true).1,
      ∃ pl : Nat × PriceLevel,
        alGet (oppoOf (applyOps bT [Op.addLimit (mkOrd 1 Side.sell OrderType.limit 10000 40)])
          (mkOrd 2 Side.buy OrderType.limit 10500 5).side) pl.1 = some pl.2 ∧
        t.price = pl.2.price ∧
        restingId (mkOrd 2 Side.buy OrderType.limit 10500 5).side t ∈ idsOf pl.2.orders) ∧
    (∀ t ∈ ([] : List Trade), ∃ pl ∈ ([] : List (Nat × PriceLevel)),
      t.price = pl.2.price ∧
      restingId (mkOrd 3 Side.buy OrderType.limit 9000 7).side t ∈ idsOf pl.2.orders) :=
  trade_price_is_resting_level_price
    (applyOps bT [Op.addLimit (mkOrd 1 Side.sell OrderType.limit 10000 40)])
    (mkOrd 2 Side.buy OrderType.limit 10500 5) true (by decide)
    (mkOrd 3 Side.buy OrderType.limit 9000 7) [] [] (mkOrd 3 Side.buy OrderType.limit 9000 7) []
    (by simp) rfl

/-- Claim C4 counterexample: FOK rejection is not side-effect free as
claimed.  (i) A price-0 FOK that cannot be filled is rejected with
`InvalidPrice` by `validate_order`, not accepted with an empty event
list.  (ii) On a book holding a stale empty ask level (left by a failed
price-change modify), an unfillable FOK returns `Ok []` but the cleanup
pass silently deletes that level: the book is mutated. -/
theorem fok_rejection_not_clean :
    (bT.addFokOrder (mkOrd 1 Side.buy OrderType.fillOrKill 0 5)).1 =
      Except.error OrderBookError.invalidPrice ∧
    ((applyOps bT [Op.addLimit (mkOrd 1 Side.sell OrderType.limit 10000 10),
        Op.modify 1 (some 10000) (some 0)]).addFokOrder
      (mkOrd 2 Side.buy OrderType.fillOrKill 10500 5)).1 = Except.ok [] ∧
    ((applyOps bT [Op.addLimit (mkOrd 1 Side.sell OrderType.limit 10000 10),
        Op.modify 1 (some 10000) (some 0)]).addFokOrder
      (mkOrd 2 Side.buy OrderType.fillOrKill 10500 5)).2.asks = [] ∧
    (applyOps bT [Op.addLimit (mkOrd 1 Side.sell OrderType.limit 10000 10),
        Op.modify 1 (some 10000) (some 0)]).asks ≠ [] := by
  refine ⟨rfl, rfl, rfl, ?_⟩
  decide

/-- Claim C4 as amended: for a well-formed FOK order (positive
quantities, non-zero price, fresh status) against a book whose opposite
side is well formed and holds no stale empty level, if the price-eligible
available quantity is below the order's remaining quantity then
`add_order` returns `Ok []` and the book is exactly unchanged. -/
theorem fok_insufficient_is_clean (b : OrderBook) (o : Order)
    (hty : o.order_type = OrderType.fillOrKill)
    (hst : o.status = OrderStatus.new)
    (hp : o.price ≠ 0) (ho : o.original_quantity ≠ 0)
    (hr : o.remaining_quantity ≠ 0)
    (hwf : BookWF b)
    (hne : ∀ pl ∈ (match o.side with
        | Side.buy => b.asks
        | Side.sell => b.bids), pl.2.isEmpty = false)
    (hav : calcAvailable o (sortedPairs o.side (match o.side with
        | Side.buy => b.asks
        | Side.sell => b.bids)) < o.remaining_quantity) :
    opsAddOrder b o = (Except.ok [], b) := by
  have hval : validateOrder o = Except.ok () := by
    simp [validateOrder, hty, hst, hp, ho, hr]
  have hvfm : validateForMatching o = Except.ok () := by
    simp [validateForMatching, hty, hp, hr, Order.isComplete, hst]
  cases hside : o.side with
  | buy =>
    simp only [hside] at hne hav
    have hwb : writeBack b.asks (sortedPairs Side.buy b.asks) = b.asks :=
      writeBack_id _ _ (fun pl hpl => alGet_of_mem hwf.2.1
        (by rw [Prod.mk.eta]; exact mem_of_mem_sortedPairs hpl))
    have hcl : cleanupLevels b.asks (sortedPairs Side.buy b.asks) = b.asks :=
      cleanup_id _ _ (fun pl hpl => hne pl (mem_of_mem_sortedPairs hpl))
    have heng : engineMatchOrder o (sortedPairs Side.buy b.asks) =
        Except.ok ([], o.cancel, sortedPairs Side.buy b.asks) := by
      unfold engineMatchOrder
      rw [hty]
      unfold matchFokE
      rw [if_pos hav]
    have hmo : opsMatchOrder b o = (Except.ok [], o.cancel, b) := by
      rw [opsMatchOrder_buy b o hside, hside]
      simp only [hvfm]
      simp only [heng]
      rw [hwb, hcl]
    simp [opsAddOrder, hval, hmo, Order.cancel, Order.isComplete]
  | sell =>
    simp only [hside] at hne hav
    have hwb : writeBack b.bids (sortedPairs Side.sell b.bids) = b.bids :=
      writeBack_id _ _ (fun pl hpl => alGet_of_mem hwf.1.1
        (by rw [Prod.mk.eta]; exact mem_of_mem_sortedPairs hpl))
    have hcl : cleanupLevels b.bids (sortedPairs Side.sell b.bids) = b.bids :=
      cleanup_id _ _ (fun pl hpl => hne pl (mem_of_mem_sortedPairs hpl))
    have heng : engineMatchOrder o (sortedPairs Side.sell b.bids) =
        Except.ok ([], o.cancel, sortedPairs Side.sell b.bids) := by
      unfold engineMatchOrder
      rw [hty]
      unfold matchFokE
      rw [if_pos hav]
    have hmo : opsMatchOrder b o = (Except.ok [], o.cancel, b) := by
      rw [opsMatchOrder_sell b o hside, hside]
      simp only [hvfm]
      simp only [heng]
      rw [hwb, hcl]
    simp [opsAddOrder, hval, hmo, Order.cancel, Order.isComplete]

/-- Witness for the amended C4: a FOK buy of 50 against a single ask
level holding 40 is cleanly rejected and the book is unchanged. -/
theorem fok_insufficient_is_clean_witness :
    opsAddOrder (applyOps bT [Op.addLimit (mkOrd 1 Side.sell OrderType.limit 10000 40)])
        (mkOrd 2 Side.buy OrderType.fillOrKill 10500 50) =
      (Except.ok [],
        applyOps bT [Op.addLimit (mkOrd 1 Side.sell OrderType.limit 10000 40)]) :=
  fok_insufficient_is_clean _ _ rfl rfl (by decide) (by decide) (by decide)
    (by decide) (by decide) (by decide)

/-- When the `book.rs` matching wrapper trades nothing, it returns the
book exactly unchanged. -/
theorem bookMatch_no_trades (b : OrderBook) (o : Order) (flag : Bool)
    (hwf : BookWF b) (h : (b.bookMatch o flag).1 = []) :
    (b.bookMatch o flag).2.2 = b := by
  have hmwf : MapWF (oppoOf b o.side) := by
    cases hs : o.side
    · exact hwf.2
    · exact hwf.1
  have h' : (bookGo flag b.symbol (priorityPrices o.side (alKeys (oppoOf b o.side)))
      o (oppoOf b o.side) b.order_locations).1 = [] := by
    rw [bookMatch_eq] at h
    exact h
  obtain ⟨k1, k2, k3⟩ := bookGo_no_trades flag b.symbol
    (priorityPrices o.side (alKeys (oppoOf b o.side))) o (oppoOf b o.side)
    b.order_locations hmwf h'
  rw [bookMatch_eq]
  rw [k2, k3, h']
  cases hs : o.side
  · rfl
  · rfl

/-- Claim C5 counterexample: a market order that matches no liquidity is
not always answered with `NoLiquidity` — `add_market_order` checks the
symbol first, so a wrong-symbol market order (zero fills) is rejected
with `InvalidSymbol` instead. -/
theorem market_no_liquidity_not_returned :
    (bT.addMarketOrder
        { mkOrd 1 Side.buy OrderType.market 0 5 with symbol := "X" }).1 =
      Except.error OrderBookError.invalidSymbol := by
  rfl

/-- Claim C5 as amended: for a market order passing the entry checks
(matching symbol, `Market` type) on a well-formed book, if matching
produced no trade the call returns `NoLiquidity` with the book exactly
unchanged, and if it produced trades the call returns exactly one
`Trade` event per fill (at least one) while the order's own side of the
book is untouched — the residual is discarded, never rested. -/
theorem market_order_dichotomy (b : OrderBook) (o : Order)
    (hsym : o.symbol = b.symbol) (hty : o.order_type = OrderType.market)
    (hwf : BookWF b) :
    ((b.bookMatch o false).1 = [] →
      b.addMarketOrder o = (Except.error OrderBookError.noLiquidity, b)) ∧
    ((b.bookMatch o false).1 ≠ [] →
      (b.addMarketOrder o).1 =
        Except.ok ((b.bookMatch o false).1.map MarketEvent.trade) ∧
      1 ≤ ((b.bookMatch o false).1.map MarketEvent.trade).length ∧
      (match o.side with
       | Side.buy => (b.addMarketOrder o).2.bids = b.bids
       | Side.sell => (b.addMarketOrder o).2.asks = b.asks)) := by
  constructor
  · intro h0
    have hbook := bookMatch_no_trades b o false hwf h0
    have hred : b.addMarketOrder o =
        (Except.error OrderBookError.noLiquidity, (b.bookMatch o false).2.2) := by
      unfold OrderBook.addMarketOrder
      rw [bookMatchE_eq]
      simp [hsym, hty, h0]
    rw [hred, hbook]
  · intro h0
    have hred : b.addMarketOrder o =
        (Except.ok ((b.bookMatch o false).1.map MarketEvent.trade),
          (b.bookMatch o false).2.2) := by
      unfold OrderBook.addMarketOrder
      rw [bookMatchE_eq]
      simp [hsym, hty, List.isEmpty_iff, h0]
    refine ⟨by rw [hred], ?_, ?_⟩
    · rw [List.length_map]
      rcases hcase : (b.bookMatch o false).1 with _ | ⟨t, rest⟩
      · exact absurd hcase h0
      · simp
    · cases hs : o.side
      · rw [hred, bookMatch_eq, hs]
        rw [applyStats_bids]
        rfl
      · rw [hred, bookMatch_eq, hs]
        rw [applyStats_asks]
        rfl

/-- Witness for the amended C5: a market buy of 50 against an ask level
of 40 trades once (one `Trade` event, no resting of the 10 left over),
and the no-trade branch holds vacuously. -/
theorem market_order_dichotomy_witness :
    (((applyOps bT [Op.addLimit (mkOrd 1 Side.sell OrderType.limit 10000 40)]).bookMatch
        (mkOrd 2 Side.buy OrderType.market 0 50) false).1 = [] →
      (applyOps bT [Op.addLimit (mkOrd 1 Side.sell OrderType.limit 10000 40)]).addMarketOrder
          (mkOrd 2 Side.buy OrderType.market 0 50) =
        (Except.error OrderBookError.noLiquidity,
          applyOps bT [Op.addLimit (mkOrd 1 Side.sell OrderType.limit 10000 40)])) ∧
    (((applyOps bT [Op.addLimit (mkOrd 1 Side.sell OrderType.limit 10000 40)]).bookMatch
        (mkOrd 2 Side.buy OrderType.market 0 50) false).1 ≠ [] →
      ((applyOps bT [Op.addLimit (mkOrd 1 Side.sell OrderType.limit 10000 40)]).addMarketOrder
          (mkOrd 2 Side.buy OrderType.market 0 50)).1 =
        Except.ok
          (((applyOps bT [Op.addLimit (mkOrd 1 Side.sell OrderType.limit 10000 40)]).bookMatch
            (mkOrd 2 Side.buy OrderType.market 0 50) false).1.map MarketEvent.trade) ∧
      1 ≤ (((applyOps bT [Op.addLimit (mkOrd 1 Side.sell OrderType.limit 10000 40)]).bookMatch
            (mkOrd 2 Side.buy OrderType.market 0 50) false).1.map MarketEvent.trade).length ∧
      (match (mkOrd 2 Side.buy OrderType.market 0 50).side with
       | Side.buy =>
        ((applyOps bT [Op.addLimit (mkOrd 1 Side.sell OrderType.limit 10000 40)]).addMarketOrder
          (mkOrd 2 Side.buy OrderType.market 0 50)).2.bids =
          (applyOps bT [Op.addLimit (mkOrd 1 Side.sell OrderType.limit 10000 40)]).bids
       | Side.sell =>
        ((applyOps bT [Op.addLimit (mkOrd 1 Side.sell OrderType.limit 10000 40)]).addMarketOrder
          (mkOrd 2 Side.buy OrderType.market 0 50)).2.asks =
          (applyOps bT [Op.addLimit (mkOrd 1 Side.sell OrderType.limit 10000 40)]).asks)) :=
  market_order_dichotomy
    (applyOps bT [Op.addLimit (mkOrd 1 Side.sell OrderType.limit 10000 40)])
    (mkOrd 2 Side.buy OrderType.market 0 50) rfl rfl (by decide)

/-! ## Round-trip lemmas (`add_limit` then `cancel`) -/

theorem alGet_append_fresh {α : Type} (m : List (Nat × α)) (k : Nat) (v : α)
    (h : alGet m k = none) : alGet (m ++ [(k, v)]) k = some v := by
  induction m with
  | nil => simp [alGet]
  | cons hd rest ih =>
    rcases hd with ⟨k0, v0⟩
    simp only [alGet] at h
    by_cases hk : k0 = k
    · rw [if_pos hk] at h
      cases h
    · rw [if_neg hk] at h
      simp only [List.cons_append, alGet, if_neg hk]
      exact ih h

theorem alRemove_append_fresh {α : Type} (m : List (Nat × α)) (k : Nat) (v : α)
    (h : alGet m k = none) : alRemove (m ++ [(k, v)]) k = m := by
  induction m with
  | nil => simp [alRemove]
  | cons hd rest ih =>
    rcases hd with ⟨k0, v0⟩
    simp only [alGet] at h
    by_cases hk : k0 = k
    · rw [if_pos hk] at h
      cases h
    · rw [if_neg hk] at h
      simp only [List.cons_append, alRemove, if_neg hk, List.append_eq]
      rw [ih h]

theorem alUpdate_update {α : Type} (m : List (Nat × α)) (k : Nat) (v v' : α) :
    alUpdate (alUpdate m k v) k v' = alUpdate m k v' := by
  induction m with
  | nil => rfl
  | cons hd rest ih =>
    rcases hd with ⟨k0, v0⟩
    by_cases hk : k0 = k
    · simp [alUpdate, hk]
    · simp [alUpdate, hk, ih]

theorem removeById_append_fresh (order_id : Nat) (q : List Order) (o : Order)
    (hid : o.id = order_id) (hnot : order_id ∉ idsOf q) :
    removeById order_id (q ++ [o]) = (some o, q) := by
  induction q with
  | nil => simp [removeById, hid]
  | cons hd tail ih =>
    have hhd : hd.id ≠ order_id := by
      intro hc
      exact hnot (by rw [← hc]; exact List.mem_map_of_mem _ (List.mem_cons_self _ _))
    have htail : order_id ∉ idsOf tail := by
      intro hc
      exact hnot (List.mem_cons_of_mem _ hc)
    simp only [List.cons_append, removeById, if_neg hhd, List.append_eq, ih htail]

/-- Removing a freshly appended order restores the level exactly. -/
theorem addOrder_removeOrder (lvl : PriceLevel) (o : Order)
    (hnot : o.id ∉ idsOf lvl.orders) :
    (lvl.addOrder o).removeOrder o.id = (some o, lvl) := by
  unfold PriceLevel.removeOrder
  have hrb : removeById o.id (lvl.addOrder o).orders = (some o, lvl.orders) := by
    show removeById o.id (lvl.orders ++ [o]) = (some o, lvl.orders)
    exact removeById_append_fresh o.id lvl.orders o rfl hnot
  simp only [hrb]
  rcases lvl with ⟨lp, lo, lt, lc⟩
  simp [PriceLevel.addOrder]

/-- The `book.rs` limit loop trades nothing when no opposite price is
eligible. -/
theorem bookGo_all_break (symbol : String) (prices : List Nat) (o : Order)
    (m : List (Nat × PriceLevel)) (locs : List (Nat × OrderLocation))
    (h : ∀ p ∈ prices, canMatchB o.side o.price p = false) :
    bookGo true symbol prices o m locs = ([], o, m, locs) := by
  cases prices with
  | nil => rfl
  | cons p ps =>
    by_cases h0 : o.remaining_quantity = 0
    · simp [bookGo, h0]
    · have hc := h p (List.mem_cons_self _ _)
      simp [bookGo, h0, hc]

/-- Claim C9 counterexample: the add-then-cancel round trip fails for a
crossing limit order.  A buy at 10500 against an ask level of 40 at
10000 fills completely and rests nothing; the subsequent cancel finds no
order, and the consumed ask liquidity is gone: `best_ask` and
`total_orders` differ from before. -/
theorem add_cancel_not_roundtrip :
    ((((applyOps bT [Op.addLimit (mkOrd 1 Side.sell OrderType.limit 10000 40)]).addLimitOrder
        (mkOrd 2 Side.buy OrderType.limit 10500 40)).2.cancelOrder 2).1 =
      Except.error OrderBookError.orderNotFound) ∧
    ((((applyOps bT [Op.addLimit (mkOrd 1 Side.sell OrderType.limit 10000 40)]).addLimitOrder
        (mkOrd 2 Side.buy OrderType.limit 10500 40)).2.cancelOrder 2).2.bestAsk = none) ∧
    ((applyOps bT [Op.addLimit (mkOrd 1 Side.sell OrderType.limit 10000 40)]).bestAsk =
      some 10000) ∧
    ((((applyOps bT [Op.addLimit (mkOrd 1 Side.sell OrderType.limit 10000 40)]).addLimitOrder
        (mkOrd 2 Side.buy OrderType.limit 10500 40)).2.cancelOrder 2).2.totalOrders = 0) ∧
    ((applyOps bT [Op.addLimit (mkOrd 1 Side.sell OrderType.limit 10000 40)]).totalOrders = 1) := by
  refine ⟨rfl, rfl, rfl, rfl, rfl⟩

/-- Claim C9 as amended: the round trip holds for a non-crossing limit
order with a fresh id on a book whose own side holds no stale empty
level and no order with the same id: `add_limit` followed by `cancel` of
the order's id restores the book state exactly (hence the same
`best_bid`, `best_ask` and `total_orders`). -/
theorem add_cancel_roundtrip (b : OrderBook) (o : Order)
    (hsym : o.symbol = b.symbol)
    (hrem : 0 < o.remaining_quantity)
    (hfresh : alGet b.order_locations o.id = none)
    (hnomatch : ∀ x ∈ alKeys (oppoOf b o.side), canMatchB o.side o.price x = false)
    (hownids : ∀ pl ∈ (match o.side with | Side.buy => b.bids | Side.sell => b.asks),
      o.id ∉ idsOf pl.2.orders)
    (hownne : ∀ pl ∈ (match o.side with | Side.buy => b.bids | Side.sell => b.asks),
      pl.2.isEmpty = false) :
    (((b.addLimitOrder o).2).cancelOrder o.id).2 = b := by
  have hall : ∀ p ∈ priorityPrices o.side (alKeys (oppoOf b o.side)),
      canMatchB o.side o.price p = false := by
    intro p hp
    apply hnomatch
    unfold priorityPrices at hp
    exact (mem_sortedBy _ _ _).mp hp
  have hbm : b.bookMatch o true = ([], o, b) := by
    rw [bookMatch_eq]
    rw [bookGo_all_break b.symbol _ o _ _ hall]
    cases hs : o.side
    · rfl
    · rfl
  have hadd : (b.addLimitOrder o).2 = b.addOrderToBook o := by
    simp [OrderBook.addLimitOrder, hsym, bookMatchE_eq, hbm, hrem]
  cases hside : o.side with
  | buy =>
    simp only [hside] at hownids hownne
    cases hget : alGet b.bids o.price with
    | some lvl =>
      have hb1 : b.addOrderToBook o =
          { b with
            bids := alUpdate b.bids o.price (lvl.addOrder o)
            order_locations :=
              b.order_locations ++ [(o.id, (⟨o.price, Side.buy⟩ : OrderLocation))] } := by
        simp [OrderBook.addOrderToBook, hside, alGetOrInsert, hget, alInsert, hfresh]
      have hloc2 : alGet (b.order_locations ++
          [(o.id, (⟨o.price, Side.buy⟩ : OrderLocation))]) o.id =
          some ⟨o.price, Side.buy⟩ := alGet_append_fresh _ _ _ hfresh
      have hremloc : alRemove (b.order_locations ++
          [(o.id, (⟨o.price, Side.buy⟩ : OrderLocation))]) o.id = b.order_locations :=
        alRemove_append_fresh _ _ _ hfresh
      have hlook : alGet (alUpdate b.bids o.price (lvl.addOrder o)) o.price =
          some (lvl.addOrder o) :=
        alGet_update_self _ _ _ (by rw [hget]; rfl)
      have hro := addOrder_removeOrder lvl o (hownids (o.price, lvl) (mem_of_alGet hget))
      have hne : lvl.isEmpty = false := hownne (o.price, lvl) (mem_of_alGet hget)
      have hupd : alUpdate (alUpdate b.bids o.price (lvl.addOrder o)) o.price lvl =
          b.bids := by
        rw [alUpdate_update]
        exact alUpdate_same hget
      rw [hadd, hb1]
      simp [OrderBook.cancelOrder, hloc2, hremloc, hlook, hro, hne, hupd]
    | none =>
      have hb1 : b.addOrderToBook o =
          { b with
            bids := b.bids ++ [(o.price, (PriceLevel.new o.price).addOrder o)]
            order_locations :=
              b.order_locations ++ [(o.id, (⟨o.price, Side.buy⟩ : OrderLocation))] } := by
        simp [OrderBook.addOrderToBook, hside, alGetOrInsert, hget, alInsert, hfresh,
          alUpdate_append_fresh b.bids o.price _ _ hget]
      have hloc2 : alGet (b.order_locations ++
          [(o.id, (⟨o.price, Side.buy⟩ : OrderLocation))]) o.id =
          some ⟨o.price, Side.buy⟩ := alGet_append_fresh _ _ _ hfresh
      have hremloc : alRemove (b.order_locations ++
          [(o.id, (⟨o.price, Side.buy⟩ : OrderLocation))]) o.id = b.order_locations :=
        alRemove_append_fresh _ _ _ hfresh
      have hlook : alGet (b.bids ++ [(o.price, (PriceLevel.new o.price).addOrder o)])
          o.price = some ((PriceLevel.new o.price).addOrder o) :=
        alGet_append_fresh _ _ _ hget
      have hro := addOrder_removeOrder (PriceLevel.new o.price) o
        (by simp [PriceLevel.new, idsOf])
      have hrm : alRemove (b.bids ++ [(o.price, (PriceLevel.new o.price).addOrder o)])
          o.price = b.bids := alRemove_append_fresh _ _ _ hget
      have hemp : (PriceLevel.new o.price).isEmpty = true := rfl
      rw [hadd, hb1]
      simp [OrderBook.cancelOrder, hloc2, hremloc, hlook, hro, hrm, hemp]
  | sell =>
    simp only [hside] at hownids hownne
    cases hget : alGet b.asks o.price with
    | some lvl =>
      have hb1 : b.addOrderToBook o =
          { b with
            asks := alUpdate b.asks o.price (lvl.addOrder o)
            order_locations :=
              b.order_locations ++ [(o.id, (⟨o.price, Side.sell⟩ : OrderLocation))] } := by
        simp [OrderBook.addOrderToBook, hside, alGetOrInsert, hget, alInsert, hfresh]
      have hloc2 : alGet (b.order_locations ++
          [(o.id, (⟨o.price, Side.sell⟩ : OrderLocation))]) o.id =
          some ⟨o.price, Side.sell⟩ := alGet_append_fresh _ _ _ hfresh
      have hremloc : alRemove (b.order_locations ++
          [(o.id, (⟨o.price, Side.sell⟩ : OrderLocation))]) o.id = b.order_locations :=
        alRemove_append_fresh _ _ _ hfresh
      have hlook : alGet (alUpdate b.asks o.price (lvl.addOrder o)) o.price =
          some (lvl.addOrder o) :=
        alGet_update_self _ _ _ (by rw [hget]; rfl)
      have hro := addOrder_removeOrder lvl o (hownids (o.price, lvl) (mem_of_alGet hget))
      have hne : lvl.isEmpty = false := hownne (o.price, lvl) (mem_of_alGet hget)
      have hupd : alUpdate (alUpdate b.asks o.price (lvl.addOrder o)) o.price lvl =
          b.asks := by
        rw [alUpdate_update]
        exact alUpdate_same hget
      rw [hadd, hb1]
      simp [OrderBook.cancelOrder, hloc2, hremloc, hlook, hro, hne, hupd]
    | none =>
      have hb1 : b.addOrderToBook o =
          { b with
            asks := b.asks ++ [(o.price, (PriceLevel.new o.price).addOrder o)]
            order_locations :=
              b.order_locations ++ [(o.id, (⟨o.price, Side.sell⟩ : OrderLocation))] } := by
        simp [OrderBook.addOrderToBook, hside, alGetOrInsert, hget, alInsert, hfresh,
          alUpdate_append_fresh b.asks o.price _ _ hget]
      have hloc2 : alGet (b.order_locations ++
          [(o.id, (⟨o.price, Side.sell⟩ : OrderLocation))]) o.id =
          some ⟨o.price, Side.sell⟩ := alGet_append_fresh _ _ _ hfresh
      have hremloc : alRemove (b.order_locations ++
          [(o.id, (⟨o.price, Side.sell⟩ : OrderLocation))]) o.id = b.order_locations :=
        alRemove_append_fresh _ _ _ hfresh
      have hlook : alGet (b.asks ++ [(o.price, (PriceLevel.new o.price).addOrder o)])
          o.price = some ((PriceLevel.new o.price).addOrder o) :=
        alGet_append_fresh _ _ _ hget
      have hro := addOrder_removeOrder (PriceLevel.new o.price) o
        (by simp [PriceLevel.new, idsOf])
      have hrm : alRemove (b.asks ++ [(o.price, (PriceLevel.new o.price).addOrder o)])
          o.price = b.asks := alRemove_append_fresh _ _ _ hget
      have hemp : (PriceLevel.new o.price).isEmpty = true := rfl
      rw [hadd, hb1]
      simp [OrderBook.cancelOrder, hloc2, hremloc, hlook, hro, hrm, hemp]

/-- Witness for the amended C9: adding a non-crossing buy at 9000 (fresh
id 2) against a book holding one ask at 10000 and cancelling it restores
the book exactly. -/
theorem add_cancel_roundtrip_witness :
    ((((applyOps bT [Op.addLimit (mkOrd 1 Side.sell OrderType.limit 10000 40)]).addLimitOrder
        (mkOrd 2 Side.buy OrderType.limit 9000 10)).2).cancelOrder
      (mkOrd 2 Side.buy OrderType.limit 9000 10).id).2 =
      applyOps bT [Op.addLimit (mkOrd 1 Side.sell OrderType.limit 10000 40)] :=
  add_cancel_roundtrip _ _ rfl (by decide) (by decide) (by decide) (by decide) (by decide)

end OrderbookProof

